import Mathlib

/-!
# Line-Intersections: segment, rectangle and ray-march core

A shallow embedding of `src/main.cpp`.

Conventions of the embedding.

* The functions are embedded twice. The definitions in the namespace `LineIntersections` compute
  with exact rationals: they follow the control flow and the algebra of the source. The definitions
  in `LineIntersections.IEEE` round after every operation as binary32 (`float`) and binary64
  (`double`) do; the values are the rationals that the formats hold.
* A division whose divisor can be zero (`rx1`, `ry1`, `rx2`, `ry2`) yields `Option ℚ`:
  `none` stands for the non-finite IEEE results (`±inf`, `NaN`), which fail every
  `>= 0 && <= 1` test.
* An out-parameter `sf::Vector2f* intersect` becomes an `Option Vector2f` result: `some p`
  is "returned `true` and wrote `p`", `none` is "returned `false`, nothing written".
* `std::cos`/`std::sin` are library functions with irrational values away from `0`; they are
  a parameter (`Trig`) that fixes only their exact values at `0`. `std::atan2` is a parameter of
  `angleBetweenPoints` in the same way.
* The `while` loop of `castRay` is run with fuel; `none` means the fuel ran out.
-/

namespace LineIntersections

/-! ## Data model -/

/-- The type `sf::Vector2f`: a point with two coordinates. -/
structure Vector2f where
  x : ℚ
  y : ℚ
  deriving DecidableEq, Repr

/-- The type `std::array<sf::Vertex, 2>`, of which the program only uses the two positions. -/
structure Line where
  p0 : Vector2f
  p1 : Vector2f
  deriving DecidableEq, Repr

/-- The type `std::array<T, 4>`: four elements, indexed `0` to `3`. -/
structure Array4 (α : Type) where
  e0 : α
  e1 : α
  e2 : α
  e3 : α
  deriving DecidableEq, Repr

/-- The elements of a `std::array<T, 4>` from `begin()` to `end()`. -/
def Array4.toList {α : Type} (a : Array4 α) : List α :=
  [a.e0, a.e1, a.e2, a.e3]

/-- The element access `a[i]` of a `std::array<T, 4>`. -/
def Array4.get {α : Type} (a : Array4 α) : Fin 4 → α
  | 0 => a.e0
  | 1 => a.e1
  | 2 => a.e2
  | 3 => a.e3

/-- The type `sf::FloatRect`: top-left corner and extent. -/
structure FloatRect where
  left : ℚ
  top : ℚ
  width : ℚ
  height : ℚ
  deriving DecidableEq, Repr

/-- Library functions `std::cos` and `std::sin` as the program receives them (already cast to
`float`), with the two values that are exact: `cos 0 = 1` and `sin 0 = 0`. -/
structure Trig where
  cos : ℚ → ℚ
  sin : ℚ → ℚ
  cos_zero : cos 0 = 1
  sin_zero : sin 0 = 0

/-- A concrete pair of trigonometric functions (Taylor polynomials around `0`), used where a
closed evaluation needs one. -/
def taylorTrig : Trig where
  cos := fun t => 1 - t ^ 2 / 2 + t ^ 4 / 24
  sin := fun t => t - t ^ 3 / 6
  cos_zero := by norm_num
  sin_zero := by norm_num

/-- The constant `PI = 3.14159265359` (line 5). -/
def PI : ℚ := 314159265359 / 100000000000

/-- The constant `DEGREE_RADIAN_RATIO = 0.0174533` (line 6). -/
def DEGREE_RADIAN_RATIO : ℚ := 174533 / 10000000

/-! ## Numeric helpers of the C++ library -/

/-- The function `std::round`: nearest integer, halfway cases away from zero. The source casts the
result to `int` (line 29); the model keeps the mathematical integer, which is the value of the cast
whenever the denominator is within the range of `int`. -/
def cRound (q : ℚ) : ℤ :=
  if 0 ≤ q then ⌊q + 1 / 2⌋ else -⌊-q + 1 / 2⌋

/-- IEEE division of finite operands: a zero divisor gives a non-finite value (`none`). -/
def fdiv (a b : ℚ) : Option ℚ :=
  if b = 0 then none else some (a / b)

/-- The test `r >= 0 && r <= 1` on a possibly non-finite value; non-finite values fail it. -/
def inUnit : Option ℚ → Bool
  | none => false
  | some r => decide (0 ≤ r) && decide (r ≤ 1)

/-- The test `std::sqrt(s) <= limit` for `s ≥ 0`, without computing the root:
it holds exactly when `limit` is non-negative and `s ≤ limit²`. -/
def sqrtLe (s limit : ℚ) : Bool :=
  decide (0 ≤ limit) && decide (s ≤ limit ^ 2)

/-- Library routine `sf::Rect<float>::intersects` of SFML 2.x, which the program links against
(`rect.intersects(line_rect)`, line 98); it is not part of the repository. The library normalises
both rectangles with `min`/`max`, intersects the two ranges on each axis and answers `true` only
when the intersection has positive, non-zero area (`interLeft < interRight && interTop < interBottom`). -/
def FloatRect.intersects (r1 r2 : FloatRect) : Bool :=
  let r1MinX := min r1.left (r1.left + r1.width)
  let r1MaxX := max r1.left (r1.left + r1.width)
  let r1MinY := min r1.top (r1.top + r1.height)
  let r1MaxY := max r1.top (r1.top + r1.height)
  let r2MinX := min r2.left (r2.left + r2.width)
  let r2MaxX := max r2.left (r2.left + r2.width)
  let r2MinY := min r2.top (r2.top + r2.height)
  let r2MaxY := max r2.top (r2.top + r2.height)
  let interLeft := max r1MinX r2MinX
  let interTop := max r1MinY r2MinY
  let interRight := min r1MaxX r2MaxX
  let interBottom := min r1MaxY r2MaxY
  decide (interLeft < interRight) && decide (interTop < interBottom)

/-! ## Orientation helper (lines 8-11) -/

/-- The function `angleBetweenPoints` (lines 8-11), with the library function `std::atan2` as a
parameter. -/
def angleBetweenPoints (atan2 : ℚ → ℚ → ℚ) (a b : Vector2f) : ℚ :=
  atan2 (a.y - b.y) (a.x - b.x) * 180 / PI

/-! ## Intersection engine (lines 13-104) -/

/-- The function `lineLineIntersection` (lines 13-60). -/
def lineLineIntersection (line1 line2 : Line) : Option Vector2f :=
  let p1 := line1.p0
  let p2 := line1.p1
  let p3 := line2.p0
  let p4 := line2.p1
  let dx1 := p1.x - p2.x
  let dy1 := p1.y - p2.y
  let dx2 := p3.x - p4.x
  let dy2 := p3.y - p4.y
  let denominator := (dx1 * dy2) - (dy1 * dx2)
  if cRound denominator = 0 then none
  else
    let a := (p1.x * p2.y) - (p1.y * p2.x)
    let b := (p3.x * p4.y) - (p3.y * p4.x)
    let x_numerator := (a * dx2) - (b * dx1)
    let y_numerator := (a * dy2) - (b * dy1)
    let x_intersect := x_numerator / denominator
    let y_intersect := y_numerator / denominator
    let rx1 := fdiv (x_intersect - p1.x) (-dx1)
    let ry1 := fdiv (y_intersect - p1.y) (-dy1)
    let rx2 := fdiv (x_intersect - p3.x) (-dx2)
    let ry2 := fdiv (y_intersect - p3.y) (-dy2)
    if (inUnit rx1 || inUnit ry1) && (inUnit rx2 || inUnit ry2) then
      some ⟨x_intersect, y_intersect⟩
    else none

/-- The function `getRectVertices` (lines 62-70). -/
def getRectVertices (rect : FloatRect) : Array4 Vector2f :=
  let p1 : Vector2f := ⟨rect.left, rect.top⟩
  let p2 : Vector2f := ⟨rect.left + rect.width, rect.top⟩
  let p3 : Vector2f := ⟨rect.left + rect.width, rect.top + rect.height⟩
  let p4 : Vector2f := ⟨rect.left, rect.top + rect.height⟩
  ⟨p1, p2, p3, p4⟩

/-- The function `getRectLines` (lines 72-83). -/
def getRectLines (rect : FloatRect) : Array4 Line :=
  let vertices := getRectVertices rect
  let line1 : Line := ⟨vertices.e0, vertices.e1⟩
  let line2 : Line := ⟨vertices.e1, vertices.e2⟩
  let line3 : Line := ⟨vertices.e2, vertices.e3⟩
  let line4 : Line := ⟨vertices.e3, vertices.e0⟩
  ⟨line1, line2, line3, line4⟩

/-- The function `getLineRect` (lines 85-93). -/
def getLineRect (line : Line) : FloatRect :=
  ⟨min line.p0.x line.p1.x,
   min line.p0.y line.p1.y,
   |line.p0.x - line.p1.x|,
   |line.p0.y - line.p1.y|⟩

/-- The function `lineRectIntersection` (lines 95-104): `std::any_of` over the four edges stops at
the first edge for which `lineLineIntersection` returns `true`, and that call wrote the point. -/
def lineRectIntersection (line : Line) (rect : FloatRect) : Option Vector2f :=
  let line_rect := getLineRect line
  if rect.intersects line_rect then
    let lines := getRectLines rect
    lines.toList.findSome? (fun rect_line => lineLineIntersection line rect_line)
  else none

/-! ## Ray caster (lines 106-138) -/

/-- One evaluation of the expression assigned to `hit` (lines 126-134) for the current `ray`.

Both predicates are lambdas with the capture default `[=]`, so each closure holds its own copy of
`ray`; inside the body `ray` names that copy (which is why the source needs a `const_cast` to obtain
a writable pointer). The pointer `&ray[1].position` handed to the intersection routine therefore
addresses the closure's copy: the point written on a hit is dropped with the closure, and only the
returned flag reaches `hit`. The `ray` of `castRay` itself is left as it was. -/
def hitTest (rects : List FloatRect) (lines : List Line) (ray : Line) : Bool :=
  rects.any (fun rect => (lineRectIntersection ray rect).isSome) ||
    lines.any (fun line => (lineLineIntersection ray line).isSome)

/-- The `while` loop of `castRay` (lines 120-135). The state is the end point `ray[1].position`,
the vector `size`, the flag `hit`, and the number of advance steps made so far (a ghost counter).
The result is the finished ray with the number of steps, or `none` when the fuel runs out while the
loop condition still holds. -/
def castRayLoop (rects : List FloatRect) (lines : List Line) (start : Vector2f) (x y limit : ℚ) :
    ℕ → Vector2f → Vector2f → Bool → ℕ → Option (Line × ℕ)
  | 0, endp, size, hit, steps =>
    if sqrtLe ((size.x * size.x) + (size.y * size.y)) limit && !hit then none
    else some (⟨start, endp⟩, steps)
  | fuel + 1, endp, size, hit, steps =>
    if sqrtLe ((size.x * size.x) + (size.y * size.y)) limit && !hit then
      let endp1 : Vector2f := ⟨endp.x + x, endp.y + y⟩
      let size1 : Vector2f := ⟨start.x - endp1.x, start.y - endp1.y⟩
      let hit1 := hitTest rects lines ⟨start, endp1⟩
      castRayLoop rects lines start x y limit fuel endp1 size1 hit1 (steps + 1)
    else some (⟨start, endp⟩, steps)

/-- The function `castRay` (lines 106-138) together with the number of advance steps it made.
`sf::Vector2f size;` is value-initialised to `(0, 0)` by the library's default constructor. -/
def castRaySteps (T : Trig) (fuel : ℕ) (rects : List FloatRect) (lines : List Line)
    (start : Vector2f) (angle limit : ℚ) : Option (Line × ℕ) :=
  let x := T.cos (angle * DEGREE_RADIAN_RATIO)
  let y := T.sin (angle * DEGREE_RADIAN_RATIO)
  castRayLoop rects lines start x y limit fuel start ⟨0, 0⟩ false 0

/-- The function `castRay` (lines 106-138): the returned ray. -/
def castRay (T : Trig) (fuel : ℕ) (rects : List FloatRect) (lines : List Line)
    (start : Vector2f) (angle limit : ℚ) : Option Line :=
  (castRaySteps T fuel rects lines start angle limit).map Prod.fst

/-! ## Auxiliary definitions for the proofs -/

/-- The ratio `a / b` is finite and lies in `[0, 1]`. -/
def unitRatio (a b : ℚ) : Prop := b ≠ 0 ∧ 0 ≤ a / b ∧ a / b ≤ 1

/-- Denominator of the intersection formula for two lines. -/
def denom (l1 l2 : Line) : ℚ :=
  (l1.p0.x - l1.p1.x) * (l2.p0.y - l2.p1.y) - (l1.p0.y - l1.p1.y) * (l2.p0.x - l2.p1.x)

/-- Candidate intersection point of the two infinite lines. -/
def candidate (l1 l2 : Line) : Vector2f :=
  ⟨((l1.p0.x * l1.p1.y - l1.p0.y * l1.p1.x) * (l2.p0.x - l2.p1.x) -
      (l2.p0.x * l2.p1.y - l2.p0.y * l2.p1.x) * (l1.p0.x - l1.p1.x)) / denom l1 l2,
   ((l1.p0.x * l1.p1.y - l1.p0.y * l1.p1.x) * (l2.p0.y - l2.p1.y) -
      (l2.p0.x * l2.p1.y - l2.p0.y * l2.p1.x) * (l1.p0.y - l1.p1.y)) / denom l1 l2⟩

/-- The containment test of `lineLineIntersection` for the point `c` and the segment `l`:
the ratio on the x axis or the ratio on the y axis is finite and in `[0, 1]`. -/
def within (c : Vector2f) (l : Line) : Prop :=
  unitRatio (c.x - l.p0.x) (-(l.p0.x - l.p1.x)) ∨ unitRatio (c.y - l.p0.y) (-(l.p0.y - l.p1.y))

/-- The point written by the intersection routines during one evaluation of the expression assigned
to `hit` (to the closure's copy of `ray`): that of the first rectangle, else of the first segment
obstacle, that reports a hit. -/
def hitPoint (rects : List FloatRect) (lines : List Line) (ray : Line) : Option Vector2f :=
  (rects.findSome? (fun rect => lineRectIntersection ray rect)).orElse
    (fun _ => lines.findSome? (fun line => lineLineIntersection ray line))

/-- The ray after `k` advance steps of `(x, y)` from `start`. -/
def rayAt (start : Vector2f) (x y : ℚ) (k : ℕ) : Line :=
  ⟨start, ⟨start.x + k * x, start.y + k * y⟩⟩

/-- The point `p` lies on the closed segment `l`. -/
def onSegment (p : Vector2f) (l : Line) : Prop :=
  ∃ t : ℚ, 0 ≤ t ∧ t ≤ 1 ∧ p.x = l.p0.x + t * (l.p1.x - l.p0.x) ∧
    p.y = l.p0.y + t * (l.p1.y - l.p0.y)

/-! ## The same functions in binary32/binary64 arithmetic

Every `float` operation of the source is followed by `f32`, every `double` operation by `f64`:
rounding to the nearest value of the format, ties to even. Overflow to infinity is not modelled,
and a division by zero gives `none`. -/

namespace IEEE

/-- Index of the leading binary digit of `n` (`⌊log₂ n⌋` for `n ≥ 1`), by halving at most `fuel`
times. -/
def ilog2 : ℕ → ℕ → ℕ
  | 0, _ => 0
  | fuel + 1, n => if n < 2 then 0 else ilog2 fuel (n / 2) + 1

/-- Round to the nearest integer, a tie going to the even neighbour. -/
def roundEven (q : ℚ) : ℤ :=
  let f := ⌊q⌋
  let r := q - f
  if r < 1 / 2 then f
  else if 1 / 2 < r then f + 1
  else if f % 2 = 0 then f else f + 1

/-- Binary exponent of a non-zero rational: the `e` with `2 ^ e ≤ |q| < 2 ^ (e + 1)`. -/
def binExp (q : ℚ) : ℤ :=
  let e0 : ℤ := (ilog2 q.num.natAbs q.num.natAbs : ℤ) - (ilog2 q.den q.den : ℤ)
  if (2 : ℚ) ^ e0 ≤ |q| then e0 else e0 - 1

/-- IEEE 754 round-to-nearest-even to a binary format with `p` significant bits and least normal
exponent `emin` (below it the spacing stays that of the subnormal numbers). Overflow to infinity is
not modelled. -/
def roundTo (p : ℕ) (emin : ℤ) (q : ℚ) : ℚ :=
  if q = 0 then 0
  else
    let e := max (binExp q) emin
    let u : ℚ := (2 : ℚ) ^ (e - (p - 1))
    roundEven (q / u) * u

/-- Rounding to `float` (binary32). -/
def f32 (q : ℚ) : ℚ := roundTo 24 (-126) q

/-- Rounding to `double` (binary64). -/
def f64 (q : ℚ) : ℚ := roundTo 53 (-1022) q

/-- A `double` division: non-finite (`none`) for a zero divisor, else the rounded quotient. -/
def fdiv (a b : ℚ) : Option ℚ :=
  if b = 0 then none else some (f64 (a / b))

/-- The `double` held by `denominator` (line 26): the four deltas, the two products and their
difference are `float` operations. -/
def denominator (line1 line2 : Line) : ℚ :=
  let p1 := line1.p0
  let p2 := line1.p1
  let p3 := line2.p0
  let p4 := line2.p1
  let dx1 := f32 (p1.x - p2.x)
  let dy1 := f32 (p1.y - p2.y)
  let dx2 := f32 (p3.x - p4.x)
  let dy2 := f32 (p3.y - p4.y)
  f32 (f32 (dx1 * dy2) - f32 (dy1 * dx2))

/-- The values of `x_intersect` and `y_intersect` (lines 34-41): `a`, `b` and the numerators are
`float` operations, the two quotients are `double` divisions. -/
def intersect (line1 line2 : Line) : ℚ × ℚ :=
  let p1 := line1.p0
  let p2 := line1.p1
  let p3 := line2.p0
  let p4 := line2.p1
  let dx1 := f32 (p1.x - p2.x)
  let dy1 := f32 (p1.y - p2.y)
  let dx2 := f32 (p3.x - p4.x)
  let dy2 := f32 (p3.y - p4.y)
  let a := f32 (f32 (p1.x * p2.y) - f32 (p1.y * p2.x))
  let b := f32 (f32 (p3.x * p4.y) - f32 (p3.y * p4.x))
  let x_numerator := f32 (f32 (a * dx2) - f32 (b * dx1))
  let y_numerator := f32 (f32 (a * dy2) - f32 (b * dy1))
  (f64 (x_numerator / denominator line1 line2), f64 (y_numerator / denominator line1 line2))

/-- The function `lineLineIntersection` (lines 13-60) in binary32/binary64 arithmetic. -/
def lineLineIntersection (line1 line2 : Line) : Option Vector2f :=
  let p1 := line1.p0
  let p2 := line1.p1
  let p3 := line2.p0
  let p4 := line2.p1
  let dx1 := f32 (p1.x - p2.x)
  let dy1 := f32 (p1.y - p2.y)
  let dx2 := f32 (p3.x - p4.x)
  let dy2 := f32 (p3.y - p4.y)
  if cRound (denominator line1 line2) = 0 then none
  else
    let x_intersect := (intersect line1 line2).1
    let y_intersect := (intersect line1 line2).2
    let rx1 := fdiv (f64 (x_intersect - p1.x)) (-dx1)
    let ry1 := fdiv (f64 (y_intersect - p1.y)) (-dy1)
    let rx2 := fdiv (f64 (x_intersect - p3.x)) (-dx2)
    let ry2 := fdiv (f64 (y_intersect - p3.y)) (-dy2)
    if (inUnit rx1 || inUnit ry1) && (inUnit rx2 || inUnit ry2) then
      some ⟨f32 x_intersect, f32 y_intersect⟩
    else none

/-- The function `getRectVertices` (lines 62-70); the two sums are `float` additions. -/
def getRectVertices (rect : FloatRect) : Array4 Vector2f :=
  let p1 : Vector2f := ⟨rect.left, rect.top⟩
  let p2 : Vector2f := ⟨f32 (rect.left + rect.width), rect.top⟩
  let p3 : Vector2f := ⟨f32 (rect.left + rect.width), f32 (rect.top + rect.height)⟩
  let p4 : Vector2f := ⟨rect.left, f32 (rect.top + rect.height)⟩
  ⟨p1, p2, p3, p4⟩

/-- The function `getRectLines` (lines 72-83). -/
def getRectLines (rect : FloatRect) : Array4 Line :=
  let vertices := getRectVertices rect
  let line1 : Line := ⟨vertices.e0, vertices.e1⟩
  let line2 : Line := ⟨vertices.e1, vertices.e2⟩
  let line3 : Line := ⟨vertices.e2, vertices.e3⟩
  let line4 : Line := ⟨vertices.e3, vertices.e0⟩
  ⟨line1, line2, line3, line4⟩

/-- The function `getLineRect` (lines 85-93): `std::min` is exact, the two differences are `float`
subtractions, `std::fabs` is exact. -/
def getLineRect (line : Line) : FloatRect :=
  ⟨min line.p0.x line.p1.x,
   min line.p0.y line.p1.y,
   |f32 (line.p0.x - line.p1.x)|,
   |f32 (line.p0.y - line.p1.y)|⟩

/-- Library routine `sf::Rect<float>::intersects` of SFML 2.x with its `float` additions
(`static_cast<T>(left + width)`); comparisons, `std::min` and `std::max` are exact. -/
def intersects (r1 r2 : FloatRect) : Bool :=
  let r1MinX := min r1.left (f32 (r1.left + r1.width))
  let r1MaxX := max r1.left (f32 (r1.left + r1.width))
  let r1MinY := min r1.top (f32 (r1.top + r1.height))
  let r1MaxY := max r1.top (f32 (r1.top + r1.height))
  let r2MinX := min r2.left (f32 (r2.left + r2.width))
  let r2MaxX := max r2.left (f32 (r2.left + r2.width))
  let r2MinY := min r2.top (f32 (r2.top + r2.height))
  let r2MaxY := max r2.top (f32 (r2.top + r2.height))
  let interLeft := max r1MinX r2MinX
  let interTop := max r1MinY r2MinY
  let interRight := min r1MaxX r2MaxX
  let interBottom := min r1MaxY r2MaxY
  decide (interLeft < interRight) && decide (interTop < interBottom)

/-- The function `lineRectIntersection` (lines 95-104) in binary32/binary64 arithmetic. -/
def lineRectIntersection (line : Line) (rect : FloatRect) : Option Vector2f :=
  let line_rect := getLineRect line
  if intersects rect line_rect then
    let lines := getRectLines rect
    lines.toList.findSome? (fun rect_line => lineLineIntersection line rect_line)
  else none

/-- One evaluation of the expression assigned to `hit` (lines 126-134); as in `hitTest`, the point
written by the intersection routine lands in the closure's copy of `ray`. -/
def hitTest (rects : List FloatRect) (lines : List Line) (ray : Line) : Bool :=
  rects.any (fun rect => (lineRectIntersection ray rect).isSome) ||
    lines.any (fun line => (lineLineIntersection ray line).isSome)

/-- The four ratios `rx1`, `ry1`, `rx2`, `ry2` (lines 43-46): each a `double` subtraction followed
by a `double` division by the negated `float` delta. -/
def ratios (line1 line2 : Line) : Option ℚ × Option ℚ × Option ℚ × Option ℚ :=
  let p1 := line1.p0
  let p2 := line1.p1
  let p3 := line2.p0
  let p4 := line2.p1
  let dx1 := f32 (p1.x - p2.x)
  let dy1 := f32 (p1.y - p2.y)
  let dx2 := f32 (p3.x - p4.x)
  let dy2 := f32 (p3.y - p4.y)
  let x_intersect := (intersect line1 line2).1
  let y_intersect := (intersect line1 line2).2
  (fdiv (f64 (x_intersect - p1.x)) (-dx1), fdiv (f64 (y_intersect - p1.y)) (-dy1),
   fdiv (f64 (x_intersect - p3.x)) (-dx2), fdiv (f64 (y_intersect - p3.y)) (-dy2))

/-- Integer square root by binary search on the bits of the result: with `r * r ≤ n`, the bits
below position `b` are decided from the top. -/
def isqrtAux (n : ℕ) : ℕ → ℕ → ℕ
  | 0, r => r
  | b + 1, r =>
    if (r + 2 ^ b) * (r + 2 ^ b) ≤ n then isqrtAux n b (r + 2 ^ b) else isqrtAux n b r

/-- Integer square root `⌊√n⌋`. -/
def isqrt (n : ℕ) : ℕ := isqrtAux n (ilog2 n n / 2 + 1) 0

/-- Library function `std::sqrt(float)`, correctly rounded as IEEE 754 requires: the `float`
nearest to the real root, ties to even. With `u` the spacing of the floats around the root, `k * u`
is the largest multiple of `u` not above the root, and the argument is compared with the square of
the midpoint `(k + 1/2) * u`. A non-positive argument gives `0` (the program only passes sums of
squares). -/
def sqrt32 (q : ℚ) : ℚ :=
  if q ≤ 0 then 0
  else
    let e := max (binExp q / 2) (-126)
    let u : ℚ := (2 : ℚ) ^ (e - 23)
    let k : ℕ := isqrt ⌊q / (u * u)⌋.toNat
    let mid : ℚ := ((k : ℚ) + 1 / 2) * u
    if q < mid * mid then k * u
    else if mid * mid < q then ((k : ℚ) + 1) * u
    else if k % 2 = 0 then k * u else ((k : ℚ) + 1) * u

/-- The `while` loop of `castRay` (lines 120-135) in binary32 arithmetic: the end point is advanced
by `float` additions, `size` is a `float` difference, and the guard compares the `float` returned by
`std::sqrt` with `limit`. -/
def castRayLoop (rects : List FloatRect) (lines : List Line) (start : Vector2f)
    (x y limit : ℚ) : ℕ → Vector2f → Vector2f → Bool → ℕ → Option (Line × ℕ)
  | 0, endp, size, hit, steps =>
    if decide (sqrt32 (f32 (f32 (size.x * size.x) + f32 (size.y * size.y))) ≤ limit) && !hit then
      none
    else some (⟨start, endp⟩, steps)
  | fuel + 1, endp, size, hit, steps =>
    if decide (sqrt32 (f32 (f32 (size.x * size.x) + f32 (size.y * size.y))) ≤ limit) && !hit then
      let endp1 : Vector2f := ⟨f32 (endp.x + x), f32 (endp.y + y)⟩
      let size1 : Vector2f := ⟨f32 (start.x - endp1.x), f32 (start.y - endp1.y)⟩
      let hit1 := hitTest rects lines ⟨start, endp1⟩
      castRayLoop rects lines start x y limit fuel endp1 size1 hit1 (steps + 1)
    else some (⟨start, endp⟩, steps)

/-- The function `castRay` (lines 106-138) in binary32/binary64 arithmetic, with the number of
advance steps. The product `angle * DEGREE_RADIAN_RATIO` is a `double` multiplication by the
`double` nearest to `0.0174533`; `T.cos` and `T.sin` give the values already cast to `float`. -/
def castRaySteps (T : Trig) (fuel : ℕ) (rects : List FloatRect) (lines : List Line)
    (start : Vector2f) (angle limit : ℚ) : Option (Line × ℕ) :=
  let x := T.cos (f64 (angle * f64 DEGREE_RADIAN_RATIO))
  let y := T.sin (f64 (angle * f64 DEGREE_RADIAN_RATIO))
  castRayLoop rects lines start x y limit fuel start ⟨0, 0⟩ false 0

/-- The function `castRay` (lines 106-138) in binary32/binary64 arithmetic: the returned ray. -/
def castRay (T : Trig) (fuel : ℕ) (rects : List FloatRect) (lines : List Line)
    (start : Vector2f) (angle limit : ℚ) : Option Line :=
  (castRaySteps T fuel rects lines start angle limit).map Prod.fst

/-- The end point after `k` advance steps of `(x, y)` from `start`, each a `float` addition. -/
def posAt (start : Vector2f) (x y : ℚ) : ℕ → Vector2f
  | 0 => start
  | k + 1 => ⟨f32 ((posAt start x y k).x + x), f32 ((posAt start x y k).y + y)⟩

/-- The value of `size` after `k` advance steps. -/
def sizeAt (start : Vector2f) (x y : ℚ) (k : ℕ) : Vector2f :=
  ⟨f32 (start.x - (posAt start x y k).x), f32 (start.y - (posAt start x y k).y)⟩

/-- The length the guard computes after `k` advance steps. -/
def lenAt (start : Vector2f) (x y : ℚ) (k : ℕ) : ℚ :=
  sqrt32 (f32 (f32 ((sizeAt start x y k).x * (sizeAt start x y k).x) +
    f32 ((sizeAt start x y k).y * (sizeAt start x y k).y)))

/-- The value of `hit` after `k` advance steps: `false` before the first step, then the hit test of
the ray stepped `k` times. -/
def hitAt (rects : List FloatRect) (lines : List Line) (start : Vector2f) (x y : ℚ) : ℕ → Bool
  | 0 => false
  | k + 1 => hitTest rects lines ⟨start, posAt start x y (k + 1)⟩

/-- The loop condition `std::sqrt(...) <= limit && !hit` as evaluated after `k` advance steps. -/
def guardAt (rects : List FloatRect) (lines : List Line) (start : Vector2f) (x y limit : ℚ)
    (k : ℕ) : Bool :=
  decide (lenAt start x y k ≤ limit) && !hitAt rects lines start x y k

/-- The exact values of the results of the `float` operations of `lineLineIntersection` on two
segments, in source order (deltas, denominator, `a`, `b`, numerators, written point). -/
def floatOps (line1 line2 : Line) : List ℚ :=
  let p1 := line1.p0
  let p2 := line1.p1
  let p3 := line2.p0
  let p4 := line2.p1
  let dx1 := p1.x - p2.x
  let dy1 := p1.y - p2.y
  let dx2 := p3.x - p4.x
  let dy2 := p3.y - p4.y
  let denominator := dx1 * dy2 - dy1 * dx2
  let a := p1.x * p2.y - p1.y * p2.x
  let b := p3.x * p4.y - p3.y * p4.x
  let x_numerator := a * dx2 - b * dx1
  let y_numerator := a * dy2 - b * dy1
  [dx1, dy1, dx2, dy2, dx1 * dy2, dy1 * dx2, denominator,
   p1.x * p2.y, p1.y * p2.x, a, p3.x * p4.y, p3.y * p4.x, b,
   a * dx2, b * dx1, x_numerator, a * dy2, b * dy1, y_numerator,
   x_numerator / denominator, y_numerator / denominator]

/-- The exact values of the results of the `double` operations of `lineLineIntersection` on two
segments (the two quotients, the four differences, the four ratios). -/
def doubleOps (line1 line2 : Line) : List ℚ :=
  let p1 := line1.p0
  let p2 := line1.p1
  let p3 := line2.p0
  let p4 := line2.p1
  let dx1 := p1.x - p2.x
  let dy1 := p1.y - p2.y
  let dx2 := p3.x - p4.x
  let dy2 := p3.y - p4.y
  let denominator := dx1 * dy2 - dy1 * dx2
  let a := p1.x * p2.y - p1.y * p2.x
  let b := p3.x * p4.y - p3.y * p4.x
  let x_intersect := (a * dx2 - b * dx1) / denominator
  let y_intersect := (a * dy2 - b * dy1) / denominator
  [x_intersect, y_intersect,
   x_intersect - p1.x, y_intersect - p1.y, x_intersect - p3.x, y_intersect - p3.y,
   (x_intersect - p1.x) / -dx1, (y_intersect - p1.y) / -dy1,
   (x_intersect - p3.x) / -dx2, (y_intersect - p3.y) / -dy2]

/-- No operation of `lineLineIntersection` rounds on the two segments: every exact intermediate
value is a `float`, respectively a `double`. -/
def exactOps (line1 line2 : Line) : Prop :=
  (∀ v ∈ floatOps line1 line2, f32 v = v) ∧ (∀ v ∈ doubleOps line1 line2, f64 v = v)

instance decidableExactOps (line1 line2 : Line) : Decidable (exactOps line1 line2) := by
  unfold exactOps; infer_instance

/-- The two coordinates of the point are `float` values, as those of an `sf::Vector2f` are. -/
def floatPoint (p : Vector2f) : Prop := f32 p.x = p.x ∧ f32 p.y = p.y

instance decidableFloatPoint (p : Vector2f) : Decidable (floatPoint p) := by
  unfold floatPoint; infer_instance

/-- The coordinates of both end points of the segment are `float` values. -/
def floatLine (l : Line) : Prop := floatPoint l.p0 ∧ floatPoint l.p1

instance decidableFloatLine (l : Line) : Decidable (floatLine l) := by
  unfold floatLine; infer_instance

/-- The four fields of the rectangle are `float` values, as those of an `sf::FloatRect` are. -/
def floatRect (r : FloatRect) : Prop :=
  f32 r.left = r.left ∧ f32 r.top = r.top ∧ f32 r.width = r.width ∧ f32 r.height = r.height

instance decidableFloatRect (r : FloatRect) : Decidable (floatRect r) := by
  unfold floatRect; infer_instance

end IEEE

/-! ## The angle round trip over the real numbers

`std::atan2`, `std::cos` and `std::sin` are the mathematical functions here, and the arithmetic is
that of the reals, so what these definitions show is the effect of the two decimal constants
`PI` and `DEGREE_RADIAN_RATIO` alone. -/

namespace Reals

/-- The function `angleBetweenPoints` (lines 8-11) over the reals: `std::atan2 (y, x)` is the
argument of the complex number `x + y i` (in `(-π, π]`, and `0` at the origin). -/
noncomputable def angleBetweenPoints (a b : ℝ × ℝ) : ℝ :=
  Complex.arg ⟨a.1 - b.1, a.2 - b.2⟩ * 180 / ((PI : ℚ) : ℝ)

/-- The `while` loop of `castRay` (lines 120-135) over the reals, for empty obstacle lists: both
`std::any_of` range over nothing, so `hit` stays `false`. The state is the end point, `size` and
the number of steps made. -/
noncomputable def castRayLoop (start : ℝ × ℝ) (x y limit : ℝ) :
    ℕ → ℝ × ℝ → ℝ × ℝ → ℕ → Option ((ℝ × ℝ) × (ℝ × ℝ) × ℕ)
  | 0, endp, size, steps =>
    if Real.sqrt (size.1 * size.1 + size.2 * size.2) ≤ limit then none
    else some (start, endp, steps)
  | fuel + 1, endp, size, steps =>
    if Real.sqrt (size.1 * size.1 + size.2 * size.2) ≤ limit then
      castRayLoop start x y limit fuel (endp.1 + x, endp.2 + y)
        (start.1 - (endp.1 + x), start.2 - (endp.2 + y)) (steps + 1)
    else some (start, endp, steps)

/-- The function `castRay` (lines 106-138) over the reals with empty obstacle lists: the two ends
of the returned ray and the number of advance steps. -/
noncomputable def castRay (fuel : ℕ) (start : ℝ × ℝ) (angle limit : ℝ) :
    Option ((ℝ × ℝ) × (ℝ × ℝ) × ℕ) :=
  castRayLoop start (Real.cos (angle * (( DEGREE_RADIAN_RATIO : ℚ) : ℝ)))
    (Real.sin (angle * (( DEGREE_RADIAN_RATIO : ℚ) : ℝ))) limit fuel start (0, 0) 0

end Reals

/-! ## Lemmas on rounding and ratios -/

theorem cRound_eq_zero_iff (q : ℚ) : cRound q = 0 ↔ |q| < 1 / 2 := by
  unfold cRound
  split_ifs with h
  · rw [Int.floor_eq_zero_iff, Set.mem_Ico, abs_of_nonneg h]
    constructor
    · rintro ⟨_, h2⟩; linarith
    · intro h2; constructor <;> linarith
  · push_neg at h
    rw [neg_eq_zero, Int.floor_eq_zero_iff, Set.mem_Ico, abs_of_neg h]
    constructor
    · rintro ⟨_, h2⟩; linarith
    · intro h2; constructor <;> linarith

theorem inUnit_fdiv_iff (a b : ℚ) : inUnit (fdiv a b) = true ↔ unitRatio a b := by
  unfold fdiv unitRatio
  split_ifs with h
  · simp [inUnit, h]
  · simp [inUnit, h]

theorem swap_ratio (a b : ℚ) (hb : b ≠ 0) : (a - b) / (-b) = 1 - a / b := by
  rw [div_eq_iff (neg_ne_zero.mpr hb)]
  have h : a / b * b = a := div_mul_cancel₀ a hb
  linear_combination (-1 : ℚ) * h

theorem unitRatio_swap (a b : ℚ) : unitRatio (a - b) (-b) ↔ unitRatio a b := by
  unfold unitRatio
  constructor
  · rintro ⟨hb, h0, h1⟩
    have hb' : b ≠ 0 := by simpa using hb
    rw [swap_ratio a b hb'] at h0 h1
    exact ⟨hb', by linarith, by linarith⟩
  · rintro ⟨hb, h0, h1⟩
    rw [swap_ratio a b hb]
    exact ⟨by simpa using hb, by linarith, by linarith⟩

/-! ## Characterisation of `lineLineIntersection` -/

theorem lineLineIntersection_eq_some_iff (l1 l2 : Line) (p : Vector2f) :
    lineLineIntersection l1 l2 = some p ↔
      1 / 2 ≤ |denom l1 l2| ∧ within (candidate l1 l2) l1 ∧ within (candidate l1 l2) l2 ∧
        p = candidate l1 l2 := by
  unfold lineLineIntersection
  simp only []
  have hd : (l1.p0.x - l1.p1.x) * (l2.p0.y - l2.p1.y) - (l1.p0.y - l1.p1.y) * (l2.p0.x - l2.p1.x)
      = denom l1 l2 := rfl
  rw [hd]
  by_cases h0 : cRound (denom l1 l2) = 0
  · rw [if_pos h0]
    have := (cRound_eq_zero_iff _).1 h0
    constructor
    · intro h; cases h
    · rintro ⟨h, -⟩; linarith
  · rw [if_neg h0]
    have hge : 1 / 2 ≤ |denom l1 l2| := by
      by_contra hlt
      exact h0 ((cRound_eq_zero_iff _).2 (not_le.1 hlt))
    have key : ∀ (b : Bool) (P : Prop) (v : Vector2f), (b = true ↔ P) →
        ((if b = true then some v else none) = some p ↔ P ∧ p = v) := by
      intro b P v hb
      by_cases h : b = true
      · rw [if_pos h]
        constructor
        · intro e; cases e; exact ⟨hb.1 h, rfl⟩
        · rintro ⟨-, rfl⟩; rfl
      · rw [if_neg h]
        constructor
        · intro e; cases e
        · rintro ⟨hP, -⟩; exact absurd (hb.2 hP) h
    have hb : ∀ a b c d e f g h : ℚ,
        (((inUnit (fdiv a b) || inUnit (fdiv c d)) && (inUnit (fdiv e f) || inUnit (fdiv g h))) = true)
          ↔ ((unitRatio a b ∨ unitRatio c d) ∧ (unitRatio e f ∨ unitRatio g h)) := by
      intro a b c d e f g h
      rw [Bool.and_eq_true, Bool.or_eq_true, Bool.or_eq_true, inUnit_fdiv_iff, inUnit_fdiv_iff,
        inUnit_fdiv_iff, inUnit_fdiv_iff]
    refine (key _ _ _ (hb _ _ _ _ _ _ _ _)).trans ?_
    constructor
    · rintro ⟨⟨h1, h2⟩, rfl⟩
      exact ⟨hge, h1, h2, rfl⟩
    · rintro ⟨-, h1, h2, rfl⟩
      exact ⟨⟨h1, h2⟩, rfl⟩

theorem lineLineIntersection_eq_none_iff (l1 l2 : Line) :
    lineLineIntersection l1 l2 = none ↔
      ¬ (1 / 2 ≤ |denom l1 l2| ∧ within (candidate l1 l2) l1 ∧ within (candidate l1 l2) l2) := by
  rw [Option.eq_none_iff_forall_not_mem]
  constructor
  · intro h hc
    exact h (candidate l1 l2) ((lineLineIntersection_eq_some_iff l1 l2 _).2 ⟨hc.1, hc.2.1, hc.2.2, rfl⟩)
  · intro h p hp
    have := (lineLineIntersection_eq_some_iff l1 l2 p).1 hp
    exact h ⟨this.1, this.2.1, this.2.2.1⟩

/-! ## Swapping the endpoints of a segment -/

theorem denom_swap_left (l1 l2 : Line) : denom ⟨l1.p1, l1.p0⟩ l2 = -denom l1 l2 := by
  simp only [denom]; ring

theorem denom_swap_right (l1 l2 : Line) : denom l1 ⟨l2.p1, l2.p0⟩ = -denom l1 l2 := by
  simp only [denom]; ring

theorem candidate_swap_left (l1 l2 : Line) : candidate ⟨l1.p1, l1.p0⟩ l2 = candidate l1 l2 := by
  simp only [candidate, denom_swap_left, div_neg, Vector2f.mk.injEq]
  constructor <;> rw [← neg_div] <;> congr 1 <;> ring

theorem candidate_swap_right (l1 l2 : Line) : candidate l1 ⟨l2.p1, l2.p0⟩ = candidate l1 l2 := by
  simp only [candidate, denom_swap_right, div_neg, Vector2f.mk.injEq]
  constructor <;> rw [← neg_div] <;> congr 1 <;> ring

theorem within_swap (c : Vector2f) (l : Line) : within c ⟨l.p1, l.p0⟩ ↔ within c l := by
  unfold within
  have hx := unitRatio_swap (c.x - l.p0.x) (-(l.p0.x - l.p1.x))
  have hy := unitRatio_swap (c.y - l.p0.y) (-(l.p0.y - l.p1.y))
  have ex : c.x - l.p0.x - -(l.p0.x - l.p1.x) = c.x - l.p1.x := by ring
  have ey : c.y - l.p0.y - -(l.p0.y - l.p1.y) = c.y - l.p1.y := by ring
  have nx : - -(l.p0.x - l.p1.x) = -(l.p1.x - l.p0.x) := by ring
  have ny : - -(l.p0.y - l.p1.y) = -(l.p1.y - l.p0.y) := by ring
  rw [ex, nx] at hx
  rw [ey, ny] at hy
  simp only [hx, hy]

theorem lli_swap_left (l1 l2 : Line) :
    lineLineIntersection ⟨l1.p1, l1.p0⟩ l2 = lineLineIntersection l1 l2 := by
  ext p
  simp only [Option.mem_def, lineLineIntersection_eq_some_iff, denom_swap_left,
    candidate_swap_left, abs_neg]
  rw [within_swap (candidate l1 l2) l1]

theorem lli_swap_right (l1 l2 : Line) :
    lineLineIntersection l1 ⟨l2.p1, l2.p0⟩ = lineLineIntersection l1 l2 := by
  ext p
  simp only [Option.mem_def, lineLineIntersection_eq_some_iff, denom_swap_right,
    candidate_swap_right, abs_neg]
  rw [within_swap (candidate l1 l2) l2]

/-! ## The candidate point lies on both lines; parallel segments -/

theorem candidate_on_first (l1 l2 : Line) (hd : denom l1 l2 ≠ 0) :
    ((candidate l1 l2).x - l1.p0.x) * (l1.p1.y - l1.p0.y) =
      ((candidate l1 l2).y - l1.p0.y) * (l1.p1.x - l1.p0.x) := by
  simp only [candidate]
  field_simp
  simp only [denom]
  ring

theorem candidate_on_second (l1 l2 : Line) (hd : denom l1 l2 ≠ 0) :
    ((candidate l1 l2).x - l2.p0.x) * (l2.p1.y - l2.p0.y) =
      ((candidate l1 l2).y - l2.p0.y) * (l2.p1.x - l2.p0.x) := by
  simp only [candidate]
  field_simp
  simp only [denom]
  ring

theorem denom_ne_zero_of_half_le {l1 l2 : Line} (h : 1 / 2 ≤ |denom l1 l2|) : denom l1 l2 ≠ 0 := by
  intro h0
  rw [h0, abs_zero] at h
  norm_num at h

/-! ## The ray march -/

theorem sqrtLe_of_neg (s limit : ℚ) (h : limit < 0) : sqrtLe s limit = false := by
  simp [sqrtLe, h]

theorem castRayLoop_stop (rects : List FloatRect) (lines : List Line) (start : Vector2f)
    (x y limit : ℚ) (fuel : ℕ) (endp size : Vector2f) (hit : Bool) (steps : ℕ)
    (h : (sqrtLe ((size.x * size.x) + (size.y * size.y)) limit && !hit) = false) :
    castRayLoop rects lines start x y limit fuel endp size hit steps = some (⟨start, endp⟩, steps) := by
  cases fuel <;> simp [castRayLoop, h]

theorem castRayLoop_step (rects : List FloatRect) (lines : List Line) (start : Vector2f)
    (x y limit : ℚ) (fuel : ℕ) (endp size : Vector2f) (hit : Bool) (steps : ℕ)
    (h : (sqrtLe ((size.x * size.x) + (size.y * size.y)) limit && !hit) = true) :
    castRayLoop rects lines start x y limit (fuel + 1) endp size hit steps =
      castRayLoop rects lines start x y limit fuel ⟨endp.x + x, endp.y + y⟩
        ⟨start.x - (endp.x + x), start.y - (endp.y + y)⟩
        (hitTest rects lines ⟨start, ⟨endp.x + x, endp.y + y⟩⟩) (steps + 1) := by
  simp [castRayLoop, h]

/-- The loop runs to the first step count `n` at which the length test fails or a hit is reported. -/
theorem castRayLoop_run (rects : List FloatRect) (lines : List Line) (start : Vector2f)
    (x y limit : ℚ) (n : ℕ)
    (hcont : ∀ j, j < n → sqrtLe ((j : ℚ) ^ 2 * (x ^ 2 + y ^ 2)) limit = true ∧
      (j ≠ 0 → hitTest rects lines (rayAt start x y j) = false))
    (hstop : sqrtLe ((n : ℚ) ^ 2 * (x ^ 2 + y ^ 2)) limit = false ∨
      (n ≠ 0 ∧ hitTest rects lines (rayAt start x y n) = true)) :
    ∀ (fuel k : ℕ), k ≤ n → n - k ≤ fuel → ∀ (endp size : Vector2f) (hit : Bool),
      endp = (rayAt start x y k).p1 →
      (size.x * size.x) + (size.y * size.y) = (k : ℚ) ^ 2 * (x ^ 2 + y ^ 2) →
      hit = (if k = 0 then false else hitTest rects lines (rayAt start x y k)) →
      castRayLoop rects lines start x y limit fuel endp size hit k = some (rayAt start x y n, n) := by
  intro fuel
  induction fuel with
  | zero =>
    intro k hk hf endp size hit he hs hh
    have hkn : k = n := by omega
    subst hkn
    rw [castRayLoop_stop, he]
    · rfl
    · rw [hs, hh]
      rcases hstop with h | ⟨h0, h⟩
      · rw [h]; rfl
      · rw [if_neg h0, h]; simp
  | succ fuel ih =>
    intro k hk hf endp size hit he hs hh
    rcases Nat.lt_or_ge k n with hlt | hge
    · have hc := hcont k hlt
      have hhit : hit = false := by
        rw [hh]
        by_cases h0 : k = 0
        · rw [if_pos h0]
        · rw [if_neg h0]; exact hc.2 h0
      rw [castRayLoop_step]
      · apply ih (k + 1) hlt (by omega)
        · rw [he]; simp only [rayAt, Vector2f.mk.injEq]; push_cast; constructor <;> ring
        · rw [he]; simp only [rayAt]; push_cast; ring
        · rw [if_neg (Nat.succ_ne_zero k), he]
          congr 2
          simp only [rayAt, Vector2f.mk.injEq]; push_cast; constructor <;> ring
      · rw [hs, hc.1, hhit]; rfl
    · have hkn : k = n := by omega
      subst hkn
      rw [castRayLoop_stop, he]
      · rfl
      · rw [hs, hh]
        rcases hstop with h | ⟨h0, h⟩
        · rw [h]; rfl
        · rw [if_neg h0, h]; simp

theorem castRaySteps_run (T : Trig) (rects : List FloatRect) (lines : List Line) (start : Vector2f)
    (angle limit : ℚ) (n fuel : ℕ) (hf : n ≤ fuel)
    (hcont : ∀ j, j < n →
      sqrtLe ((j : ℚ) ^ 2 * (T.cos (angle * DEGREE_RADIAN_RATIO) ^ 2 +
        T.sin (angle * DEGREE_RADIAN_RATIO) ^ 2)) limit = true ∧
      (j ≠ 0 → hitTest rects lines (rayAt start (T.cos (angle * DEGREE_RADIAN_RATIO))
        (T.sin (angle * DEGREE_RADIAN_RATIO)) j) = false))
    (hstop : sqrtLe ((n : ℚ) ^ 2 * (T.cos (angle * DEGREE_RADIAN_RATIO) ^ 2 +
        T.sin (angle * DEGREE_RADIAN_RATIO) ^ 2)) limit = false ∨
      (n ≠ 0 ∧ hitTest rects lines (rayAt start (T.cos (angle * DEGREE_RADIAN_RATIO))
        (T.sin (angle * DEGREE_RADIAN_RATIO)) n) = true)) :
    castRaySteps T fuel rects lines start angle limit =
      some (rayAt start (T.cos (angle * DEGREE_RADIAN_RATIO))
        (T.sin (angle * DEGREE_RADIAN_RATIO)) n, n) := by
  unfold castRaySteps
  apply castRayLoop_run rects lines start _ _ limit n hcont hstop fuel 0 (Nat.zero_le n) (by omega)
  · simp [rayAt]
  · simp
  · simp

theorem castRayLoop_none_zero (rects : List FloatRect) (lines : List Line) (start : Vector2f)
    (x y limit : ℚ) (endp size : Vector2f) (hit : Bool) (steps : ℕ)
    (h : (sqrtLe ((size.x * size.x) + (size.y * size.y)) limit && !hit) = true) :
    castRayLoop rects lines start x y limit 0 endp size hit steps = none := by
  simp [castRayLoop, h]

/-- Whatever stops the loop, the returned end point is the stepped position `start + n * (x, y)`:
the point computed by an intersection routine never reaches the returned ray. -/
theorem castRayLoop_end (rects : List FloatRect) (lines : List Line) (start : Vector2f)
    (x y limit : ℚ) :
    ∀ (fuel k : ℕ) (endp size : Vector2f) (hit : Bool) (ray : Line) (n : ℕ),
      endp = (rayAt start x y k).p1 →
      castRayLoop rects lines start x y limit fuel endp size hit k = some (ray, n) →
      ray = rayAt start x y n ∧ k ≤ n := by
  intro fuel
  induction fuel with
  | zero =>
    intro k endp size hit ray n he h
    by_cases hc : (sqrtLe ((size.x * size.x) + (size.y * size.y)) limit && !hit) = true
    · rw [castRayLoop_none_zero _ _ _ _ _ _ _ _ _ _ hc] at h
      cases h
    · rw [castRayLoop_stop _ _ _ _ _ _ _ _ _ _ _ (Bool.not_eq_true _ ▸ hc), he] at h
      cases h
      exact ⟨rfl, le_refl _⟩
  | succ fuel ih =>
    intro k endp size hit ray n he h
    by_cases hc : (sqrtLe ((size.x * size.x) + (size.y * size.y)) limit && !hit) = true
    · rw [castRayLoop_step _ _ _ _ _ _ _ _ _ _ _ hc] at h
      have := ih (k + 1) _ _ _ ray n (by
        rw [he]; simp only [rayAt, Vector2f.mk.injEq]; push_cast; constructor <;> ring) h
      exact ⟨this.1, by omega⟩
    · rw [castRayLoop_stop _ _ _ _ _ _ _ _ _ _ _ (Bool.not_eq_true _ ▸ hc), he] at h
      cases h
      exact ⟨rfl, le_refl _⟩

theorem castRaySteps_end (T : Trig) (fuel : ℕ) (rects : List FloatRect) (lines : List Line)
    (start : Vector2f) (angle limit : ℚ) (ray : Line) (n : ℕ)
    (h : castRaySteps T fuel rects lines start angle limit = some (ray, n)) :
    ray = rayAt start (T.cos (angle * DEGREE_RADIAN_RATIO))
      (T.sin (angle * DEGREE_RADIAN_RATIO)) n := by
  unfold castRaySteps at h
  exact (castRayLoop_end rects lines start _ _ limit fuel 0 start ⟨0, 0⟩ false ray n
    (by simp [rayAt]) h).1

/-! ## Casting along the x axis -/

theorem sqrtLe_nat_iff (j : ℕ) (L : ℚ) (hL : 0 ≤ L) :
    sqrtLe ((j : ℚ) ^ 2 * (1 ^ 2 + 0 ^ 2)) L = true ↔ (j : ℚ) ≤ L := by
  have hj : (0 : ℚ) ≤ j := Nat.cast_nonneg j
  simp only [sqrtLe, Bool.and_eq_true, decide_eq_true_eq]
  constructor
  · rintro ⟨-, h⟩
    have h' : (j : ℚ) ^ 2 ≤ L ^ 2 := by linarith
    exact (pow_le_pow_iff_left₀ hj hL (by norm_num)).1 h'
  · intro h
    refine ⟨hL, ?_⟩
    have := pow_le_pow_left₀ hj h 2
    linarith

theorem intersects_flat_y (rect : FloatRect) (line : Line) (h : line.p0.y = line.p1.y) :
    rect.intersects (getLineRect line) = false := by
  simp only [FloatRect.intersects, getLineRect, h, sub_self, abs_zero, add_zero, min_self, max_self,
    Bool.and_eq_false_imp, decide_eq_true_eq, decide_eq_false_iff_not, not_lt]
  intro _
  exact le_trans (min_le_right _ _) (le_max_right _ _)

theorem intersects_flat_x (rect : FloatRect) (line : Line) (h : line.p0.x = line.p1.x) :
    rect.intersects (getLineRect line) = false := by
  simp only [FloatRect.intersects, getLineRect, h, sub_self, abs_zero, add_zero, min_self, max_self,
    Bool.and_eq_false_iff, decide_eq_false_iff_not, not_lt]
  left
  exact le_trans (min_le_right _ _) (le_max_right _ _)

/-- An axis-parallel segment has a bounding box of zero area, so the pre-filter rejects it. -/
theorem lineRectIntersection_flat (line : Line) (rect : FloatRect)
    (h : line.p0.y = line.p1.y ∨ line.p0.x = line.p1.x) :
    lineRectIntersection line rect = none := by
  unfold lineRectIntersection
  rcases h with h | h
  · simp [intersects_flat_y rect line h]
  · simp [intersects_flat_x rect line h]

theorem hitTest_flat_rects (rects : List FloatRect) (ray : Line)
    (h : ray.p0.y = ray.p1.y ∨ ray.p0.x = ray.p1.x) : hitTest rects [] ray = false := by
  simp [hitTest, lineRectIntersection_flat ray _ h]

/-- At angle `0` with only rectangle obstacles the march is never stopped by a hit: it ends after
`⌊limit⌋ + 1` steps on the horizontal through `start`. -/
theorem castRaySteps_angle0_rects (T : Trig) (rects : List FloatRect) (start : Vector2f) (L : ℚ)
    (hL : 0 ≤ L) (fuel : ℕ) (hf : ⌊L⌋₊ + 1 ≤ fuel) :
    castRaySteps T fuel rects [] start 0 L =
      some (⟨start, ⟨start.x + ((⌊L⌋₊ + 1 : ℕ) : ℚ), start.y⟩⟩, ⌊L⌋₊ + 1) := by
  have h := castRaySteps_run T rects [] start 0 L (⌊L⌋₊ + 1) fuel hf
  simp only [zero_mul, T.cos_zero, T.sin_zero] at h
  rw [h]
  · simp [rayAt]
  · intro j hj
    constructor
    · rw [sqrtLe_nat_iff j L hL]
      have : j ≤ ⌊L⌋₊ := by omega
      exact (Nat.le_floor_iff hL).1 this
    · intro _
      apply hitTest_flat_rects
      left
      simp [rayAt]
  · left
    rw [← Bool.not_eq_true, sqrtLe_nat_iff _ L hL, not_le]
    push_cast
    exact Nat.lt_floor_add_one L

/-! ## Degenerate limits and the unobstructed cast -/

/-- C4. A negative `limit` makes the loop guard false at once: no advance step is made and the
zero-length ray `(start, start)` is returned, whatever the obstacles and the fuel. -/
theorem castRay_negative_limit (T : Trig) (fuel : ℕ) (rects : List FloatRect) (lines : List Line)
    (start : Vector2f) (angle limit : ℚ) (h : limit < 0) :
    castRaySteps T fuel rects lines start angle limit = some (⟨start, start⟩, 0) ∧
    castRay T fuel rects lines start angle limit = some ⟨start, start⟩ := by
  have h1 : castRaySteps T fuel rects lines start angle limit = some (⟨start, start⟩, 0) := by
    unfold castRaySteps
    apply castRayLoop_stop
    rw [sqrtLe_of_neg _ _ h]
    rfl
  exact ⟨h1, by rw [castRay, h1]; rfl⟩

/-- Witness for C4: `limit = -1` with obstacles present and no fuel at all. -/
theorem castRay_negative_limit_witness :
    (-1 : ℚ) < 0 ∧
    castRaySteps taylorTrig 0 [⟨10, -5, 5, 10⟩] [⟨⟨30, 30⟩, ⟨30, 400⟩⟩] ⟨400, 300⟩ 45 (-1) =
      some (⟨⟨400, 300⟩, ⟨400, 300⟩⟩, 0) :=
  ⟨by norm_num,
   (castRay_negative_limit taylorTrig 0 [⟨10, -5, 5, 10⟩] [⟨⟨30, 30⟩, ⟨30, 400⟩⟩] ⟨400, 300⟩ 45 (-1)
      (by norm_num)).1⟩

/-- C2, evaluated. For the rectangle `left = 10, top = -5, width = 5, height = 10`, start `(0, 0)`,
angle `0` and `limit = 100` the code returns the ray `((0, 0), (101, 0))` after 101 steps: the
horizontal ray has a bounding box of height `0`, which the overlap test rejects, so the rectangle is
never reported as hit. -/
theorem castRay_horizontal_misses_rect :
    castRaySteps taylorTrig 200 [⟨10, -5, 5, 10⟩] [] ⟨0, 0⟩ 0 100 =
      some (⟨⟨0, 0⟩, ⟨101, 0⟩⟩, 101) ∧
    lineRectIntersection ⟨⟨0, 0⟩, ⟨10, 0⟩⟩ ⟨10, -5, 5, 10⟩ = none ∧
    lineLineIntersection ⟨⟨0, 0⟩, ⟨10, 0⟩⟩ ⟨⟨10, 5⟩, ⟨10, -5⟩⟩ = some ⟨10, 0⟩ := by
  refine ⟨?_, ?_, ?_⟩
  · have := castRaySteps_angle0_rects taylorTrig [⟨10, -5, 5, 10⟩] ⟨0, 0⟩ 100 (by norm_num) 200
      (by rw [Nat.floor_ofNat]; norm_num)
    rw [this]
    norm_num
  · exact lineRectIntersection_flat _ _ (Or.inl rfl)
  · norm_num [lineLineIntersection, cRound, fdiv, inUnit]

/-! ## The point computed on a hit and the returned ray -/

theorem hitTest_eq_isSome (rects : List FloatRect) (lines : List Line) (ray : Line) :
    hitTest rects lines ray = (hitPoint rects lines ray).isSome := by
  unfold hitTest hitPoint
  have h : ∀ {α : Type} (f : α → Option Vector2f) (l : List α),
      l.any (fun a => (f a).isSome) = (l.findSome? f).isSome := by
    intro α f l
    induction l with
    | nil => rfl
    | cons a l ih =>
      cases hfa : f a <;> simp [List.findSome?, hfa, ih]
  rw [h, h]
  cases List.findSome? (fun rect => lineRectIntersection ray rect) rects <;> simp

/-- C1, evaluated. With the single segment obstacle `(5/2, -1)-(5/2, 1)`, start `(0, 0)`, angle `0`
and `limit = 100` the march stops at step 3 because the obstacle is hit; the intersection routine
computed the point `(5/2, 0)`, but the returned ray still ends at the stepped position `(3, 0)`. -/
theorem castRay_hit_keeps_stepped_end :
    castRay taylorTrig 10 [] [⟨⟨5 / 2, -1⟩, ⟨5 / 2, 1⟩⟩] ⟨0, 0⟩ 0 100 = some ⟨⟨0, 0⟩, ⟨3, 0⟩⟩ ∧
    castRaySteps taylorTrig 10 [] [⟨⟨5 / 2, -1⟩, ⟨5 / 2, 1⟩⟩] ⟨0, 0⟩ 0 100 =
      some (⟨⟨0, 0⟩, ⟨3, 0⟩⟩, 3) ∧
    hitTest [] [⟨⟨5 / 2, -1⟩, ⟨5 / 2, 1⟩⟩] ⟨⟨0, 0⟩, ⟨3, 0⟩⟩ = true ∧
    hitPoint [] [⟨⟨5 / 2, -1⟩, ⟨5 / 2, 1⟩⟩] ⟨⟨0, 0⟩, ⟨3, 0⟩⟩ = some ⟨5 / 2, 0⟩ ∧
    lineLineIntersection ⟨⟨0, 0⟩, ⟨3, 0⟩⟩ ⟨⟨5 / 2, -1⟩, ⟨5 / 2, 1⟩⟩ = some ⟨5 / 2, 0⟩ := by
  have hl : lineLineIntersection ⟨⟨0, 0⟩, ⟨3, 0⟩⟩ ⟨⟨5 / 2, -1⟩, ⟨5 / 2, 1⟩⟩ = some ⟨5 / 2, 0⟩ := by
    norm_num [lineLineIntersection, cRound, fdiv, inUnit]
  have hs : castRaySteps taylorTrig 10 [] [⟨⟨5 / 2, -1⟩, ⟨5 / 2, 1⟩⟩] ⟨0, 0⟩ 0 100 =
      some (⟨⟨0, 0⟩, ⟨3, 0⟩⟩, 3) := by
    rw [castRaySteps_run taylorTrig [] _ ⟨0, 0⟩ 0 100 3 10 (by norm_num)]
    · norm_num [rayAt, taylorTrig]
    · intro j hj
      interval_cases j <;>
        norm_num [rayAt, taylorTrig, sqrtLe, hitTest, lineLineIntersection, cRound, fdiv, inUnit]
    · right
      norm_num [rayAt, taylorTrig, hitTest, lineLineIntersection, cRound, fdiv, inUnit]
  refine ⟨by rw [castRay, hs]; rfl, hs, ?_, ?_, hl⟩
  · simp [hitTest, hl]
  · simp [hitPoint, hl]

/-- C9, evaluated. For the horizontal segment `(0, 0)-(12, 0)` and the rectangle `left = 10,
top = -5, width = 5, height = 10` the pre-filter answers "no overlap" and `lineRectIntersection`
returns `false`, although the edge loop on its own finds the hit `(10, 0)` on the left edge. -/
theorem lineRectIntersection_prefilter_drops_hit :
    lineRectIntersection ⟨⟨0, 0⟩, ⟨12, 0⟩⟩ ⟨10, -5, 5, 10⟩ = none ∧
    FloatRect.intersects ⟨10, -5, 5, 10⟩ (getLineRect ⟨⟨0, 0⟩, ⟨12, 0⟩⟩) = false ∧
    (getRectLines ⟨10, -5, 5, 10⟩).toList.findSome?
      (fun rect_line => lineLineIntersection ⟨⟨0, 0⟩, ⟨12, 0⟩⟩ rect_line) = some ⟨10, 0⟩ ∧
    lineLineIntersection ⟨⟨0, 0⟩, ⟨12, 0⟩⟩ ⟨⟨10, 5⟩, ⟨10, -5⟩⟩ = some ⟨10, 0⟩ := by
  refine ⟨lineRectIntersection_flat _ _ (Or.inl rfl), intersects_flat_y _ _ rfl, ?_, ?_⟩
  · norm_num [getRectLines, getRectVertices, Array4.toList, List.findSome?, lineLineIntersection,
      cRound, fdiv, inUnit]
  · norm_num [lineLineIntersection, cRound, fdiv, inUnit]

/-! ## Geometry of reported hits -/

theorem unitRatio_param {a b : ℚ} (h : unitRatio a b) : 0 ≤ a / b ∧ a / b ≤ 1 ∧ a = a / b * b :=
  ⟨h.2.1, h.2.2, (div_mul_cancel₀ a h.1).symm⟩

theorem onSegment_of_within (c : Vector2f) (l : Line) (hw : within c l)
    (hc : (c.x - l.p0.x) * (l.p1.y - l.p0.y) = (c.y - l.p0.y) * (l.p1.x - l.p0.x)) :
    onSegment c l := by
  rcases hw with h | h
  · obtain ⟨h0, h1, he⟩ := unitRatio_param h
    have hb : -(l.p0.x - l.p1.x) ≠ 0 := h.1
    refine ⟨_, h0, h1, by linarith, ?_⟩
    have key : (c.y - l.p0.y - (c.x - l.p0.x) / -(l.p0.x - l.p1.x) * (l.p1.y - l.p0.y)) *
        (-(l.p0.x - l.p1.x)) = 0 := by
      linear_combination (-1 : ℚ) * hc + (l.p1.y - l.p0.y) * he
    rcases mul_eq_zero.1 key with k | k
    · linarith
    · exact absurd k hb
  · obtain ⟨h0, h1, he⟩ := unitRatio_param h
    have hb : -(l.p0.y - l.p1.y) ≠ 0 := h.1
    refine ⟨_, h0, h1, ?_, by linarith⟩
    have key : (c.x - l.p0.x - (c.y - l.p0.y) / -(l.p0.y - l.p1.y) * (l.p1.x - l.p0.x)) *
        (-(l.p0.y - l.p1.y)) = 0 := by
      linear_combination hc + (l.p1.x - l.p0.x) * he
    rcases mul_eq_zero.1 key with k | k
    · linarith
    · exact absurd k hb

/-- In exact arithmetic a reported hit is a common point of the two closed segments. -/
theorem lineLineIntersection_onSegment (l1 l2 : Line) (p : Vector2f)
    (h : lineLineIntersection l1 l2 = some p) : onSegment p l1 ∧ onSegment p l2 := by
  obtain ⟨hd, h1, h2, rfl⟩ := (lineLineIntersection_eq_some_iff l1 l2 p).1 h
  have hne := denom_ne_zero_of_half_le hd
  exact ⟨onSegment_of_within _ _ h1 (candidate_on_first l1 l2 hne),
    onSegment_of_within _ _ h2 (candidate_on_second l1 l2 hne)⟩

theorem onSegment_bounds {p : Vector2f} {l : Line} (h : onSegment p l) :
    min l.p0.x l.p1.x ≤ p.x ∧ p.x ≤ max l.p0.x l.p1.x ∧
    min l.p0.y l.p1.y ≤ p.y ∧ p.y ≤ max l.p0.y l.p1.y := by
  obtain ⟨t, h0, h1, hx, hy⟩ := h
  have aux : ∀ a b : ℚ, min a b ≤ a + t * (b - a) ∧ a + t * (b - a) ≤ max a b := by
    intro a b
    rcases le_total a b with hab | hab
    · rw [min_eq_left hab, max_eq_right hab]
      constructor <;> nlinarith
    · rw [min_eq_right hab, max_eq_left hab]
      constructor <;> nlinarith
  rw [hx, hy]
  exact ⟨(aux _ _).1, (aux _ _).2, (aux _ _).1, (aux _ _).2⟩

theorem getLineRect_swap (l : Line) : getLineRect ⟨l.p1, l.p0⟩ = getLineRect l := by
  simp only [getLineRect, FloatRect.mk.injEq]
  exact ⟨min_comm _ _, min_comm _ _, abs_sub_comm _ _, abs_sub_comm _ _⟩

theorem min_add_abs_sub (a b : ℚ) : min a b + |a - b| = max a b := by
  rcases le_total a b with h | h
  · rw [min_eq_left h, max_eq_right h, abs_of_nonpos (by linarith)]; ring
  · rw [min_eq_right h, max_eq_left h, abs_of_nonneg (by linarith)]; ring

/-- The overlap test on a rectangle with non-negative extent and the bounding box of a segment. -/
theorem intersects_getLineRect_iff (rect : FloatRect) (l : Line) (hw : 0 ≤ rect.width)
    (hh : 0 ≤ rect.height) :
    rect.intersects (getLineRect l) = true ↔
      max rect.left (min l.p0.x l.p1.x) < min (rect.left + rect.width) (max l.p0.x l.p1.x) ∧
      max rect.top (min l.p0.y l.p1.y) < min (rect.top + rect.height) (max l.p0.y l.p1.y) := by
  simp only [FloatRect.intersects, getLineRect, min_add_abs_sub, Bool.and_eq_true,
    decide_eq_true_eq]
  rw [min_eq_left (show rect.left ≤ rect.left + rect.width by linarith),
    max_eq_right (show rect.left ≤ rect.left + rect.width by linarith),
    min_eq_left (show rect.top ≤ rect.top + rect.height by linarith),
    max_eq_right (show rect.top ≤ rect.top + rect.height by linarith),
    min_eq_left (min_le_max : min l.p0.x l.p1.x ≤ max l.p0.x l.p1.x),
    max_eq_right (min_le_max : min l.p0.x l.p1.x ≤ max l.p0.x l.p1.x),
    min_eq_left (min_le_max : min l.p0.y l.p1.y ≤ max l.p0.y l.p1.y),
    max_eq_right (min_le_max : min l.p0.y l.p1.y ≤ max l.p0.y l.p1.y)]

/-! ## Segment against rectangle -/

/-- A hit on any boundary edge of a rectangle with non-negative extent is a common point of the
closed rectangle and the closed bounding box of the segment: an overlap test that counts touching
boxes would let every edge hit through. -/
theorem edge_hit_boxes_touch (line : Line) (rect : FloatRect) (hw : 0 ≤ rect.width)
    (hh : 0 ≤ rect.height) (e : Line) (he : e ∈ (getRectLines rect).toList) (p : Vector2f)
    (hp : lineLineIntersection line e = some p) :
    max rect.left (min line.p0.x line.p1.x) ≤ min (rect.left + rect.width) (max line.p0.x line.p1.x) ∧
    max rect.top (min line.p0.y line.p1.y) ≤
      min (rect.top + rect.height) (max line.p0.y line.p1.y) := by
  obtain ⟨s1, s2⟩ := lineLineIntersection_onSegment _ _ _ hp
  obtain ⟨b1, b2, b3, b4⟩ := onSegment_bounds s1
  have hin : rect.left ≤ p.x ∧ p.x ≤ rect.left + rect.width ∧
      rect.top ≤ p.y ∧ p.y ≤ rect.top + rect.height := by
    obtain ⟨t, t0, t1, tx, ty⟩ := s2
    simp only [getRectLines, getRectVertices, Array4.toList, List.mem_cons, List.mem_singleton,
      List.not_mem_nil, or_false] at he
    rcases he with rfl | rfl | rfl | rfl <;> simp only [] at tx ty <;>
      refine ⟨?_, ?_, ?_, ?_⟩ <;> nlinarith
  obtain ⟨i1, i2, i3, i4⟩ := hin
  exact ⟨max_le (le_min (by linarith) (by linarith)) (le_min (by linarith) (by linarith)),
    max_le (le_min (by linarith) (by linarith)) (le_min (by linarith) (by linarith))⟩

/-! ## Bounding box of a segment and boundary of a rectangle -/

/-- C13. `getRectVertices` returns the corners top-left, top-right, bottom-right, bottom-left, and
`getRectLines` returns four segments of which edge `i` runs from corner `i` to corner
`(i + 1) mod 4`: the end of each edge is the start of the next, and the fourth edge ends where the
first one starts. -/
theorem getRectLines_closed_loop (rect : FloatRect) :
    getRectVertices rect =
      ⟨⟨rect.left, rect.top⟩, ⟨rect.left + rect.width, rect.top⟩,
       ⟨rect.left + rect.width, rect.top + rect.height⟩, ⟨rect.left, rect.top + rect.height⟩⟩ ∧
    (getRectLines rect).toList.length = 4 ∧
    (∀ i : Fin 4, (getRectLines rect).get i =
      ⟨(getRectVertices rect).get i, (getRectVertices rect).get (i + 1)⟩) ∧
    (∀ i : Fin 4, ((getRectLines rect).get i).p1 = ((getRectLines rect).get (i + 1)).p0) ∧
    (getRectLines rect).toList =
      [⟨⟨rect.left, rect.top⟩, ⟨rect.left + rect.width, rect.top⟩⟩,
       ⟨⟨rect.left + rect.width, rect.top⟩, ⟨rect.left + rect.width, rect.top + rect.height⟩⟩,
       ⟨⟨rect.left + rect.width, rect.top + rect.height⟩, ⟨rect.left, rect.top + rect.height⟩⟩,
       ⟨⟨rect.left, rect.top + rect.height⟩, ⟨rect.left, rect.top⟩⟩] := by
  refine ⟨rfl, rfl, ?_, ?_, rfl⟩
  · intro i
    fin_cases i <;> rfl
  · intro i
    fin_cases i <;> rfl

/-! ## Degenerate rectangles -/

/-- C19. For a rectangle with `width = 0` and `height = 0` every boundary edge is a single point, so
each edge test has denominator `0` and returns at the rounded zero test, before any division;
`lineRectIntersection` returns `false` and writes nothing. In every call the division by the
denominator is only reached with a non-zero denominator. -/
theorem lineRectIntersection_degenerate (line : Line) (rect : FloatRect)
    (hw : rect.width = 0) (hh : rect.height = 0) :
    lineRectIntersection line rect = none ∧
    (∀ e, e ∈ (getRectLines rect).toList →
      (e.p0.x - e.p1.x = 0 ∧ e.p0.y - e.p1.y = 0) ∧
      cRound ((line.p0.x - line.p1.x) * (e.p0.y - e.p1.y) -
        (line.p0.y - line.p1.y) * (e.p0.x - e.p1.x)) = 0 ∧
      lineLineIntersection line e = none) ∧
    (∀ l1 l2 : Line,
      cRound ((l1.p0.x - l1.p1.x) * (l2.p0.y - l2.p1.y) -
        (l1.p0.y - l1.p1.y) * (l2.p0.x - l2.p1.x)) ≠ 0 →
      (l1.p0.x - l1.p1.x) * (l2.p0.y - l2.p1.y) -
        (l1.p0.y - l1.p1.y) * (l2.p0.x - l2.p1.x) ≠ 0) := by
  have hedge : ∀ e, e ∈ (getRectLines rect).toList →
      (e.p0.x - e.p1.x = 0 ∧ e.p0.y - e.p1.y = 0) := by
    intro e he
    simp only [getRectLines, getRectVertices, Array4.toList, List.mem_cons, List.mem_singleton,
      List.not_mem_nil, or_false, hw, hh, add_zero] at he
    rcases he with rfl | rfl | rfl | rfl <;> exact ⟨sub_self _, sub_self _⟩
  have hnone : ∀ e, e ∈ (getRectLines rect).toList → lineLineIntersection line e = none := by
    intro e he
    rw [lineLineIntersection_eq_none_iff]
    rintro ⟨hd, -⟩
    apply denom_ne_zero_of_half_le hd
    simp only [denom, (hedge e he).1, (hedge e he).2, mul_zero, sub_self]
  refine ⟨?_, ?_, ?_⟩
  · unfold lineRectIntersection
    simp only []
    split_ifs
    · rw [List.findSome?_eq_none_iff]
      exact hnone
    · rfl
  · intro e he
    refine ⟨hedge e he, ?_, hnone e he⟩
    rw [(hedge e he).1, (hedge e he).2, mul_zero, mul_zero, sub_self]
    norm_num [cRound]
  · intro l1 l2 h h0
    apply h
    rw [h0]
    norm_num [cRound]

/-- Witness for C19: the one-point rectangle at `(10, -5)` and a segment through that point. -/
theorem lineRectIntersection_degenerate_witness :
    lineRectIntersection ⟨⟨0, -5⟩, ⟨20, -4⟩⟩ ⟨10, -5, 0, 0⟩ = none :=
  (lineRectIntersection_degenerate ⟨⟨0, -5⟩, ⟨20, -4⟩⟩ ⟨10, -5, 0, 0⟩ rfl rfl).1

/-! ## Exchanging the two segments -/

theorem denom_comm (l1 l2 : Line) : denom l2 l1 = -denom l1 l2 := by
  simp only [denom]; ring

theorem candidate_comm (l1 l2 : Line) : candidate l2 l1 = candidate l1 l2 := by
  simp only [candidate, denom_comm l1 l2, div_neg, Vector2f.mk.injEq]
  constructor <;> rw [← neg_div] <;> congr 1 <;> ring

/-- C20. Exchanging the two segment arguments of `lineLineIntersection` leaves the hit flag and the
reported point unchanged. -/
theorem lineLineIntersection_comm (l1 l2 : Line) :
    lineLineIntersection l2 l1 = lineLineIntersection l1 l2 := by
  ext p
  simp only [Option.mem_def, lineLineIntersection_eq_some_iff, denom_comm l1 l2, candidate_comm l1 l2,
    abs_neg]
  constructor
  · rintro ⟨h, h1, h2, h3⟩
    exact ⟨h, h2, h1, h3⟩
  · rintro ⟨h, h1, h2, h3⟩
    exact ⟨h, h2, h1, h3⟩

/-! ## The march stops at the first step that fails the guard -/

/-- The radians `castRay` computes from the degrees of `angleBetweenPoints` are the value of
`atan2` scaled by `180 * 0.0174533 / 3.14159265359`, a factor that exceeds `1` by about
`4.3e-7`: the two constants do not cancel exactly. -/
theorem angleBetweenPoints_radians (atan2 : ℚ → ℚ → ℚ) (a b : Vector2f) :
    angleBetweenPoints atan2 a b * DEGREE_RADIAN_RATIO =
      atan2 (a.y - b.y) (a.x - b.x) * (314159400000 / 314159265359) ∧
    (1 : ℚ) + 4 / 10000000 < 314159400000 / 314159265359 ∧
    (314159400000 / 314159265359 : ℚ) < 1 + 5 / 10000000 := by
  refine ⟨?_, by norm_num, by norm_num⟩
  simp only [angleBetweenPoints, PI, DEGREE_RADIAN_RATIO]
  ring

/-! ## Rounding to a binary format -/

namespace IEEE

theorem ilog2_spec : ∀ (fuel n : ℕ), 0 < n → n ≤ fuel →
    2 ^ ilog2 fuel n ≤ n ∧ n < 2 ^ (ilog2 fuel n + 1) := by
  intro fuel
  induction fuel with
  | zero => intro n h1 h2; omega
  | succ fuel ih =>
    intro n h1 h2
    unfold ilog2
    split_ifs with h
    · constructor
      · simpa using h1
      · simpa using h
    · have h3 : 0 < n / 2 := Nat.div_pos (by omega) (by norm_num)
      have h4 : n / 2 ≤ fuel := by omega
      obtain ⟨a, b⟩ := ih (n / 2) h3 h4
      constructor
      · rw [pow_succ]
        calc 2 ^ ilog2 fuel (n / 2) * 2 ≤ n / 2 * 2 := Nat.mul_le_mul_right 2 a
          _ ≤ n := Nat.div_mul_le_self n 2
      · rw [pow_succ]
        have : n < (n / 2 + 1) * 2 := by omega
        calc n < (n / 2 + 1) * 2 := this
          _ ≤ 2 ^ (ilog2 fuel (n / 2) + 1) * 2 := Nat.mul_le_mul_right 2 b

theorem roundEven_intCast (n : ℤ) : roundEven (n : ℚ) = n := by
  simp [roundEven]

theorem roundEven_neg (q : ℚ) : roundEven (-q) = -roundEven q := by
  unfold roundEven
  simp only []
  by_cases hq : (⌊q⌋ : ℚ) = q
  · have h1 : ⌊-q⌋ = -⌊q⌋ := by
      rw [← hq, ← Int.cast_neg, Int.floor_intCast, Int.floor_intCast]
    rw [h1]
    have h2 : -q - ((-⌊q⌋ : ℤ) : ℚ) = 0 := by push_cast; rw [hq]; ring
    have h3 : q - (⌊q⌋ : ℚ) = 0 := by rw [hq]; ring
    rw [h2, h3]
    norm_num
  · have hlt : (⌊q⌋ : ℚ) < q := lt_of_le_of_ne (Int.floor_le q) hq
    have h1 : ⌊-q⌋ = -⌊q⌋ - 1 := by
      rw [Int.floor_eq_iff]
      push_cast
      constructor
      · linarith [Int.lt_floor_add_one q]
      · linarith
    rw [h1]
    push_cast
    have e : -q - (-(⌊q⌋ : ℚ) - 1) = 1 - (q - ⌊q⌋) := by ring
    rw [e]
    rcases lt_trichotomy (q - (⌊q⌋ : ℚ)) (1 / 2) with h | h | h
    · have a : ¬ (1 - (q - (⌊q⌋ : ℚ)) < 1 / 2) := by linarith
      have b : 1 / 2 < 1 - (q - (⌊q⌋ : ℚ)) := by linarith
      simp only [if_neg a, if_pos b, if_pos h]
      ring
    · have a : ¬ (1 - (q - (⌊q⌋ : ℚ)) < 1 / 2) := by linarith
      have b : ¬ (1 / 2 < 1 - (q - (⌊q⌋ : ℚ))) := by linarith
      have c : ¬ (q - (⌊q⌋ : ℚ) < 1 / 2) := by linarith
      have d : ¬ (1 / 2 < q - (⌊q⌋ : ℚ)) := by linarith
      simp only [if_neg a, if_neg b, if_neg c, if_neg d]
      split_ifs <;> omega
    · have a : 1 - (q - (⌊q⌋ : ℚ)) < 1 / 2 := by linarith
      have c : ¬ (q - (⌊q⌋ : ℚ) < 1 / 2) := by linarith
      simp only [if_pos a, if_neg c, if_pos h]
      ring

theorem binExp_neg (q : ℚ) : binExp (-q) = binExp q := by
  simp [binExp]

theorem roundTo_zero (p : ℕ) (emin : ℤ) : roundTo p emin 0 = 0 := by
  simp [roundTo]

theorem roundTo_neg (p : ℕ) (emin : ℤ) (q : ℚ) : roundTo p emin (-q) = -roundTo p emin q := by
  unfold roundTo
  by_cases h : q = 0
  · simp [h]
  · rw [if_neg h, if_neg (neg_ne_zero.2 h)]
    simp only [binExp_neg, neg_div, roundEven_neg]
    push_cast
    ring

theorem f32_zero : f32 0 = 0 := roundTo_zero _ _

theorem f64_zero : f64 0 = 0 := roundTo_zero _ _

theorem f32_neg (q : ℚ) : f32 (-q) = -f32 q := roundTo_neg _ _ q

theorem f64_neg (q : ℚ) : f64 (-q) = -f64 q := roundTo_neg _ _ q

theorem abs_eq_natAbs_div (q : ℚ) : |q| = (q.num.natAbs : ℚ) / (q.den : ℚ) := by
  have hd : (0 : ℚ) < (q.den : ℚ) := by exact_mod_cast q.den_pos
  conv_lhs => rw [← Rat.num_div_den q]
  rw [abs_div, abs_of_pos hd, Nat.cast_natAbs, Int.cast_abs]

theorem binExp_spec (q : ℚ) (hq : q ≠ 0) :
    (2 : ℚ) ^ binExp q ≤ |q| ∧ |q| < (2 : ℚ) ^ (binExp q + 1) := by
  have hn : 0 < q.num.natAbs := Int.natAbs_pos.2 (Rat.num_ne_zero.2 hq)
  have hd : 0 < q.den := q.den_pos
  obtain ⟨a1, a2⟩ := ilog2_spec q.num.natAbs q.num.natAbs hn (le_refl _)
  obtain ⟨b1, b2⟩ := ilog2_spec q.den q.den hd (le_refl _)
  have a1' : ((2 : ℚ) ^ ilog2 q.num.natAbs q.num.natAbs) ≤ (q.num.natAbs : ℚ) := by
    exact_mod_cast a1
  have a2' : (q.num.natAbs : ℚ) < (2 : ℚ) ^ (ilog2 q.num.natAbs q.num.natAbs + 1) := by
    exact_mod_cast a2
  have b1' : ((2 : ℚ) ^ ilog2 q.den q.den) ≤ (q.den : ℚ) := by exact_mod_cast b1
  have b2' : (q.den : ℚ) < (2 : ℚ) ^ (ilog2 q.den q.den + 1) := by exact_mod_cast b2
  have hdq : (0 : ℚ) < (q.den : ℚ) := by exact_mod_cast hd
  have habs := abs_eq_natAbs_div q
  set A := ilog2 q.num.natAbs q.num.natAbs with hA
  set B := ilog2 q.den q.den with hB
  have two_pos : ∀ k : ℕ, (0 : ℚ) < (2 : ℚ) ^ k := fun k => by positivity
  have e0 : (2 : ℚ) ^ ((A : ℤ) - (B : ℤ)) = (2 : ℚ) ^ A / (2 : ℚ) ^ B := by
    rw [zpow_sub₀ (by norm_num : (2 : ℚ) ≠ 0), zpow_natCast, zpow_natCast]
  have e1 : (2 : ℚ) ^ ((A : ℤ) - (B : ℤ) + 1) = (2 : ℚ) ^ (A + 1) / (2 : ℚ) ^ B := by
    rw [zpow_add₀ (by norm_num : (2 : ℚ) ≠ 0), e0, zpow_one, pow_succ]
    ring
  have em : (2 : ℚ) ^ ((A : ℤ) - (B : ℤ) - 1) = (2 : ℚ) ^ A / (2 : ℚ) ^ (B + 1) := by
    rw [zpow_sub₀ (by norm_num : (2 : ℚ) ≠ 0), e0, zpow_one, pow_succ]
    field_simp
  have hup : |q| < (2 : ℚ) ^ ((A : ℤ) - (B : ℤ) + 1) := by
    rw [e1, habs, div_lt_div_iff₀ hdq (two_pos B)]
    calc (q.num.natAbs : ℚ) * 2 ^ B < 2 ^ (A + 1) * 2 ^ B :=
          mul_lt_mul_of_pos_right a2' (two_pos B)
      _ ≤ 2 ^ (A + 1) * (q.den : ℚ) := mul_le_mul_of_nonneg_left b1' (two_pos _).le
  have hlow : (2 : ℚ) ^ ((A : ℤ) - (B : ℤ) - 1) ≤ |q| := by
    rw [em, habs, div_le_div_iff₀ (two_pos (B + 1)) hdq]
    calc (2 : ℚ) ^ A * (q.den : ℚ) ≤ 2 ^ A * 2 ^ (B + 1) :=
          mul_le_mul_of_nonneg_left b2'.le (two_pos _).le
      _ ≤ (q.num.natAbs : ℚ) * 2 ^ (B + 1) := mul_le_mul_of_nonneg_right a1' (two_pos _).le
  unfold binExp
  simp only []
  rw [← hA, ← hB]
  split_ifs with h
  · exact ⟨h, hup⟩
  · refine ⟨hlow, ?_⟩
    rw [sub_add_cancel]
    exact not_le.1 h

theorem roundTo_of_intCast_div (p : ℕ) (emin : ℤ) (q : ℚ) (hq : q ≠ 0) (z : ℤ)
    (hz : q / (2 : ℚ) ^ (max (binExp q) emin - (p - 1)) = z) : roundTo p emin q = q := by
  unfold roundTo
  rw [if_neg hq]
  simp only []
  rw [hz, roundEven_intCast, ← hz]
  have : (2 : ℚ) ^ (max (binExp q) emin - ((p : ℤ) - 1)) ≠ 0 := by positivity
  field_simp

/-- Every integer of magnitude at most `2 ^ 24` is a `float`. -/
theorem f32_intCast (n : ℤ) (hn : |n| ≤ 2 ^ 24) : f32 (n : ℚ) = n := by
  rcases eq_or_ne n 0 with rfl | h0
  · simpa using f32_zero
  have hq : (n : ℚ) ≠ 0 := by exact_mod_cast h0
  obtain ⟨s1, s2⟩ := binExp_spec (n : ℚ) hq
  have habs1 : (1 : ℚ) ≤ |(n : ℚ)| := by
    have : (1 : ℤ) ≤ |n| := Int.one_le_abs h0
    exact_mod_cast this
  have habs2 : |(n : ℚ)| ≤ 2 ^ 24 := by exact_mod_cast hn
  have he0 : 0 ≤ binExp (n : ℚ) := by
    by_contra hneg
    push_neg at hneg
    have : (2 : ℚ) ^ (binExp (n : ℚ) + 1) ≤ 2 ^ (0 : ℤ) :=
      zpow_le_zpow_right₀ (by norm_num) (by omega)
    rw [zpow_zero] at this
    linarith
  have he24 : binExp (n : ℚ) ≤ 24 := by
    by_contra hbig
    push_neg at hbig
    have : (2 : ℚ) ^ (25 : ℤ) ≤ 2 ^ binExp (n : ℚ) :=
      zpow_le_zpow_right₀ (by norm_num) (by omega)
    have h25 : (2 : ℚ) ^ (25 : ℤ) = 2 ^ 25 := by norm_num
    rw [h25] at this
    linarith
  obtain ⟨e, he⟩ : ∃ e : ℕ, binExp (n : ℚ) = e := Int.eq_ofNat_of_zero_le he0
  have hmax : max (binExp (n : ℚ)) (-126) = e := by
    rw [he]; exact max_eq_left (by omega)
  unfold f32
  rcases Nat.lt_or_ge e 24 with hlt | hge
  · apply roundTo_of_intCast_div 24 (-126) (n : ℚ) hq (n * 2 ^ (23 - e))
    rw [hmax]
    have hu : (2 : ℚ) ^ ((e : ℤ) - ((24 : ℕ) - 1 : ℤ)) = ((2 : ℚ) ^ (23 - e))⁻¹ := by
      rw [← zpow_natCast, ← zpow_neg]
      congr 1
      have : ((23 - e : ℕ) : ℤ) = 23 - (e : ℤ) := by omega
      rw [this]
      norm_num
    rw [hu]
    push_cast
    rw [div_inv_eq_mul]
  · have he' : e = 24 := by omega
    subst he'
    rw [he] at s1
    have hpow : (2 : ℚ) ^ ((24 : ℕ) : ℤ) = 2 ^ 24 := by norm_num
    rw [hpow] at s1
    have habs : |(n : ℚ)| = 2 ^ 24 := le_antisymm habs2 s1
    have habsz : |n| = 2 ^ 24 := by exact_mod_cast habs
    rcases abs_eq (by norm_num : (0 : ℤ) ≤ 2 ^ 24) |>.1 habsz with hn1 | hn1
    · rw [hn1]; decide!
    · rw [hn1]; decide!

end IEEE

/-! ## The correctly rounded square root -/

namespace IEEE

theorem binExp_unique (q : ℚ) (hq : q ≠ 0) (e : ℤ) (h1 : (2 : ℚ) ^ e ≤ |q|)
    (h2 : |q| < (2 : ℚ) ^ (e + 1)) : binExp q = e := by
  obtain ⟨b1, b2⟩ := binExp_spec q hq
  have h3 : (2 : ℚ) ^ e < (2 : ℚ) ^ (binExp q + 1) := lt_of_le_of_lt h1 b2
  have h4 : (2 : ℚ) ^ binExp q < (2 : ℚ) ^ (e + 1) := lt_of_le_of_lt b1 h2
  have h5 := (zpow_lt_zpow_iff_right₀ (by norm_num : (1 : ℚ) < 2)).1 h3
  have h6 := (zpow_lt_zpow_iff_right₀ (by norm_num : (1 : ℚ) < 2)).1 h4
  omega

theorem binExp_sq (r : ℚ) (hr : 0 < r) : binExp (r * r) / 2 = binExp r := by
  obtain ⟨b1, b2⟩ := binExp_spec r hr.ne'
  rw [abs_of_pos hr] at b1 b2
  have hq : r * r ≠ 0 := (mul_pos hr hr).ne'
  obtain ⟨c1, c2⟩ := binExp_spec (r * r) hq
  rw [abs_of_pos (mul_pos hr hr)] at c1 c2
  have hp : (0 : ℚ) < (2 : ℚ) ^ binExp r := by positivity
  have h3 : (2 : ℚ) ^ (binExp r + binExp r) < (2 : ℚ) ^ (binExp (r * r) + 1) := by
    rw [zpow_add₀ (by norm_num : (2 : ℚ) ≠ 0)]
    calc (2 : ℚ) ^ binExp r * (2 : ℚ) ^ binExp r ≤ r * r := by
          apply mul_le_mul b1 b1 hp.le hr.le
      _ < _ := c2
  have h4 : (2 : ℚ) ^ binExp (r * r) < (2 : ℚ) ^ ((binExp r + 1) + (binExp r + 1)) := by
    rw [zpow_add₀ (by norm_num : (2 : ℚ) ≠ 0)]
    calc (2 : ℚ) ^ binExp (r * r) ≤ r * r := c1
      _ < _ := by apply mul_lt_mul'' b2 b2 hr.le hr.le
  have h5 := (zpow_lt_zpow_iff_right₀ (by norm_num : (1 : ℚ) < 2)).1 h3
  have h6 := (zpow_lt_zpow_iff_right₀ (by norm_num : (1 : ℚ) < 2)).1 h4
  omega

theorem isqrtAux_spec (n : ℕ) : ∀ (b r : ℕ), r * r ≤ n → n < (r + 2 ^ b) * (r + 2 ^ b) →
    isqrtAux n b r * isqrtAux n b r ≤ n ∧ n < (isqrtAux n b r + 1) * (isqrtAux n b r + 1) := by
  intro b
  induction b with
  | zero =>
    intro r h1 h2
    simpa [isqrtAux] using ⟨h1, h2⟩
  | succ b ih =>
    intro r h1 h2
    unfold isqrtAux
    split_ifs with h
    · apply ih _ h
      have : r + 2 ^ b + 2 ^ b = r + 2 ^ (b + 1) := by rw [pow_succ]; ring
      rw [this]; exact h2
    · exact ih _ h1 (not_le.1 h)

theorem isqrt_spec (n : ℕ) : isqrt n * isqrt n ≤ n ∧ n < (isqrt n + 1) * (isqrt n + 1) := by
  unfold isqrt
  apply isqrtAux_spec n _ 0 (Nat.zero_le _)
  rw [zero_add, ← pow_add]
  rcases Nat.eq_zero_or_pos n with rfl | hn
  · simp [ilog2]
  · have h := (ilog2_spec n n hn le_rfl).2
    refine lt_of_lt_of_le h (Nat.pow_le_pow_right (by norm_num) ?_)
    omega

theorem isqrt_sq (m : ℕ) : isqrt (m * m) = m := by
  obtain ⟨h1, h2⟩ := isqrt_spec (m * m)
  have a1 : isqrt (m * m) ≤ m := by
    by_contra h
    have : m + 1 ≤ isqrt (m * m) := by omega
    have := Nat.mul_le_mul this this
    nlinarith
  have a2 : m ≤ isqrt (m * m) := by
    by_contra h
    have : isqrt (m * m) + 1 ≤ m := by omega
    have := Nat.mul_le_mul this this
    omega
  omega

theorem sqrt32_zero : sqrt32 0 = 0 := by
  simp [sqrt32]

/-- A non-zero value of a format is an integer multiple of the spacing at its own exponent. -/
theorem roundTo_fixed_eq_mul (p : ℕ) (emin : ℤ) (r : ℚ) (hr : r ≠ 0) (hf : roundTo p emin r = r) :
    r = (roundEven (r / (2 : ℚ) ^ (max (binExp r) emin - (p - 1))) : ℚ) *
      (2 : ℚ) ^ (max (binExp r) emin - (p - 1)) := by
  unfold roundTo at hf
  rw [if_neg hr] at hf
  exact hf.symm

/-- The square root of the square of a non-negative `float` is that `float`. -/
theorem sqrt32_sq (r : ℚ) (hr : 0 ≤ r) (hf : f32 r = r) : sqrt32 (r * r) = r := by
  rcases eq_or_lt_of_le hr with h0 | hpos
  · rw [← h0]; simpa using sqrt32_zero
  have hm := roundTo_fixed_eq_mul 24 (-126) r hpos.ne' hf
  set u : ℚ := (2 : ℚ) ^ (max (binExp r) (-126) - ((24 : ℕ) - 1)) with hu
  set m : ℤ := roundEven (r / u) with hmdef
  have hupos : 0 < u := by rw [hu]; positivity
  have hmpos : 0 < m := by
    have : (0 : ℚ) < (m : ℚ) * u := by rw [← hm]; exact hpos
    have h2 : (0 : ℚ) < (m : ℚ) := by
      by_contra hc
      have := mul_nonpos_of_nonpos_of_nonneg (not_lt.1 hc) hupos.le
      linarith
    exact_mod_cast h2
  have hu2 : (2 : ℚ) ^ (max (binExp (r * r) / 2) (-126) - 23) = u := by
    rw [binExp_sq r hpos, hu]; norm_num
  unfold sqrt32
  rw [if_neg (not_le.2 (mul_pos hpos hpos))]
  simp only [hu2]
  have hq : r * r / (u * u) = ((m * m : ℤ) : ℚ) := by
    rw [hm]; push_cast; field_simp; ring
  have hk : isqrt ⌊r * r / (u * u)⌋.toNat = m.toNat := by
    rw [hq, Int.floor_intCast]
    have : (m * m).toNat = m.toNat * m.toNat := by
      obtain ⟨k, hk⟩ : ∃ k : ℕ, m = k := ⟨m.toNat, (Int.toNat_of_nonneg hmpos.le).symm⟩
      rw [hk, ← Nat.cast_mul, Int.toNat_natCast, Int.toNat_natCast]
    rw [this, isqrt_sq]
  rw [hk]
  have hkm : ((m.toNat : ℕ) : ℚ) = (m : ℚ) := by
    have : ((m.toNat : ℕ) : ℤ) = m := Int.toNat_of_nonneg hmpos.le
    exact_mod_cast this
  rw [hkm]
  have hlt : r * r < ((m : ℚ) + 1 / 2) * u * (((m : ℚ) + 1 / 2) * u) := by
    have hmq : (0 : ℚ) < (m : ℚ) := by exact_mod_cast hmpos
    rw [hm]
    have : (m : ℚ) * u < ((m : ℚ) + 1 / 2) * u := by
      apply mul_lt_mul_of_pos_right _ hupos; linarith
    have h0 : (0 : ℚ) ≤ (m : ℚ) * u := by positivity
    exact mul_lt_mul'' this this h0 h0
  rw [if_pos hlt]
  exact hm.symm

theorem sqrt32_natCast_sq (k : ℕ) (hk : k ≤ 2 ^ 24) : sqrt32 ((k : ℚ) * k) = k := by
  apply sqrt32_sq _ (Nat.cast_nonneg k)
  have := f32_intCast (k : ℤ) (by rw [abs_of_nonneg (Int.natCast_nonneg k)]; exact_mod_cast hk)
  simpa using this

end IEEE

/-! ## Rounding error and idempotence -/

namespace IEEE

theorem roundEven_sub_le (t : ℚ) : |(roundEven t : ℚ) - t| ≤ 1 / 2 := by
  have h1 := Int.floor_le t
  have h2 := Int.lt_floor_add_one t
  unfold roundEven
  simp only []
  split_ifs with a b c
  · rw [abs_le]; constructor <;> linarith
  · push_cast; rw [abs_le]; constructor <;> linarith
  · have : t - ⌊t⌋ = 1 / 2 := le_antisymm (not_lt.1 b) (not_lt.1 a)
    rw [abs_le]; constructor <;> linarith
  · have : t - ⌊t⌋ = 1 / 2 := le_antisymm (not_lt.1 b) (not_lt.1 a)
    push_cast; rw [abs_le]; constructor <;> linarith

theorem roundEven_abs_le (t : ℚ) (N : ℤ) (h : |t| ≤ N) : |roundEven t| ≤ N := by
  have h1 := roundEven_sub_le t
  by_contra hc
  have h2 : N + 1 ≤ |roundEven t| := by omega
  have h3 : ((N + 1 : ℤ) : ℚ) ≤ ((|roundEven t| : ℤ) : ℚ) := by exact_mod_cast h2
  rw [Int.cast_abs] at h3
  push_cast at h3
  have h4 : |(roundEven t : ℚ)| ≤ |(roundEven t : ℚ) - t| + |t| := by
    have := abs_add ((roundEven t : ℚ) - t) t
    simpa using this
  linarith

theorem le_roundEven_abs (t : ℚ) (M : ℤ) (h : (M : ℚ) ≤ |t|) : M ≤ |roundEven t| := by
  have h1 := roundEven_sub_le t
  by_contra hc
  have h2 : |roundEven t| + 1 ≤ M := by omega
  have h3 : ((|roundEven t| + 1 : ℤ) : ℚ) ≤ (M : ℚ) := by exact_mod_cast h2
  rw [Int.cast_add, Int.cast_abs] at h3
  push_cast at h3
  have h4 : |t| ≤ |t - (roundEven t : ℚ)| + |(roundEven t : ℚ)| := by
    have := abs_add (t - (roundEven t : ℚ)) (roundEven t : ℚ)
    simpa using this
  rw [abs_sub_comm] at h4
  linarith

theorem binExp_lt_of_lt (q : ℚ) (hq : q ≠ 0) (t : ℤ) (h : |q| < (2 : ℚ) ^ t) : binExp q < t := by
  have h1 := (binExp_spec q hq).1
  exact (zpow_lt_zpow_iff_right₀ (by norm_num : (1 : ℚ) < 2)).1 (lt_of_le_of_lt h1 h)

theorem le_binExp_of_le (q : ℚ) (hq : q ≠ 0) (t : ℤ) (h : (2 : ℚ) ^ t ≤ |q|) : t ≤ binExp q := by
  have h1 := (binExp_spec q hq).2
  have := (zpow_lt_zpow_iff_right₀ (by norm_num : (1 : ℚ) < 2)).1 (lt_of_le_of_lt h h1)
  omega

/-- The rounding error is at most half the spacing at the exponent of the argument. -/
theorem roundTo_sub_le (p : ℕ) (emin : ℤ) (x : ℚ) :
    |roundTo p emin x - x| ≤ (2 : ℚ) ^ (max (binExp x) emin - (p - 1)) / 2 := by
  unfold roundTo
  split_ifs with h0
  · rw [h0, sub_zero, abs_zero]; positivity
  · simp only []
    set u : ℚ := (2 : ℚ) ^ (max (binExp x) emin - ((p : ℤ) - 1)) with hu
    have hupos : 0 < u := by rw [hu]; positivity
    have h1 := roundEven_sub_le (x / u)
    have h2 : (roundEven (x / u) : ℚ) * u - x = ((roundEven (x / u) : ℚ) - x / u) * u := by
      field_simp
    rw [h2, abs_mul, abs_of_pos hupos]
    calc |(roundEven (x / u) : ℚ) - x / u| * u ≤ 1 / 2 * u :=
          mul_le_mul_of_nonneg_right h1 hupos.le
      _ = u / 2 := by ring

/-- Rounding a value of the format again does not change it. -/
theorem roundTo_idem (p : ℕ) (hp : 1 ≤ p) (emin : ℤ) (x : ℚ) :
    roundTo p emin (roundTo p emin x) = roundTo p emin x := by
  by_cases hx : x = 0
  · rw [hx, roundTo_zero, roundTo_zero]
  have hy : roundTo p emin x =
      (roundEven (x / (2 : ℚ) ^ (max (binExp x) emin - ((p : ℤ) - 1))) : ℚ) *
        (2 : ℚ) ^ (max (binExp x) emin - ((p : ℤ) - 1)) := by
    unfold roundTo
    rw [if_neg hx]
  set e : ℤ := max (binExp x) emin with he
  set u : ℚ := (2 : ℚ) ^ (e - ((p : ℤ) - 1)) with hu
  set n : ℤ := roundEven (x / u) with hn
  have hupos : 0 < u := by rw [hu]; positivity
  have two_ne : (2 : ℚ) ≠ 0 := by norm_num
  have hup : u * (2 : ℚ) ^ p = (2 : ℚ) ^ (e + 1) := by
    rw [hu, ← zpow_natCast, ← zpow_add₀ two_ne]; congr 1; ring
  have hup1 : u * (2 : ℚ) ^ (p - 1) = (2 : ℚ) ^ e := by
    rw [hu, ← zpow_natCast, ← zpow_add₀ two_ne]; congr 1
    rw [Nat.cast_sub hp]; push_cast; ring
  obtain ⟨b1, b2⟩ := binExp_spec x hx
  have hbe : binExp x ≤ e := le_max_left _ _
  have hxlt : |x / u| < ((2 ^ p : ℤ) : ℚ) := by
    rw [abs_div, abs_of_pos hupos, div_lt_iff₀ hupos]
    push_cast
    rw [mul_comm, hup]
    exact lt_of_lt_of_le b2 (zpow_le_zpow_right₀ (by norm_num) (by omega))
  have hnle : |n| ≤ 2 ^ p := roundEven_abs_le _ _ hxlt.le
  rw [hy]
  by_cases hn0 : n = 0
  · rw [hn0, Int.cast_zero, zero_mul, roundTo_zero]
  have hyne : (n : ℚ) * u ≠ 0 := mul_ne_zero (by exact_mod_cast hn0) hupos.ne'
  have habs : |(n : ℚ) * u| = ((|n| : ℤ) : ℚ) * u := by
    rw [abs_mul, abs_of_pos hupos, Int.cast_abs]
  rcases eq_or_lt_of_le hnle with heq | hlt
  · -- the rounded value is the next power of two
    have hval : |(n : ℚ) * u| = (2 : ℚ) ^ (e + 1) := by
      rw [habs, heq]; push_cast; rw [mul_comm, hup]
    have hb : binExp ((n : ℚ) * u) = e + 1 := by
      apply binExp_unique _ hyne
      · rw [hval]
      · rw [hval]; exact zpow_lt_zpow_right₀ (by norm_num) (by omega)
    have hmax : max (binExp ((n : ℚ) * u)) emin = e + 1 := by
      rw [hb]; apply max_eq_left; have : emin ≤ e := le_max_right _ _; omega
    have hu2 : (2 : ℚ) ^ (e + 1 - ((p : ℤ) - 1)) = 2 * u := by
      rw [hu, show e + 1 - ((p : ℤ) - 1) = 1 + (e - ((p : ℤ) - 1)) by ring, zpow_add₀ two_ne,
        zpow_one]
    have hpp : (2 : ℤ) ^ p = 2 * 2 ^ (p - 1) := by
      rw [← pow_succ', Nat.sub_add_cancel hp]
    rcases abs_eq (by positivity : (0 : ℤ) ≤ 2 ^ p) |>.1 heq with h | h
    · apply roundTo_of_intCast_div p emin _ hyne (2 ^ (p - 1))
      rw [hmax, hu2, h, hpp]; push_cast; field_simp; ring
    · apply roundTo_of_intCast_div p emin _ hyne (-2 ^ (p - 1))
      rw [hmax, hu2, h, hpp]; push_cast; field_simp; ring
  · -- the rounded value stays below the next power of two
    have hval : |(n : ℚ) * u| < (2 : ℚ) ^ (e + 1) := by
      rw [habs, ← hup, mul_comm]
      apply mul_lt_mul_of_pos_left _ hupos
      exact_mod_cast hlt
    have hble : binExp ((n : ℚ) * u) ≤ e := by
      have := binExp_lt_of_lt _ hyne _ hval; omega
    have hmax : max (binExp ((n : ℚ) * u)) emin = e := by
      rcases le_or_lt (binExp x) emin with hc | hc
      · have : e = emin := max_eq_right hc
        rw [this] at hble ⊢
        exact max_eq_right hble
      · have hee : e = binExp x := max_eq_left hc.le
        have hxge : (((2 : ℤ) ^ (p - 1) : ℤ) : ℚ) ≤ |x / u| := by
          rw [abs_div, abs_of_pos hupos, le_div_iff₀ hupos]
          push_cast
          rw [mul_comm, hup1, hee]
          exact b1
        have hnge := le_roundEven_abs _ _ hxge
        have hyge : (2 : ℚ) ^ e ≤ |(n : ℚ) * u| := by
          rw [habs, ← hup1, mul_comm]
          apply mul_le_mul_of_nonneg_right _ hupos.le
          exact_mod_cast hnge
        have := le_binExp_of_le _ hyne _ hyge
        have hb : binExp ((n : ℚ) * u) = e := by omega
        rw [hb]; exact max_eq_left (le_max_right _ _)
    apply roundTo_of_intCast_div p emin _ hyne n
    rw [hmax]
    field_simp

theorem f32_natCast (k : ℕ) (hk : k ≤ 2 ^ 24) : f32 (k : ℚ) = k := by
  have := f32_intCast (k : ℤ) (by
    rw [abs_of_nonneg (Int.natCast_nonneg _)]; exact_mod_cast hk)
  simpa using this

theorem f32_neg_natCast (k : ℕ) (hk : k ≤ 2 ^ 24) : f32 (-(k : ℚ)) = -(k : ℚ) := by
  rw [f32_neg, f32_natCast k hk]

theorem f32_idem (x : ℚ) : f32 (f32 x) = f32 x := roundTo_idem 24 (by norm_num) _ x

theorem f64_idem (x : ℚ) : f64 (f64 x) = f64 x := roundTo_idem 53 (by norm_num) _ x

end IEEE

/-! ## The square root of a rounded square -/

namespace IEEE

/-- A `float` `r ≥ 1` is `m * 2 ^ (a - 23)` with `a` its exponent and `2 ^ 23 ≤ m < 2 ^ 24`. -/
theorem float_form (r : ℚ) (hr : 1 ≤ r) (hf : f32 r = r) :
    0 ≤ binExp r ∧ ∃ m : ℕ, r = (m : ℚ) * (2 : ℚ) ^ (binExp r - 23) ∧ 2 ^ 23 ≤ m ∧ m < 2 ^ 24 := by
  have hpos : 0 < r := by linarith
  have hne : r ≠ 0 := hpos.ne'
  have ha : 0 ≤ binExp r := by
    apply le_binExp_of_le r hne 0
    rw [zpow_zero, abs_of_pos hpos]; exact hr
  have hm := roundTo_fixed_eq_mul 24 (-126) r hne hf
  have hmax : max (binExp r) (-126) - (((24 : ℕ) : ℤ) - 1) = binExp r - 23 := by
    rw [max_eq_left (by omega)]; norm_num
  rw [hmax] at hm
  set u : ℚ := (2 : ℚ) ^ (binExp r - 23) with hu
  set z : ℤ := roundEven (r / u) with hz
  have hupos : 0 < u := by rw [hu]; positivity
  obtain ⟨b1, b2⟩ := binExp_spec r hne
  rw [abs_of_pos hpos] at b1 b2
  have two_ne : (2 : ℚ) ≠ 0 := by norm_num
  have e1 : (2 : ℚ) ^ binExp r = (2 : ℚ) ^ (23 : ℕ) * u := by
    rw [hu, ← zpow_natCast, ← zpow_add₀ two_ne]; congr 1; norm_num
  have e2 : (2 : ℚ) ^ (binExp r + 1) = (2 : ℚ) ^ (24 : ℕ) * u := by
    rw [hu, ← zpow_natCast, ← zpow_add₀ two_ne]; congr 1; norm_num; ring
  have hz1 : (2 : ℚ) ^ (23 : ℕ) ≤ (z : ℚ) := by
    have : (2 : ℚ) ^ (23 : ℕ) * u ≤ (z : ℚ) * u := by rw [← e1, ← hm]; exact b1
    exact le_of_mul_le_mul_right this hupos
  have hz2 : (z : ℚ) < (2 : ℚ) ^ (24 : ℕ) := by
    have : (z : ℚ) * u < (2 : ℚ) ^ (24 : ℕ) * u := by rw [← e2, ← hm]; exact b2
    exact lt_of_mul_lt_mul_right this hupos.le
  have hz1' : (2 : ℤ) ^ 23 ≤ z := by exact_mod_cast hz1
  have hz2' : z < (2 : ℤ) ^ 24 := by exact_mod_cast hz2
  have hz0 : 0 ≤ z := le_trans (by norm_num) hz1'
  refine ⟨ha, z.toNat, ?_, ?_, ?_⟩
  · have : ((z.toNat : ℕ) : ℚ) = (z : ℚ) := by
      have := Int.toNat_of_nonneg hz0
      exact_mod_cast this
    rw [this]; exact hm
  · have : ((2 ^ 23 : ℕ) : ℤ) ≤ z := by exact_mod_cast hz1'
    omega
  · have : z < ((2 ^ 24 : ℕ) : ℤ) := by exact_mod_cast hz2'
    omega

/-- The correctly rounded root is the multiple `m * u` of the spacing `u = 2 ^ (a - 23)` whose two
neighbouring midpoints, squared, enclose the argument. -/
theorem sqrt32_eq_of_bounds (q : ℚ) (a : ℤ) (ha : -126 ≤ a) (m : ℕ) (hm : 1 ≤ m)
    (h1 : (2 : ℚ) ^ (2 * a) ≤ q) (h2 : q < (2 : ℚ) ^ (2 * a + 2))
    (h3 : ((m : ℚ) - 1 / 2) * (2 : ℚ) ^ (a - 23) * (((m : ℚ) - 1 / 2) * (2 : ℚ) ^ (a - 23)) < q)
    (h4 : q < ((m : ℚ) + 1 / 2) * (2 : ℚ) ^ (a - 23) * (((m : ℚ) + 1 / 2) * (2 : ℚ) ^ (a - 23))) :
    sqrt32 q = (m : ℚ) * (2 : ℚ) ^ (a - 23) := by
  have hqpos : 0 < q := lt_of_lt_of_le (by positivity) h1
  have hb : binExp q / 2 = a := by
    have c1 := le_binExp_of_le q hqpos.ne' (2 * a) (by rw [abs_of_pos hqpos]; exact h1)
    have c2 := binExp_lt_of_lt q hqpos.ne' (2 * a + 2) (by rw [abs_of_pos hqpos]; exact h2)
    omega
  unfold sqrt32
  rw [if_neg (not_le.2 hqpos)]
  simp only [hb, max_eq_left ha]
  set u : ℚ := (2 : ℚ) ^ (a - 23) with hu
  have hupos : 0 < u := by rw [hu]; positivity
  have huu : 0 < u * u := mul_pos hupos hupos
  set t : ℚ := q / (u * u) with ht
  have htpos : 0 ≤ t := by rw [ht]; positivity
  have hqt : q = t * (u * u) := by rw [ht]; field_simp
  have h3' : ((m : ℚ) - 1 / 2) * ((m : ℚ) - 1 / 2) < t := by
    rw [ht, lt_div_iff₀ huu]; linarith
  have h4' : t < ((m : ℚ) + 1 / 2) * ((m : ℚ) + 1 / 2) := by
    rw [ht, div_lt_iff₀ huu]; linarith
  set N : ℕ := ⌊t⌋.toNat with hN
  have hfl : 0 ≤ ⌊t⌋ := Int.floor_nonneg.2 htpos
  have hNc : ((N : ℕ) : ℚ) = ((⌊t⌋ : ℤ) : ℚ) := by
    have := Int.toNat_of_nonneg hfl
    exact_mod_cast this
  have hN1 : (N : ℚ) ≤ t := by rw [hNc]; exact Int.floor_le t
  have hN2 : t < (N : ℚ) + 1 := by rw [hNc]; exact Int.lt_floor_add_one t
  obtain ⟨s1, s2⟩ := isqrt_spec N
  set k : ℕ := isqrt N with hk
  have s1' : (k : ℚ) * k ≤ (N : ℚ) := by exact_mod_cast s1
  have s2' : (N : ℚ) + 1 ≤ ((k : ℚ) + 1) * ((k : ℚ) + 1) := by
    have : N + 1 ≤ (k + 1) * (k + 1) := s2
    exact_mod_cast this
  have hk0 : (0 : ℚ) ≤ (k : ℚ) := Nat.cast_nonneg k
  have hm0 : (1 : ℚ) ≤ (m : ℚ) := by exact_mod_cast hm
  have hkm : k ≤ m := by
    by_contra hc
    have : m + 1 ≤ k := by omega
    have : (m : ℚ) + 1 ≤ (k : ℚ) := by exact_mod_cast this
    nlinarith
  have hmk : m ≤ k + 1 := by
    by_contra hc
    have : k + 2 ≤ m := by omega
    have : (k : ℚ) + 2 ≤ (m : ℚ) := by exact_mod_cast this
    nlinarith
  rcases Nat.eq_or_lt_of_le hkm with hcase | hcase
  · -- the floor is the root
    have hlt : q < ((k : ℚ) + 1 / 2) * u * (((k : ℚ) + 1 / 2) * u) := by
      rw [hcase]; exact h4
    rw [if_pos hlt, hcase]
  · have hk1 : k + 1 = m := by omega
    have hk1' : (k : ℚ) + 1 = (m : ℚ) := by exact_mod_cast hk1
    have hmid : ((k : ℚ) + 1 / 2) * u * (((k : ℚ) + 1 / 2) * u) < q := by
      have : (k : ℚ) + 1 / 2 = (m : ℚ) - 1 / 2 := by linarith
      rw [this]; exact h3
    rw [if_neg (not_lt.2 hmid.le), if_pos hmid, hk1']

theorem f32_two_zpow (a : ℤ) (ha : 0 ≤ a) : f32 ((2 : ℚ) ^ a) = (2 : ℚ) ^ a := by
  have hne : (2 : ℚ) ^ a ≠ 0 := by positivity
  have hb : binExp ((2 : ℚ) ^ a) = a := by
    apply binExp_unique _ hne
    · rw [abs_of_pos (by positivity)]
    · rw [abs_of_pos (by positivity)]
      exact zpow_lt_zpow_right₀ (by norm_num) (by omega)
  apply roundTo_of_intCast_div 24 (-126) _ hne (2 ^ 23)
  rw [hb, max_eq_left (by omega)]
  push_cast
  rw [div_eq_iff (by positivity), show (8388608 : ℚ) = (2 : ℚ) ^ (23 : ℤ) by norm_num,
    ← zpow_add₀ (by norm_num : (2 : ℚ) ≠ 0)]
  congr 1
  ring

/-- A value within `2 ^ 23 * u * u` of the square of `m * u`, with `u = 2 ^ (a - 23)` and
`2 ^ 23 < m < 2 ^ 24`, has the root `m * u`. -/
theorem sqrt32_near_sq (a : ℤ) (ha : 0 ≤ a) (m : ℕ) (h1 : 2 ^ 23 < m) (h2 : m < 2 ^ 24) (q : ℚ)
    (hq : |q - (m : ℚ) * (2 : ℚ) ^ (a - 23) * ((m : ℚ) * (2 : ℚ) ^ (a - 23))| ≤
      8388608 * ((2 : ℚ) ^ (a - 23) * (2 : ℚ) ^ (a - 23))) :
    sqrt32 q = (m : ℚ) * (2 : ℚ) ^ (a - 23) := by
  have two_ne : (2 : ℚ) ≠ 0 := by norm_num
  have hupos : (0 : ℚ) < (2 : ℚ) ^ (a - 23) := by positivity
  have hA : (2 : ℚ) ^ a = 8388608 * (2 : ℚ) ^ (a - 23) := by
    rw [show (8388608 : ℚ) = (2 : ℚ) ^ (23 : ℤ) by norm_num, ← zpow_add₀ two_ne]
    congr 1; ring
  have hAA : (2 : ℚ) ^ (2 * a) =
      (8388608 * (2 : ℚ) ^ (a - 23)) * (8388608 * (2 : ℚ) ^ (a - 23)) := by
    rw [← hA, ← zpow_add₀ two_ne]; congr 1; ring
  have hAA4 : (2 : ℚ) ^ (2 * a + 2) =
      4 * ((8388608 * (2 : ℚ) ^ (a - 23)) * (8388608 * (2 : ℚ) ^ (a - 23))) := by
    rw [zpow_add₀ two_ne, hAA]; norm_num; ring
  have hmq1 : (8388609 : ℚ) ≤ (m : ℚ) := by
    have : 8388609 ≤ m := by norm_num at h1; exact h1
    exact_mod_cast this
  have hmq2 : (m : ℚ) ≤ 16777215 := by
    have : m ≤ 16777215 := by norm_num at h2; omega
    exact_mod_cast this
  apply sqrt32_eq_of_bounds q a (by omega) m (by omega)
  · rw [hAA]
    generalize (2 : ℚ) ^ (a - 23) = u at hq hupos
    generalize (m : ℚ) = M at hq hmq1 hmq2
    rw [abs_le] at hq
    have p1 : (8388608 * 8388608 : ℚ) ≤ M * M - 8388608 := by nlinarith
    have q1 := mul_le_mul_of_nonneg_right p1 (mul_pos hupos hupos).le
    linarith [hq.1]
  · rw [hAA4]
    generalize (2 : ℚ) ^ (a - 23) = u at hq hupos
    generalize (m : ℚ) = M at hq hmq1 hmq2
    rw [abs_le] at hq
    have p2 : M * M + 8388608 < 4 * (8388608 * 8388608) := by nlinarith
    have q2 := mul_lt_mul_of_pos_right p2 (mul_pos hupos hupos)
    linarith [hq.2]
  · generalize (2 : ℚ) ^ (a - 23) = u at hq hupos
    generalize (m : ℚ) = M at hq hmq1 hmq2
    rw [abs_le] at hq
    have p3 : (M - 1 / 2) * (M - 1 / 2) < M * M - 8388608 := by nlinarith
    have q3 := mul_lt_mul_of_pos_right p3 (mul_pos hupos hupos)
    linarith [hq.1]
  · generalize (2 : ℚ) ^ (a - 23) = u at hq hupos
    generalize (m : ℚ) = M at hq hmq1 hmq2
    rw [abs_le] at hq
    have p4 : M * M + 8388608 < (M + 1 / 2) * (M + 1 / 2) := by nlinarith
    have q4 := mul_lt_mul_of_pos_right p4 (mul_pos hupos hupos)
    linarith [hq.2]

/-- The rounding error of the square of a `float` `r = m * u`, `u = 2 ^ (a - 23)`,
`2 ^ 23 ≤ m < 2 ^ 24`, is at most `2 ^ 23 * u * u`. -/
theorem f32_sq_error (a : ℤ) (ha : 0 ≤ a) (m : ℕ) (h1 : 2 ^ 23 ≤ m) (h2 : m < 2 ^ 24) :
    |f32 ((m : ℚ) * (2 : ℚ) ^ (a - 23) * ((m : ℚ) * (2 : ℚ) ^ (a - 23))) -
        (m : ℚ) * (2 : ℚ) ^ (a - 23) * ((m : ℚ) * (2 : ℚ) ^ (a - 23))| ≤
      8388608 * ((2 : ℚ) ^ (a - 23) * (2 : ℚ) ^ (a - 23)) := by
  have two_ne : (2 : ℚ) ≠ 0 := by norm_num
  have hupos : (0 : ℚ) < (2 : ℚ) ^ (a - 23) := by positivity
  have hmq1 : (8388608 : ℚ) ≤ (m : ℚ) := by
    have : 8388608 ≤ m := by norm_num at h1; exact h1
    exact_mod_cast this
  have hmq2 : (m : ℚ) < 16777216 := by
    have : m < 16777216 := by norm_num at h2; exact h2
    exact_mod_cast this
  have hmpos : (0 : ℚ) < (m : ℚ) := by linarith
  have hrpos : (0 : ℚ) < (m : ℚ) * (2 : ℚ) ^ (a - 23) := mul_pos hmpos hupos
  have hrr : (0 : ℚ) < (m : ℚ) * (2 : ℚ) ^ (a - 23) * ((m : ℚ) * (2 : ℚ) ^ (a - 23)) :=
    mul_pos hrpos hrpos
  have hup : (m : ℚ) * (2 : ℚ) ^ (a - 23) * ((m : ℚ) * (2 : ℚ) ^ (a - 23)) <
      (2 : ℚ) ^ (2 * a + 2) := by
    have e : (2 : ℚ) ^ (2 * a + 2) =
        (16777216 * (2 : ℚ) ^ (a - 23)) * (16777216 * (2 : ℚ) ^ (a - 23)) := by
      rw [show (16777216 : ℚ) = (2 : ℚ) ^ (24 : ℤ) by norm_num, ← zpow_add₀ two_ne,
        ← zpow_add₀ two_ne]
      congr 1; ring
    rw [e]
    have : (m : ℚ) * (2 : ℚ) ^ (a - 23) < 16777216 * (2 : ℚ) ^ (a - 23) :=
      mul_lt_mul_of_pos_right hmq2 hupos
    exact mul_lt_mul'' this this hrpos.le hrpos.le
  have hlow : (2 : ℚ) ^ (2 * a) ≤
      (m : ℚ) * (2 : ℚ) ^ (a - 23) * ((m : ℚ) * (2 : ℚ) ^ (a - 23)) := by
    have e : (2 : ℚ) ^ (2 * a) =
        (8388608 * (2 : ℚ) ^ (a - 23)) * (8388608 * (2 : ℚ) ^ (a - 23)) := by
      rw [show (8388608 : ℚ) = (2 : ℚ) ^ (23 : ℤ) by norm_num, ← zpow_add₀ two_ne,
        ← zpow_add₀ two_ne]
      congr 1; ring
    rw [e]
    have : 8388608 * (2 : ℚ) ^ (a - 23) ≤ (m : ℚ) * (2 : ℚ) ^ (a - 23) :=
      mul_le_mul_of_nonneg_right hmq1 hupos.le
    exact mul_le_mul this this (by positivity) hrpos.le
  have hb1 := le_binExp_of_le _ hrr.ne' (2 * a) (by rw [abs_of_pos hrr]; exact hlow)
  have hb2 := binExp_lt_of_lt _ hrr.ne' (2 * a + 2) (by rw [abs_of_pos hrr]; exact hup)
  have herr := roundTo_sub_le 24 (-126)
    ((m : ℚ) * (2 : ℚ) ^ (a - 23) * ((m : ℚ) * (2 : ℚ) ^ (a - 23)))
  refine le_trans herr ?_
  generalize binExp ((m : ℚ) * (2 : ℚ) ^ (a - 23) * ((m : ℚ) * (2 : ℚ) ^ (a - 23))) = b
    at hb1 hb2
  rw [max_eq_left (by omega : (-126 : ℤ) ≤ b)]
  have c1 : (2 : ℚ) ^ (b - (((24 : ℕ) : ℤ) - 1)) ≤ (2 : ℚ) ^ (2 * a + 1 - 23) := by
    apply zpow_le_zpow_right₀ (by norm_num)
    norm_num; omega
  have c2 : (2 : ℚ) ^ (2 * a + 1 - 23) =
      2 * (8388608 * ((2 : ℚ) ^ (a - 23) * (2 : ℚ) ^ (a - 23))) := by
    rw [show (8388608 : ℚ) = (2 : ℚ) ^ (23 : ℤ) by norm_num,
      show (2 : ℚ) * ((2 : ℚ) ^ (23 : ℤ) * ((2 : ℚ) ^ (a - 23) * (2 : ℚ) ^ (a - 23))) =
        (2 : ℚ) ^ (1 : ℤ) * ((2 : ℚ) ^ (23 : ℤ) * ((2 : ℚ) ^ (a - 23) * (2 : ℚ) ^ (a - 23)))
        by rw [zpow_one],
      ← zpow_add₀ two_ne, ← zpow_add₀ two_ne, ← zpow_add₀ two_ne]
    congr 1; ring
  rw [c2] at c1
  generalize (2 : ℚ) ^ (b - (((24 : ℕ) : ℤ) - 1)) = X at c1
  generalize (2 : ℚ) ^ (a - 23) = u at c1
  linarith

/-- For a `float` `r ≥ 1` the `float` square root of the `float` square of `r` is `r` again. -/
theorem sqrt32_f32_sq (r : ℚ) (hr : 1 ≤ r) (hf : f32 r = r) : sqrt32 (f32 (r * r)) = r := by
  have hpos : 0 < r := by linarith
  obtain ⟨ha, m, hm, hm1, hm2⟩ := float_form r hr hf
  have two_ne : (2 : ℚ) ≠ 0 := by norm_num
  rcases Nat.eq_or_lt_of_le hm1 with h23 | h23
  · -- a power of two: its square is a `float`
    have hr2 : r = (2 : ℚ) ^ binExp r := by
      conv_lhs => rw [hm, ← h23]
      rw [show (((2 ^ 23 : ℕ) : ℕ) : ℚ) = (2 : ℚ) ^ (23 : ℤ) by norm_num, ← zpow_add₀ two_ne]
      congr 1; ring
    have hsq : r * r = (2 : ℚ) ^ (2 * binExp r) := by
      conv_lhs => rw [hr2]
      rw [← zpow_add₀ two_ne]; congr 1; ring
    rw [hsq, f32_two_zpow _ (by omega), ← hsq]
    exact sqrt32_sq r hpos.le hf
  · have herr := f32_sq_error (binExp r) ha m hm1 hm2
    have key := sqrt32_near_sq (binExp r) ha m h23 hm2 _ herr
    rw [← hm] at key
    exact key

theorem sqrt32_f32_natCast_sq (k : ℕ) (hf : f32 (k : ℚ) = k) : sqrt32 (f32 ((k : ℚ) * k)) = k := by
  rcases Nat.eq_zero_or_pos k with rfl | hk
  · simp [f32_zero, sqrt32_zero]
  · exact sqrt32_f32_sq k (by exact_mod_cast hk) hf

end IEEE

/-! ## `lineLineIntersection` in binary32/binary64 arithmetic -/

theorem f32_sub_rev (a b : ℚ) : IEEE.f32 (b - a) = -IEEE.f32 (a - b) := by
  rw [← IEEE.f32_neg, neg_sub]

theorem f32_neg_mul (a b : ℚ) : IEEE.f32 (-a * b) = -IEEE.f32 (a * b) := by
  rw [neg_mul, IEEE.f32_neg]

theorem f32_mul_neg (a b : ℚ) : IEEE.f32 (a * -b) = -IEEE.f32 (a * b) := by
  rw [mul_neg, IEEE.f32_neg]

theorem f32_neg_sub_neg (a b : ℚ) : IEEE.f32 (-a - -b) = -IEEE.f32 (a - b) := by
  rw [← IEEE.f32_neg]; congr 1; ring

/-- The function unfolded into the computed denominator, candidate and ratios. -/
theorem float_lli_eq (l1 l2 : Line) :
    IEEE.lineLineIntersection l1 l2 =
      if cRound (IEEE.denominator l1 l2) = 0 then none
      else if (inUnit (IEEE.ratios l1 l2).1 || inUnit (IEEE.ratios l1 l2).2.1) &&
          (inUnit (IEEE.ratios l1 l2).2.2.1 || inUnit (IEEE.ratios l1 l2).2.2.2) then
        some ⟨IEEE.f32 (IEEE.intersect l1 l2).1, IEEE.f32 (IEEE.intersect l1 l2).2⟩
      else none := rfl

theorem float_denominator_swap_left (l1 l2 : Line) :
    IEEE.denominator ⟨l1.p1, l1.p0⟩ l2 = -IEEE.denominator l1 l2 := by
  simp only [IEEE.denominator]
  rw [f32_sub_rev l1.p0.x l1.p1.x, f32_sub_rev l1.p0.y l1.p1.y]
  simp only [f32_neg_mul, f32_neg_sub_neg]

theorem float_denominator_swap_right (l1 l2 : Line) :
    IEEE.denominator l1 ⟨l2.p1, l2.p0⟩ = -IEEE.denominator l1 l2 := by
  simp only [IEEE.denominator]
  rw [f32_sub_rev l2.p0.x l2.p1.x, f32_sub_rev l2.p0.y l2.p1.y]
  simp only [f32_mul_neg, f32_neg_sub_neg]

theorem float_intersect_swap_left (l1 l2 : Line) :
    IEEE.intersect ⟨l1.p1, l1.p0⟩ l2 = IEEE.intersect l1 l2 := by
  have ea : IEEE.f32 (IEEE.f32 (l1.p1.x * l1.p0.y) - IEEE.f32 (l1.p1.y * l1.p0.x)) =
      -IEEE.f32 (IEEE.f32 (l1.p0.x * l1.p1.y) - IEEE.f32 (l1.p0.y * l1.p1.x)) := by
    rw [mul_comm l1.p1.x, mul_comm l1.p1.y, ← IEEE.f32_neg, neg_sub]
  simp only [IEEE.intersect, float_denominator_swap_left, ea]
  rw [f32_sub_rev l1.p0.x l1.p1.x, f32_sub_rev l1.p0.y l1.p1.y]
  simp only [f32_neg_mul, f32_mul_neg, f32_neg_sub_neg, neg_div_neg_eq]

theorem float_intersect_swap_right (l1 l2 : Line) :
    IEEE.intersect l1 ⟨l2.p1, l2.p0⟩ = IEEE.intersect l1 l2 := by
  have eb : IEEE.f32 (IEEE.f32 (l2.p1.x * l2.p0.y) - IEEE.f32 (l2.p1.y * l2.p0.x)) =
      -IEEE.f32 (IEEE.f32 (l2.p0.x * l2.p1.y) - IEEE.f32 (l2.p0.y * l2.p1.x)) := by
    rw [mul_comm l2.p1.x, mul_comm l2.p1.y, ← IEEE.f32_neg, neg_sub]
  simp only [IEEE.intersect, float_denominator_swap_right, eb]
  rw [f32_sub_rev l2.p0.x l2.p1.x, f32_sub_rev l2.p0.y l2.p1.y]
  simp only [f32_neg_mul, f32_mul_neg, f32_neg_sub_neg, neg_div_neg_eq]

theorem cRound_neg_eq_zero_iff (q : ℚ) : cRound (-q) = 0 ↔ cRound q = 0 := by
  rw [cRound_eq_zero_iff, cRound_eq_zero_iff, abs_neg]

/-- A reported hit carries the computed candidate, rounded to `float`. -/
theorem float_lli_point (l1 l2 : Line) (p : Vector2f) (h : IEEE.lineLineIntersection l1 l2 = some p) :
    p = ⟨IEEE.f32 (IEEE.intersect l1 l2).1, IEEE.f32 (IEEE.intersect l1 l2).2⟩ := by
  rw [float_lli_eq] at h
  split_ifs at h
  exact (Option.some.inj h).symm

/-- When no operation rounds, the binary32/binary64 function computes what the exact one does. -/
theorem float_lli_eq_exact (l1 l2 : Line) (h : IEEE.exactOps l1 l2) :
    IEEE.lineLineIntersection l1 l2 = lineLineIntersection l1 l2 := by
  obtain ⟨hf, hd⟩ := h
  simp only [IEEE.floatOps, IEEE.doubleOps, List.mem_cons, List.mem_singleton, forall_eq_or_imp,
    forall_eq, List.not_mem_nil, false_imp_iff, implies_true, and_true] at hf hd
  obtain ⟨f1, f2, f3, f4, f5, f6, f7, f8, f9, f10, f11, f12, f13, f14, f15, f16, f17, f18, f19,
    f20, f21⟩ := hf
  obtain ⟨d1, d2, d3, d4, d5, d6, d7, d8, d9, d10⟩ := hd
  simp only [IEEE.lineLineIntersection, IEEE.denominator, IEEE.intersect, lineLineIntersection,
    IEEE.fdiv, fdiv, f1, f2, f3, f4, f5, f6, f7, f8, f9, f10, f11, f12, f13, f14, f15, f16, f17,
    f18, f19, f20, f21, d1, d2, d3, d4, d5, d6, d7, d8, d9, d10]

/-! ## Claims on `lineLineIntersection` in binary32/binary64 arithmetic -/

/-- C6, evaluated. The two segments `(1240.591796875, 2067.57373046875)-(-1220.082763671875,
-2033.550537109375)` and `(699.432373046875, 1165.641357421875)-(-1047.846435546875,
-1746.489990234375)` have `float` coordinates and lie on one line through the origin: their
direction vectors are proportional (the exact cross product is `0`) and both end points of the
second are collinear with the first. The `float` products round so that the computed denominator is
`1/2`, which `std::round` takes to `1`: the zero test does not fire and the function reports a hit
and writes the point `(168.125, 280.125)`. -/
theorem lineLineIntersection_collinear_reported :
    IEEE.floatLine ⟨⟨635183/512, 4234391/2048⟩, ⟨-4997459/4096, -8329423/4096⟩⟩ ∧
    IEEE.floatLine ⟨⟨2864875/4096, 4774467/4096⟩, ⟨-4291979/4096, -7153623/4096⟩⟩ ∧
    denom ⟨⟨635183/512, 4234391/2048⟩, ⟨-4997459/4096, -8329423/4096⟩⟩
      ⟨⟨2864875/4096, 4774467/4096⟩, ⟨-4291979/4096, -7153623/4096⟩⟩ = 0 ∧
    IEEE.denominator ⟨⟨635183/512, 4234391/2048⟩, ⟨-4997459/4096, -8329423/4096⟩⟩
      ⟨⟨2864875/4096, 4774467/4096⟩, ⟨-4291979/4096, -7153623/4096⟩⟩ = 1 / 2 ∧
    IEEE.lineLineIntersection ⟨⟨635183/512, 4234391/2048⟩, ⟨-4997459/4096, -8329423/4096⟩⟩
      ⟨⟨2864875/4096, 4774467/4096⟩, ⟨-4291979/4096, -7153623/4096⟩⟩ =
        some ⟨1345/8, 2241/8⟩ := by
  decide!

/-- C7, as the code has it. When the rounded computed denominator is not zero,
`lineLineIntersection` returns `true` exactly when (`rx1` or `ry1` is in `[0, 1]`) and (`rx2` or
`ry2` is in `[0, 1]`), for the ratios as computed in `double`; a ratio whose `float` delta is zero
is not in `[0, 1]`; and on a hit the point written is the computed candidate cast to `float`. When
no operation rounds on the two segments, that point is the exact candidate and it is collinear with
`p1, p2` and with `p3, p4`. -/
theorem lineLineIntersection_float_hit_iff (l1 l2 : Line)
    (hd : cRound (IEEE.denominator l1 l2) ≠ 0) :
    ((IEEE.lineLineIntersection l1 l2).isSome = true ↔
      (inUnit (IEEE.ratios l1 l2).1 = true ∨ inUnit (IEEE.ratios l1 l2).2.1 = true) ∧
      (inUnit (IEEE.ratios l1 l2).2.2.1 = true ∨ inUnit (IEEE.ratios l1 l2).2.2.2 = true)) ∧
    (IEEE.f32 (l1.p0.x - l1.p1.x) = 0 → inUnit (IEEE.ratios l1 l2).1 = false) ∧
    (IEEE.f32 (l1.p0.y - l1.p1.y) = 0 → inUnit (IEEE.ratios l1 l2).2.1 = false) ∧
    (IEEE.f32 (l2.p0.x - l2.p1.x) = 0 → inUnit (IEEE.ratios l1 l2).2.2.1 = false) ∧
    (IEEE.f32 (l2.p0.y - l2.p1.y) = 0 → inUnit (IEEE.ratios l1 l2).2.2.2 = false) ∧
    (∀ p, IEEE.lineLineIntersection l1 l2 = some p →
      p = ⟨IEEE.f32 (IEEE.intersect l1 l2).1, IEEE.f32 (IEEE.intersect l1 l2).2⟩) ∧
    (IEEE.exactOps l1 l2 → ∀ p, IEEE.lineLineIntersection l1 l2 = some p →
      p = candidate l1 l2 ∧
      (p.x - l1.p0.x) * (l1.p1.y - l1.p0.y) = (p.y - l1.p0.y) * (l1.p1.x - l1.p0.x) ∧
      (p.x - l2.p0.x) * (l2.p1.y - l2.p0.y) = (p.y - l2.p0.y) * (l2.p1.x - l2.p0.x)) := by
  refine ⟨?_, ?_, ?_, ?_, ?_, float_lli_point l1 l2, ?_⟩
  · rw [float_lli_eq, if_neg hd]
    generalize inUnit (IEEE.ratios l1 l2).1 = b1
    generalize inUnit (IEEE.ratios l1 l2).2.1 = b2
    generalize inUnit (IEEE.ratios l1 l2).2.2.1 = b3
    generalize inUnit (IEEE.ratios l1 l2).2.2.2 = b4
    cases b1 <;> cases b2 <;> cases b3 <;> cases b4 <;> simp
  · intro h; simp [IEEE.ratios, IEEE.fdiv, h, inUnit]
  · intro h; simp [IEEE.ratios, IEEE.fdiv, h, inUnit]
  · intro h; simp [IEEE.ratios, IEEE.fdiv, h, inUnit]
  · intro h; simp [IEEE.ratios, IEEE.fdiv, h, inUnit]
  · intro hex p hp
    rw [float_lli_eq_exact l1 l2 hex] at hp
    obtain ⟨hden, -, -, rfl⟩ := (lineLineIntersection_eq_some_iff l1 l2 p).1 hp
    have hne := denom_ne_zero_of_half_le hden
    exact ⟨rfl, candidate_on_first l1 l2 hne, candidate_on_second l1 l2 hne⟩

/-- Witness for the amended C7: on the segments `(0,0)-(4,0)` and `(2,-2)-(2,2)` the computed
denominator is `16`, no operation rounds, the hit `(2, 0)` is reported, and it is collinear with
both segments. -/
theorem lineLineIntersection_float_hit_iff_witness :
    cRound (IEEE.denominator ⟨⟨0, 0⟩, ⟨4, 0⟩⟩ ⟨⟨2, -2⟩, ⟨2, 2⟩⟩) ≠ 0 ∧
    IEEE.exactOps ⟨⟨0, 0⟩, ⟨4, 0⟩⟩ ⟨⟨2, -2⟩, ⟨2, 2⟩⟩ ∧
    IEEE.lineLineIntersection ⟨⟨0, 0⟩, ⟨4, 0⟩⟩ ⟨⟨2, -2⟩, ⟨2, 2⟩⟩ = some ⟨2, 0⟩ ∧
    (⟨2, 0⟩ : Vector2f) = candidate ⟨⟨0, 0⟩, ⟨4, 0⟩⟩ ⟨⟨2, -2⟩, ⟨2, 2⟩⟩ ∧
    (((⟨2, 0⟩ : Vector2f).x - 0) * ((0 : ℚ) - 0) = ((⟨2, 0⟩ : Vector2f).y - 0) * ((4 : ℚ) - 0)) ∧
    (((⟨2, 0⟩ : Vector2f).x - 2) * ((2 : ℚ) - (-2)) = ((⟨2, 0⟩ : Vector2f).y - (-2)) * ((2 : ℚ) - 2)) :=
  ⟨by decide!, by decide!, by decide!,
    (lineLineIntersection_float_hit_iff ⟨⟨0, 0⟩, ⟨4, 0⟩⟩ ⟨⟨2, -2⟩, ⟨2, 2⟩⟩ (by decide!)).2.2.2.2.2.2
      (by decide!) ⟨2, 0⟩ (by decide!)⟩

/-- C7, counterexample. The segments `(712.5, 585.5)-(713.5, 585.53125)` and `(711, 581)-(713, 589)`
have `float` coordinates and a computed denominator of `8`. The `float` value of `a` is `-563.25`
where the exact one is `-563.234375`, and the function reports a hit whose written point
`(712.1259765625, 585.50396728515625)` is not collinear with the end points of the first
segment. -/
theorem lineLineIntersection_hit_not_collinear :
    IEEE.floatLine ⟨⟨1425/2, 1171/2⟩, ⟨1427/2, 18737/32⟩⟩ ∧
    IEEE.floatLine ⟨⟨711, 581⟩, ⟨713, 589⟩⟩ ∧
    cRound (IEEE.denominator ⟨⟨1425/2, 1171/2⟩, ⟨1427/2, 18737/32⟩⟩ ⟨⟨711, 581⟩, ⟨713, 589⟩⟩) = 8 ∧
    IEEE.lineLineIntersection ⟨⟨1425/2, 1171/2⟩, ⟨1427/2, 18737/32⟩⟩ ⟨⟨711, 581⟩, ⟨713, 589⟩⟩ =
      some ⟨729217/1024, 9592897/16384⟩ ∧
    ((729217/1024 : ℚ) - 1425/2) * (18737/32 - 1171/2) ≠
      ((9592897/16384 : ℚ) - 1171/2) * (1427/2 - 1425/2) := by
  decide!

/-- C8, as the code has it. Let `m1` be the first segment or the first segment with its end points
swapped, and `m2` likewise for the second. The computed denominator only changes sign, so the zero
test gives the same verdict; the computed candidate is the same; hence two reported hits carry the
same point; the two ratios of a segment that is not swapped are the same; and when no operation
rounds in either order, the whole result is the same. -/
theorem lineLineIntersection_float_endpoint_swap (l1 l2 m1 m2 : Line)
    (h1 : m1 = l1 ∨ m1 = ⟨l1.p1, l1.p0⟩) (h2 : m2 = l2 ∨ m2 = ⟨l2.p1, l2.p0⟩) :
    (cRound (IEEE.denominator m1 m2) = 0 ↔ cRound (IEEE.denominator l1 l2) = 0) ∧
    IEEE.intersect m1 m2 = IEEE.intersect l1 l2 ∧
    (∀ p q, IEEE.lineLineIntersection m1 m2 = some p → IEEE.lineLineIntersection l1 l2 = some q →
      p = q) ∧
    (m1 = l1 → (IEEE.ratios m1 m2).1 = (IEEE.ratios l1 l2).1 ∧
      (IEEE.ratios m1 m2).2.1 = (IEEE.ratios l1 l2).2.1) ∧
    (m2 = l2 → (IEEE.ratios m1 m2).2.2 = (IEEE.ratios l1 l2).2.2) ∧
    (IEEE.exactOps l1 l2 → IEEE.exactOps m1 m2 →
      IEEE.lineLineIntersection m1 m2 = IEEE.lineLineIntersection l1 l2) := by
  have hden : cRound (IEEE.denominator m1 m2) = 0 ↔ cRound (IEEE.denominator l1 l2) = 0 := by
    rcases h1 with rfl | rfl <;> rcases h2 with rfl | rfl
    · rfl
    · rw [float_denominator_swap_right, cRound_neg_eq_zero_iff]
    · rw [float_denominator_swap_left, cRound_neg_eq_zero_iff]
    · rw [float_denominator_swap_left, cRound_neg_eq_zero_iff]
      exact (by rw [float_denominator_swap_right, cRound_neg_eq_zero_iff] :
        cRound (IEEE.denominator l1 ⟨l2.p1, l2.p0⟩) = 0 ↔ cRound (IEEE.denominator l1 l2) = 0)
  have hint : IEEE.intersect m1 m2 = IEEE.intersect l1 l2 := by
    rcases h1 with rfl | rfl <;> rcases h2 with rfl | rfl
    · rfl
    · rw [float_intersect_swap_right]
    · rw [float_intersect_swap_left]
    · rw [float_intersect_swap_left]
      exact float_intersect_swap_right l1 l2
  have hex : lineLineIntersection m1 m2 = lineLineIntersection l1 l2 := by
    rcases h1 with rfl | rfl <;> rcases h2 with rfl | rfl
    · rfl
    · rw [lli_swap_right]
    · rw [lli_swap_left]
    · rw [lli_swap_left]
      exact lli_swap_right l1 l2
  refine ⟨hden, hint, ?_, ?_, ?_, ?_⟩
  · intro p q hp hq
    rw [float_lli_point m1 m2 p hp, float_lli_point l1 l2 q hq, hint]
  · intro h
    subst h
    simp only [IEEE.ratios, hint, and_self]
  · intro h
    subst h
    simp only [IEEE.ratios, hint]
  · intro e1 e2
    rw [float_lli_eq_exact m1 m2 e2, float_lli_eq_exact l1 l2 e1, hex]

/-- Witness for the amended C8: `(0,0)-(4,0)` against `(2,-2)-(2,2)` with the end points of the
first segment swapped; no operation rounds in either order and both orders report `(2, 0)`. -/
theorem lineLineIntersection_float_endpoint_swap_witness :
    (cRound (IEEE.denominator ⟨⟨4, 0⟩, ⟨0, 0⟩⟩ ⟨⟨2, -2⟩, ⟨2, 2⟩⟩) = 0 ↔
      cRound (IEEE.denominator ⟨⟨0, 0⟩, ⟨4, 0⟩⟩ ⟨⟨2, -2⟩, ⟨2, 2⟩⟩) = 0) ∧
    IEEE.exactOps ⟨⟨0, 0⟩, ⟨4, 0⟩⟩ ⟨⟨2, -2⟩, ⟨2, 2⟩⟩ ∧
    IEEE.exactOps ⟨⟨4, 0⟩, ⟨0, 0⟩⟩ ⟨⟨2, -2⟩, ⟨2, 2⟩⟩ ∧
    IEEE.lineLineIntersection ⟨⟨4, 0⟩, ⟨0, 0⟩⟩ ⟨⟨2, -2⟩, ⟨2, 2⟩⟩ =
      IEEE.lineLineIntersection ⟨⟨0, 0⟩, ⟨4, 0⟩⟩ ⟨⟨2, -2⟩, ⟨2, 2⟩⟩ ∧
    IEEE.lineLineIntersection ⟨⟨0, 0⟩, ⟨4, 0⟩⟩ ⟨⟨2, -2⟩, ⟨2, 2⟩⟩ = some ⟨2, 0⟩ :=
  ⟨(lineLineIntersection_float_endpoint_swap ⟨⟨0, 0⟩, ⟨4, 0⟩⟩ ⟨⟨2, -2⟩, ⟨2, 2⟩⟩ ⟨⟨4, 0⟩, ⟨0, 0⟩⟩
      ⟨⟨2, -2⟩, ⟨2, 2⟩⟩ (Or.inr rfl) (Or.inl rfl)).1,
    by decide!, by decide!,
    (lineLineIntersection_float_endpoint_swap ⟨⟨0, 0⟩, ⟨4, 0⟩⟩ ⟨⟨2, -2⟩, ⟨2, 2⟩⟩ ⟨⟨4, 0⟩, ⟨0, 0⟩⟩
      ⟨⟨2, -2⟩, ⟨2, 2⟩⟩ (Or.inr rfl) (Or.inl rfl)).2.2.2.2.2 (by decide!) (by decide!),
    by decide!⟩

/-- C8, counterexample. The horizontal segment from `(2.9f, 0)` to `(120.3f, 0)` against the
vertical segment `(2.9f, -1)-(2.9f, 1)`, all coordinates `float` values: a hit at `(2.9f, 0)` is
reported, and with the end points of the first segment swapped no hit is reported. -/
theorem lineLineIntersection_swap_changes_flag :
    IEEE.floatLine ⟨⟨6081741/2097152, 0⟩, ⟨7883981/65536, 0⟩⟩ ∧
    IEEE.floatLine ⟨⟨6081741/2097152, -1⟩, ⟨6081741/2097152, 1⟩⟩ ∧
    IEEE.lineLineIntersection ⟨⟨6081741/2097152, 0⟩, ⟨7883981/65536, 0⟩⟩
      ⟨⟨6081741/2097152, -1⟩, ⟨6081741/2097152, 1⟩⟩ = some ⟨6081741/2097152, 0⟩ ∧
    IEEE.lineLineIntersection ⟨⟨7883981/65536, 0⟩, ⟨6081741/2097152, 0⟩⟩
      ⟨⟨6081741/2097152, -1⟩, ⟨6081741/2097152, 1⟩⟩ = none := by
  decide!

/-- C16, as the code has it. The zero test is made on the computed denominator
`d = float(float(dx1 * dy2) - float(dy1 * dx2))` of the `float` deltas: if `|d| < 1/2` the function
returns `false`, whatever the segments do; the test passes exactly when `|d| ≥ 1/2` (`std::round`
is half away from zero), and then the result is decided by the ratios; and `d` is the exact
`dx1 * dy2 - dy1 * dx2` when the four deltas, the two products and their difference are `float`
values. -/
theorem lineLineIntersection_rounded_denominator (l1 l2 : Line) :
    (|IEEE.denominator l1 l2| < 1 / 2 → IEEE.lineLineIntersection l1 l2 = none) ∧
    (cRound (IEEE.denominator l1 l2) ≠ 0 ↔ 1 / 2 ≤ |IEEE.denominator l1 l2|) ∧
    (1 / 2 ≤ |IEEE.denominator l1 l2| →
      IEEE.lineLineIntersection l1 l2 =
        if (inUnit (IEEE.ratios l1 l2).1 || inUnit (IEEE.ratios l1 l2).2.1) &&
            (inUnit (IEEE.ratios l1 l2).2.2.1 || inUnit (IEEE.ratios l1 l2).2.2.2) then
          some ⟨IEEE.f32 (IEEE.intersect l1 l2).1, IEEE.f32 (IEEE.intersect l1 l2).2⟩
        else none) ∧
    ((∀ v ∈ (IEEE.floatOps l1 l2).take 7, IEEE.f32 v = v) →
      IEEE.denominator l1 l2 = denom l1 l2) := by
  have hiff : cRound (IEEE.denominator l1 l2) ≠ 0 ↔ 1 / 2 ≤ |IEEE.denominator l1 l2| := by
    rw [Ne, cRound_eq_zero_iff, not_lt]
  refine ⟨?_, hiff, ?_, ?_⟩
  · intro h
    rw [float_lli_eq, if_pos ((cRound_eq_zero_iff _).2 h)]
  · intro h
    rw [float_lli_eq, if_neg (hiff.2 h)]
  · intro h
    simp only [IEEE.floatOps, List.take, List.mem_cons, List.mem_singleton, forall_eq_or_imp,
      forall_eq, List.not_mem_nil, false_imp_iff, implies_true, and_true] at h
    obtain ⟨f1, f2, f3, f4, f5, f6, f7⟩ := h
    simp only [IEEE.denominator, denom, f1, f2, f3, f4, f5, f6, f7]

/-- Witness for the amended C16: the crossing pair `(0,0)-(0.5,0)` and `(0.25,-0.25)-(0.25,0.25)`
has the computed denominator `1/4`, equal to the exact one, and no hit is reported. -/
theorem lineLineIntersection_rounded_denominator_witness :
    |IEEE.denominator ⟨⟨0, 0⟩, ⟨1/2, 0⟩⟩ ⟨⟨1/4, -1/4⟩, ⟨1/4, 1/4⟩⟩| < 1 / 2 ∧
    IEEE.lineLineIntersection ⟨⟨0, 0⟩, ⟨1/2, 0⟩⟩ ⟨⟨1/4, -1/4⟩, ⟨1/4, 1/4⟩⟩ = none ∧
    IEEE.denominator ⟨⟨0, 0⟩, ⟨1/2, 0⟩⟩ ⟨⟨1/4, -1/4⟩, ⟨1/4, 1/4⟩⟩ =
      denom ⟨⟨0, 0⟩, ⟨1/2, 0⟩⟩ ⟨⟨1/4, -1/4⟩, ⟨1/4, 1/4⟩⟩ :=
  ⟨by decide!,
    (lineLineIntersection_rounded_denominator ⟨⟨0, 0⟩, ⟨1/2, 0⟩⟩ ⟨⟨1/4, -1/4⟩, ⟨1/4, 1/4⟩⟩).1
      (by decide!),
    (lineLineIntersection_rounded_denominator ⟨⟨0, 0⟩, ⟨1/2, 0⟩⟩ ⟨⟨1/4, -1/4⟩, ⟨1/4, 1/4⟩⟩).2.2.2
      (by decide!)⟩

/-- C16, counterexample. For `(0, 0)-(25, 0)` and `(12.5, -0.02f)-(12.5, 0)`, all coordinates
`float` values, the exact denominator `dx1 * dy2 - dy1 * dx2` has absolute value
`0.49999998882...`, below `1/2`, but the `float` product rounds to `0.5`, which `std::round` takes
to `1`: the function reports a hit at `(12.5, 0)`. -/
theorem lineLineIntersection_small_denominator_reported :
    IEEE.floatLine ⟨⟨0, 0⟩, ⟨25, 0⟩⟩ ∧
    IEEE.floatLine ⟨⟨25/2, -5368709/268435456⟩, ⟨25/2, 0⟩⟩ ∧
    |denom ⟨⟨0, 0⟩, ⟨25, 0⟩⟩ ⟨⟨25/2, -5368709/268435456⟩, ⟨25/2, 0⟩⟩| < 1 / 2 ∧
    |IEEE.denominator ⟨⟨0, 0⟩, ⟨25, 0⟩⟩ ⟨⟨25/2, -5368709/268435456⟩, ⟨25/2, 0⟩⟩| = 1 / 2 ∧
    IEEE.lineLineIntersection ⟨⟨0, 0⟩, ⟨25, 0⟩⟩ ⟨⟨25/2, -5368709/268435456⟩, ⟨25/2, 0⟩⟩ =
      some ⟨25/2, 0⟩ := by
  decide!

/-- C17. There are two segments with `float` coordinates for which the program reports a hit whose
point lies outside the span of one of the segments on one axis: for `(600.5, 109.5)-(601.5,
109.5078125)` against `(600, 150)-(600, 100)` the written point is `(600, 109.5)`, and `600` is
below both x coordinates of the first segment. The x ratio of the first segment is outside
`[0, 1]`; the hit is accepted because its y ratio is inside: the OR across the axes accepts a point
that containment on both axes would reject. -/
theorem lineLineIntersection_hit_outside_span :
    ∃ (l1 l2 : Line) (p : Vector2f),
      IEEE.floatLine l1 ∧ IEEE.floatLine l2 ∧
      IEEE.lineLineIntersection l1 l2 = some p ∧
      ((p.x < min l1.p0.x l1.p1.x ∨ max l1.p0.x l1.p1.x < p.x) ∨
       (p.y < min l1.p0.y l1.p1.y ∨ max l1.p0.y l1.p1.y < p.y) ∨
       (p.x < min l2.p0.x l2.p1.x ∨ max l2.p0.x l2.p1.x < p.x) ∨
       (p.y < min l2.p0.y l2.p1.y ∨ max l2.p0.y l2.p1.y < p.y)) ∧
      p.x < min l1.p0.x l1.p1.x ∧
      inUnit (IEEE.ratios l1 l2).1 = false ∧ inUnit (IEEE.ratios l1 l2).2.1 = true := by
  refine ⟨⟨⟨1201/2, 219/2⟩, ⟨1203/2, 14017/128⟩⟩, ⟨⟨600, 150⟩, ⟨600, 100⟩⟩, ⟨600, 219/2⟩, ?_⟩
  decide!

/-! ## Segment against rectangle in binary32/binary64 arithmetic -/

/-- The first element of a `std::array<T, 4>` on which `f` succeeds, as `std::any_of` finds it. -/
theorem array4_findSome {α β : Type} (a : Array4 α) (f : α → Option β) (p : β)
    (h : a.toList.findSome? f = some p) :
    ∃ i : Fin 4, f (a.get i) = some p ∧ ∀ j : Fin 4, j < i → f (a.get j) = none := by
  simp only [Array4.toList, List.findSome?] at h
  rcases h0 : f a.e0 with _ | b0
  · rw [h0] at h
    rcases h1 : f a.e1 with _ | b1
    · rw [h1] at h
      rcases h2 : f a.e2 with _ | b2
      · rw [h2] at h
        rcases h3 : f a.e3 with _ | b3
        · rw [h3] at h; cases h
        · rw [h3] at h
          refine ⟨3, by rw [← h]; exact h3, ?_⟩
          intro j hj
          fin_cases j
          · exact h0
          · exact h1
          · exact h2
          · exact absurd hj (lt_irrefl _)
      · rw [h2] at h
        refine ⟨2, by rw [← h]; exact h2, ?_⟩
        intro j hj
        fin_cases j
        · exact h0
        · exact h1
        · exact absurd hj (lt_irrefl _)
        · exact absurd hj (by decide)
    · rw [h1] at h
      refine ⟨1, by rw [← h]; exact h1, ?_⟩
      intro j hj
      fin_cases j
      · exact h0
      · exact absurd hj (lt_irrefl _)
      · exact absurd hj (by decide)
      · exact absurd hj (by decide)
  · rw [h0] at h
    refine ⟨0, by rw [← h]; exact h0, ?_⟩
    intro j hj
    exact absurd hj (Fin.not_lt_zero j)

/-- A hit reported for a rectangle passed the overlap test and is the hit of the first boundary
edge, in the order top, right, bottom, left, whose edge test succeeds. -/
theorem float_lineRectIntersection_first_edge (line : Line) (rect : FloatRect) (p : Vector2f)
    (h : IEEE.lineRectIntersection line rect = some p) :
    IEEE.intersects rect (IEEE.getLineRect line) = true ∧
    ∃ i : Fin 4, IEEE.lineLineIntersection line ((IEEE.getRectLines rect).get i) = some p ∧
      ∀ j : Fin 4, j < i →
        IEEE.lineLineIntersection line ((IEEE.getRectLines rect).get j) = none := by
  unfold IEEE.lineRectIntersection at h
  simp only [] at h
  by_cases hi : IEEE.intersects rect (IEEE.getLineRect line) = true
  · rw [if_pos hi] at h
    exact ⟨hi, array4_findSome _ _ p h⟩
  · rw [if_neg hi] at h
    cases h

theorem abs_f32_sub_comm (a b : ℚ) : |IEEE.f32 (b - a)| = |IEEE.f32 (a - b)| := by
  rw [f32_sub_rev, abs_neg]

theorem float_getLineRect_swap (l : Line) : IEEE.getLineRect ⟨l.p1, l.p0⟩ = IEEE.getLineRect l := by
  simp only [IEEE.getLineRect, min_comm l.p1.x, min_comm l.p1.y, abs_f32_sub_comm l.p0.x,
    abs_f32_sub_comm l.p0.y]

theorem float_getRectLines_eq_exact (rect : FloatRect)
    (hx : IEEE.f32 (rect.left + rect.width) = rect.left + rect.width)
    (hy : IEEE.f32 (rect.top + rect.height) = rect.top + rect.height) :
    IEEE.getRectLines rect = getRectLines rect := by
  simp only [IEEE.getRectLines, IEEE.getRectVertices, getRectLines, getRectVertices, hx, hy]

/-! ## Claims on `getLineRect` and `lineRectIntersection` in binary32/binary64 arithmetic -/

/-- C10, evaluated. The vertical segment `(12, -10)-(12, 10)` passes through the rectangle
`left = 10, top = -5, width = 5, height = 10` across its top and bottom edges:
`lineLineIntersection` reports `(12, -5)` on the top edge and `(12, 5)` on the bottom edge. Its
bounding box has width `0`, the overlap test fails, and `lineRectIntersection` reports nothing, in
either direction of the segment, where the point on the top edge was to be reported. -/
theorem lineRectIntersection_vertical_through_unreported :
    IEEE.floatLine ⟨⟨12, -10⟩, ⟨12, 10⟩⟩ ∧ IEEE.floatRect ⟨10, -5, 5, 10⟩ ∧
    (IEEE.getRectLines ⟨10, -5, 5, 10⟩).e0 = ⟨⟨10, -5⟩, ⟨15, -5⟩⟩ ∧
    (IEEE.getRectLines ⟨10, -5, 5, 10⟩).e2 = ⟨⟨15, 5⟩, ⟨10, 5⟩⟩ ∧
    IEEE.lineLineIntersection ⟨⟨12, -10⟩, ⟨12, 10⟩⟩ (IEEE.getRectLines ⟨10, -5, 5, 10⟩).e0 =
      some ⟨12, -5⟩ ∧
    IEEE.lineLineIntersection ⟨⟨12, -10⟩, ⟨12, 10⟩⟩ (IEEE.getRectLines ⟨10, -5, 5, 10⟩).e2 =
      some ⟨12, 5⟩ ∧
    IEEE.intersects ⟨10, -5, 5, 10⟩ (IEEE.getLineRect ⟨⟨12, -10⟩, ⟨12, 10⟩⟩) = false ∧
    IEEE.lineRectIntersection ⟨⟨12, -10⟩, ⟨12, 10⟩⟩ ⟨10, -5, 5, 10⟩ = none ∧
    IEEE.lineRectIntersection ⟨⟨12, 10⟩, ⟨12, -10⟩⟩ ⟨10, -5, 5, 10⟩ = none := by
  decide!

/-- C11, as the code has it. Every hit reported by `lineRectIntersection` passed the overlap test
and is the hit of the first boundary edge (top, right, bottom, left) whose edge test succeeds; when
no operation of that edge test rounds, the written point lies on the segment and on that edge.
Hence, when no operation of the four edge tests rounds, a segment that has no point in common with
any of the four edges is reported as no hit. The edges are those of the exact rectangle when the
two corner sums are `float` values. -/
theorem lineRectIntersection_float_sound (line : Line) (rect : FloatRect) :
    (∀ p, IEEE.lineRectIntersection line rect = some p →
      IEEE.intersects rect (IEEE.getLineRect line) = true ∧
      ∃ i : Fin 4, IEEE.lineLineIntersection line ((IEEE.getRectLines rect).get i) = some p ∧
        (∀ j : Fin 4, j < i →
          IEEE.lineLineIntersection line ((IEEE.getRectLines rect).get j) = none) ∧
        (IEEE.exactOps line ((IEEE.getRectLines rect).get i) →
          onSegment p line ∧ onSegment p ((IEEE.getRectLines rect).get i))) ∧
    ((∀ i : Fin 4, IEEE.exactOps line ((IEEE.getRectLines rect).get i)) →
      (∀ (i : Fin 4) (q : Vector2f),
        ¬ (onSegment q line ∧ onSegment q ((IEEE.getRectLines rect).get i))) →
      IEEE.lineRectIntersection line rect = none) ∧
    (IEEE.f32 (rect.left + rect.width) = rect.left + rect.width →
      IEEE.f32 (rect.top + rect.height) = rect.top + rect.height →
      IEEE.getRectLines rect = getRectLines rect) := by
  have key : ∀ p, IEEE.lineRectIntersection line rect = some p →
      IEEE.intersects rect (IEEE.getLineRect line) = true ∧
      ∃ i : Fin 4, IEEE.lineLineIntersection line ((IEEE.getRectLines rect).get i) = some p ∧
        (∀ j : Fin 4, j < i →
          IEEE.lineLineIntersection line ((IEEE.getRectLines rect).get j) = none) ∧
        (IEEE.exactOps line ((IEEE.getRectLines rect).get i) →
          onSegment p line ∧ onSegment p ((IEEE.getRectLines rect).get i)) := by
    intro p h
    obtain ⟨hi, i, h1, h2⟩ := float_lineRectIntersection_first_edge line rect p h
    refine ⟨hi, i, h1, h2, ?_⟩
    intro hex
    rw [float_lli_eq_exact _ _ hex] at h1
    exact lineLineIntersection_onSegment _ _ p h1
  refine ⟨key, ?_, float_getRectLines_eq_exact rect⟩
  intro hex hno
  rcases hres : IEEE.lineRectIntersection line rect with _ | p
  · rfl
  · obtain ⟨-, i, -, -, h3⟩ := key p hres
    exact absurd (h3 (hex i)) (hno i p)

/-- Witness for the amended C11: the segment `(590, 120)-(610, 130)` against the rectangle
`left = 600, top = 100, width = 100, height = 50` of `main`. The overlap test passes, the first
three edge tests fail and the fourth (the left edge) reports `(600, 125)`; no operation of that
test rounds, and the point lies on the segment and on the left edge. -/
theorem lineRectIntersection_float_sound_witness :
    IEEE.lineRectIntersection ⟨⟨590, 120⟩, ⟨610, 130⟩⟩ ⟨600, 100, 100, 50⟩ = some ⟨600, 125⟩ ∧
    (∀ i : Fin 4, IEEE.exactOps ⟨⟨590, 120⟩, ⟨610, 130⟩⟩
      ((IEEE.getRectLines ⟨600, 100, 100, 50⟩).get i)) ∧
    ∃ i : Fin 4,
      IEEE.lineLineIntersection ⟨⟨590, 120⟩, ⟨610, 130⟩⟩
        ((IEEE.getRectLines ⟨600, 100, 100, 50⟩).get i) = some ⟨600, 125⟩ ∧
      onSegment ⟨600, 125⟩ ⟨⟨590, 120⟩, ⟨610, 130⟩⟩ ∧
      onSegment ⟨600, 125⟩ ((IEEE.getRectLines ⟨600, 100, 100, 50⟩).get i) := by
  have hex : ∀ i : Fin 4, IEEE.exactOps ⟨⟨590, 120⟩, ⟨610, 130⟩⟩
      ((IEEE.getRectLines ⟨600, 100, 100, 50⟩).get i) := by decide!
  have hhit : IEEE.lineRectIntersection ⟨⟨590, 120⟩, ⟨610, 130⟩⟩ ⟨600, 100, 100, 50⟩ =
      some ⟨600, 125⟩ := by decide!
  obtain ⟨-, i, h1, -, h3⟩ :=
    (lineRectIntersection_float_sound ⟨⟨590, 120⟩, ⟨610, 130⟩⟩ ⟨600, 100, 100, 50⟩).1 _ hhit
  exact ⟨hhit, hex, i, h1, h3 (hex i)⟩

/-- C11, counterexample. The segment `(600.5, 109.5)-(601.5, 109.5078125)` has `float` coordinates
and lies strictly inside the rectangle `left = 600, top = 100, width = 100, height = 50` of `main`,
so it has no point in common with any boundary edge. `lineRectIntersection` reports a hit and
writes `(600, 109.5)`, whose x coordinate is below both x coordinates of the segment: the point is
not on the segment. -/
theorem lineRectIntersection_inside_reported :
    IEEE.floatLine ⟨⟨1201/2, 219/2⟩, ⟨1203/2, 14017/128⟩⟩ ∧ IEEE.floatRect ⟨600, 100, 100, 50⟩ ∧
    ((600 : ℚ) < 1201/2 ∧ (1203/2 : ℚ) < 600 + 100 ∧ (100 : ℚ) < 219/2 ∧
      (14017/128 : ℚ) < 100 + 50) ∧
    IEEE.lineRectIntersection ⟨⟨1201/2, 219/2⟩, ⟨1203/2, 14017/128⟩⟩ ⟨600, 100, 100, 50⟩ =
      some ⟨600, 219/2⟩ ∧
    (600 : ℚ) < min (1201/2) (1203/2) := by
  decide!

/-- C12, as the code has it. For a segment `((x1, y1), (x2, y2))`, `getLineRect` returns
`left = min x1 x2`, `top = min y1 y2`, `width = |float (x1 - x2)|` and
`height = |float (y1 - y2)|`, which are the `float` values nearest to `|x1 - x2|` and `|y1 - y2|`;
`width` and `height` are not negative, `left` and `top` are not above the end points, and the
result is the same when the two end points are swapped. On an axis where the difference is a
`float` value, the extent is the exact distance, `left + width = max x1 x2` (`top + height =
max y1 y2`) and both end points lie in the closed range. -/
theorem getLineRect_float_spec (l : Line) :
    (IEEE.getLineRect l).left = min l.p0.x l.p1.x ∧
    (IEEE.getLineRect l).top = min l.p0.y l.p1.y ∧
    (IEEE.getLineRect l).width = |IEEE.f32 (l.p0.x - l.p1.x)| ∧
    (IEEE.getLineRect l).height = |IEEE.f32 (l.p0.y - l.p1.y)| ∧
    (IEEE.getLineRect l).width = IEEE.f32 |l.p0.x - l.p1.x| ∧
    (IEEE.getLineRect l).height = IEEE.f32 |l.p0.y - l.p1.y| ∧
    0 ≤ (IEEE.getLineRect l).width ∧ 0 ≤ (IEEE.getLineRect l).height ∧
    ((IEEE.getLineRect l).left ≤ l.p0.x ∧ (IEEE.getLineRect l).left ≤ l.p1.x) ∧
    ((IEEE.getLineRect l).top ≤ l.p0.y ∧ (IEEE.getLineRect l).top ≤ l.p1.y) ∧
    IEEE.getLineRect ⟨l.p1, l.p0⟩ = IEEE.getLineRect l ∧
    (IEEE.f32 (l.p0.x - l.p1.x) = l.p0.x - l.p1.x →
      (IEEE.getLineRect l).width = |l.p0.x - l.p1.x| ∧
      (IEEE.getLineRect l).left + (IEEE.getLineRect l).width = max l.p0.x l.p1.x ∧
      l.p0.x ≤ (IEEE.getLineRect l).left + (IEEE.getLineRect l).width ∧
      l.p1.x ≤ (IEEE.getLineRect l).left + (IEEE.getLineRect l).width) ∧
    (IEEE.f32 (l.p0.y - l.p1.y) = l.p0.y - l.p1.y →
      (IEEE.getLineRect l).height = |l.p0.y - l.p1.y| ∧
      (IEEE.getLineRect l).top + (IEEE.getLineRect l).height = max l.p0.y l.p1.y ∧
      l.p0.y ≤ (IEEE.getLineRect l).top + (IEEE.getLineRect l).height ∧
      l.p1.y ≤ (IEEE.getLineRect l).top + (IEEE.getLineRect l).height) := by
  have habs : ∀ d : ℚ, |IEEE.f32 d| = IEEE.f32 |d| := by
    intro d
    rcases le_total 0 d with h | h
    · have h2 : 0 ≤ IEEE.f32 d := by
        unfold IEEE.f32 IEEE.roundTo
        split_ifs with h0
        · exact le_rfl
        · exact mul_nonneg (by
            have : (0 : ℤ) ≤ IEEE.roundEven (d / 2 ^ (max (IEEE.binExp d) (-126) - ((24 : ℕ) - 1))) := by
              unfold IEEE.roundEven
              have hq : (0 : ℚ) ≤ d / 2 ^ (max (IEEE.binExp d) (-126) - (((24 : ℕ) : ℤ) - 1)) := by
                positivity
              have hf := Int.floor_nonneg.2 hq
              simp only []
              split_ifs <;> omega
            exact_mod_cast this) (by positivity)
      rw [abs_of_nonneg h2, abs_of_nonneg h]
    · have h2 : 0 ≤ IEEE.f32 (-d) := by
        have hd : 0 ≤ -d := by linarith
        unfold IEEE.f32 IEEE.roundTo
        split_ifs with h0
        · exact le_rfl
        · exact mul_nonneg (by
            have : (0 : ℤ) ≤ IEEE.roundEven (-d / 2 ^ (max (IEEE.binExp (-d)) (-126) - ((24 : ℕ) - 1))) := by
              unfold IEEE.roundEven
              have hq : (0 : ℚ) ≤ -d / 2 ^ (max (IEEE.binExp (-d)) (-126) - (((24 : ℕ) : ℤ) - 1)) := by
                positivity
              have hf := Int.floor_nonneg.2 hq
              simp only []
              split_ifs <;> omega
            exact_mod_cast this) (by positivity)
      rw [abs_of_nonpos h, ← abs_neg, ← IEEE.f32_neg, abs_of_nonneg h2]
  refine ⟨rfl, rfl, rfl, rfl, habs _, habs _, abs_nonneg _, abs_nonneg _,
    ⟨min_le_left _ _, min_le_right _ _⟩, ⟨min_le_left _ _, min_le_right _ _⟩,
    float_getLineRect_swap l, ?_, ?_⟩
  · intro h
    have hw : (IEEE.getLineRect l).width = |l.p0.x - l.p1.x| := by
      simp only [IEEE.getLineRect, h]
    have hs : (IEEE.getLineRect l).left + (IEEE.getLineRect l).width = max l.p0.x l.p1.x := by
      rw [hw]; exact min_add_abs_sub _ _
    exact ⟨hw, hs, by rw [hs]; exact le_max_left _ _, by rw [hs]; exact le_max_right _ _⟩
  · intro h
    have hw : (IEEE.getLineRect l).height = |l.p0.y - l.p1.y| := by
      simp only [IEEE.getLineRect, h]
    have hs : (IEEE.getLineRect l).top + (IEEE.getLineRect l).height = max l.p0.y l.p1.y := by
      rw [hw]; exact min_add_abs_sub _ _
    exact ⟨hw, hs, by rw [hs]; exact le_max_left _ _, by rw [hs]; exact le_max_right _ _⟩

/-- Witness for the amended C12: for the segment `(30, 30)-(30, 400)` of `main` both differences
are `float` values, and the box is `left = 30, top = 30, width = 0, height = 370`, whose far
corner is `(30, 400)`. -/
theorem getLineRect_float_spec_witness :
    IEEE.getLineRect ⟨⟨30, 30⟩, ⟨30, 400⟩⟩ = ⟨30, 30, 0, 370⟩ ∧
    IEEE.f32 ((30 : ℚ) - 30) = 30 - 30 ∧ IEEE.f32 ((30 : ℚ) - 400) = 30 - 400 ∧
    (IEEE.getLineRect ⟨⟨30, 30⟩, ⟨30, 400⟩⟩).left + (IEEE.getLineRect ⟨⟨30, 30⟩, ⟨30, 400⟩⟩).width =
      max 30 30 ∧
    (IEEE.getLineRect ⟨⟨30, 30⟩, ⟨30, 400⟩⟩).top + (IEEE.getLineRect ⟨⟨30, 30⟩, ⟨30, 400⟩⟩).height =
      max 30 400 :=
  ⟨by decide!, by decide!, by decide!,
    ((getLineRect_float_spec ⟨⟨30, 30⟩, ⟨30, 400⟩⟩).2.2.2.2.2.2.2.2.2.2.2.1 (by decide!)).2.1,
    ((getLineRect_float_spec ⟨⟨30, 30⟩, ⟨30, 400⟩⟩).2.2.2.2.2.2.2.2.2.2.2.2 (by decide!)).2.1⟩

/-- C12, counterexample. For the segment `(-1, 0)-(1.5 + 2^-23, 0)`, whose coordinates are `float`
values, the difference `-2.5 - 2^-23` is not a `float` and rounds to `-2.5`: `getLineRect` returns
`width = 2.5`, which is not `|x1 - x2|`, and `left + width = 1.5` is below the end point
`x2 = 1.5 + 2^-23`, which therefore lies outside the rectangle. -/
theorem getLineRect_width_rounded :
    IEEE.floatLine ⟨⟨-1, 0⟩, ⟨12582913/8388608, 0⟩⟩ ∧
    (IEEE.getLineRect ⟨⟨-1, 0⟩, ⟨12582913/8388608, 0⟩⟩).width = 5 / 2 ∧
    (IEEE.getLineRect ⟨⟨-1, 0⟩, ⟨12582913/8388608, 0⟩⟩).width ≠ |(-1 : ℚ) - 12582913/8388608| ∧
    (IEEE.getLineRect ⟨⟨-1, 0⟩, ⟨12582913/8388608, 0⟩⟩).left +
      (IEEE.getLineRect ⟨⟨-1, 0⟩, ⟨12582913/8388608, 0⟩⟩).width < 12582913/8388608 ∧
    (IEEE.getLineRect ⟨⟨-1, 0⟩, ⟨12582913/8388608, 0⟩⟩).left +
      (IEEE.getLineRect ⟨⟨-1, 0⟩, ⟨12582913/8388608, 0⟩⟩).width ≠
        max (-1) (12582913/8388608) := by
  decide!

/-! ## The ray march in binary32 arithmetic -/

theorem float_sizeAt_zero (start : Vector2f) (x y : ℚ) : IEEE.sizeAt start x y 0 = ⟨0, 0⟩ := by
  simp [IEEE.sizeAt, IEEE.posAt, IEEE.f32_zero]

theorem float_lenAt_zero (start : Vector2f) (x y : ℚ) : IEEE.lenAt start x y 0 = 0 := by
  simp [IEEE.lenAt, float_sizeAt_zero, IEEE.f32_zero, IEEE.sqrt32_zero]

theorem float_castRayLoop_succ (rects : List FloatRect) (lines : List Line) (start : Vector2f)
    (x y limit : ℚ) (fuel k : ℕ) :
    IEEE.castRayLoop rects lines start x y limit (fuel + 1) (IEEE.posAt start x y k)
        (IEEE.sizeAt start x y k) (IEEE.hitAt rects lines start x y k) k =
      if IEEE.guardAt rects lines start x y limit k = true then
        IEEE.castRayLoop rects lines start x y limit fuel (IEEE.posAt start x y (k + 1))
          (IEEE.sizeAt start x y (k + 1)) (IEEE.hitAt rects lines start x y (k + 1)) (k + 1)
      else some (⟨start, IEEE.posAt start x y k⟩, k) := rfl

theorem float_castRayLoop_zero (rects : List FloatRect) (lines : List Line) (start : Vector2f)
    (x y limit : ℚ) (k : ℕ) :
    IEEE.castRayLoop rects lines start x y limit 0 (IEEE.posAt start x y k)
        (IEEE.sizeAt start x y k) (IEEE.hitAt rects lines start x y k) k =
      if IEEE.guardAt rects lines start x y limit k = true then none
      else some (⟨start, IEEE.posAt start x y k⟩, k) := rfl

/-- The loop runs through the steps at which the loop condition holds and stops at the first step
at which it fails. -/
theorem float_castRayLoop_run (rects : List FloatRect) (lines : List Line) (start : Vector2f)
    (x y limit : ℚ) :
    ∀ (m k fuel : ℕ), m ≤ fuel →
      (∀ j, k ≤ j → j < k + m → IEEE.guardAt rects lines start x y limit j = true) →
      IEEE.guardAt rects lines start x y limit (k + m) = false →
      IEEE.castRayLoop rects lines start x y limit fuel (IEEE.posAt start x y k)
        (IEEE.sizeAt start x y k) (IEEE.hitAt rects lines start x y k) k =
        some (⟨start, IEEE.posAt start x y (k + m)⟩, k + m) := by
  intro m
  induction m with
  | zero =>
    intro k fuel _ _ hstop
    rw [add_zero] at hstop
    cases fuel with
    | zero => rw [float_castRayLoop_zero, hstop]; simp
    | succ f => rw [float_castRayLoop_succ, hstop]; simp
  | succ m ih =>
    intro k fuel hf hgo hstop
    cases fuel with
    | zero => omega
    | succ f =>
      rw [float_castRayLoop_succ, if_pos (hgo k le_rfl (by omega))]
      have := ih (k + 1) f (by omega) (fun j h1 h2 => hgo j (by omega) (by omega))
        (by rw [show k + 1 + m = k + (m + 1) by omega]; exact hstop)
      rw [this, show k + 1 + m = k + (m + 1) by omega]

/-- While the loop condition holds, the loop does not return. -/
theorem float_castRayLoop_none (rects : List FloatRect) (lines : List Line) (start : Vector2f)
    (x y limit : ℚ) :
    ∀ (fuel k : ℕ),
      (∀ j, k ≤ j → j ≤ k + fuel → IEEE.guardAt rects lines start x y limit j = true) →
      IEEE.castRayLoop rects lines start x y limit fuel (IEEE.posAt start x y k)
        (IEEE.sizeAt start x y k) (IEEE.hitAt rects lines start x y k) k = none := by
  intro fuel
  induction fuel with
  | zero =>
    intro k h
    rw [float_castRayLoop_zero, if_pos (h k le_rfl (by omega))]
  | succ f ih =>
    intro k h
    rw [float_castRayLoop_succ, if_pos (h k le_rfl (by omega))]
    exact ih (k + 1) (fun j h1 h2 => h j (by omega) (by omega))

/-- What a finished run of the loop tells: the step count is the first step at which the loop
condition fails, and the returned end point is the position after that many steps. -/
theorem float_castRayLoop_trace (rects : List FloatRect) (lines : List Line) (start : Vector2f)
    (x y limit : ℚ) :
    ∀ (fuel k : ℕ) (ray : Line) (n : ℕ),
      IEEE.castRayLoop rects lines start x y limit fuel (IEEE.posAt start x y k)
        (IEEE.sizeAt start x y k) (IEEE.hitAt rects lines start x y k) k = some (ray, n) →
      k ≤ n ∧ n ≤ k + fuel ∧ ray = ⟨start, IEEE.posAt start x y n⟩ ∧
        (∀ j, k ≤ j → j < n → IEEE.guardAt rects lines start x y limit j = true) ∧
        IEEE.guardAt rects lines start x y limit n = false := by
  intro fuel
  induction fuel with
  | zero =>
    intro k ray n h
    rw [float_castRayLoop_zero] at h
    split_ifs at h with hg
    simp only [Option.some.injEq, Prod.mk.injEq] at h
    obtain ⟨rfl, rfl⟩ := h
    exact ⟨le_rfl, le_rfl, rfl, fun j h1 h2 => absurd h2 (by omega), by simpa using hg⟩
  | succ f ih =>
    intro k ray n h
    rw [float_castRayLoop_succ] at h
    split_ifs at h with hg
    · obtain ⟨a, b, c, d, e⟩ := ih (k + 1) ray n h
      refine ⟨by omega, by omega, c, ?_, e⟩
      intro j h1 h2
      rcases Nat.eq_or_lt_of_le h1 with rfl | h3
      · exact hg
      · exact d j h3 h2
    · simp only [Option.some.injEq, Prod.mk.injEq] at h
      obtain ⟨rfl, rfl⟩ := h
      exact ⟨le_rfl, by omega, rfl, fun j h1 h2 => absurd h2 (by omega), by simpa using hg⟩

theorem float_castRaySteps_eq (T : Trig) (fuel : ℕ) (rects : List FloatRect) (lines : List Line)
    (start : Vector2f) (angle limit : ℚ) :
    IEEE.castRaySteps T fuel rects lines start angle limit =
      IEEE.castRayLoop rects lines start
        (T.cos (IEEE.f64 (angle * IEEE.f64 DEGREE_RADIAN_RATIO)))
        (T.sin (IEEE.f64 (angle * IEEE.f64 DEGREE_RADIAN_RATIO))) limit fuel
        (IEEE.posAt start (T.cos (IEEE.f64 (angle * IEEE.f64 DEGREE_RADIAN_RATIO)))
          (T.sin (IEEE.f64 (angle * IEEE.f64 DEGREE_RADIAN_RATIO))) 0)
        (IEEE.sizeAt start (T.cos (IEEE.f64 (angle * IEEE.f64 DEGREE_RADIAN_RATIO)))
          (T.sin (IEEE.f64 (angle * IEEE.f64 DEGREE_RADIAN_RATIO))) 0)
        (IEEE.hitAt rects lines start (T.cos (IEEE.f64 (angle * IEEE.f64 DEGREE_RADIAN_RATIO)))
          (T.sin (IEEE.f64 (angle * IEEE.f64 DEGREE_RADIAN_RATIO))) 0) 0 := by
  rw [float_sizeAt_zero]
  rfl

theorem float_direction_zero (T : Trig) :
    T.cos (IEEE.f64 (0 * IEEE.f64 DEGREE_RADIAN_RATIO)) = 1 ∧
    T.sin (IEEE.f64 (0 * IEEE.f64 DEGREE_RADIAN_RATIO)) = 0 := by
  rw [zero_mul, IEEE.f64_zero]
  exact ⟨T.cos_zero, T.sin_zero⟩

/-- A ray of length zero is never reported as a hit: both `float` deltas are `0`, so the computed
denominator of every edge test is `0`. -/
theorem float_lli_point_ray (s : Vector2f) (l : Line) :
    IEEE.lineLineIntersection ⟨s, s⟩ l = none := by
  have hd : IEEE.denominator ⟨s, s⟩ l = 0 := by
    simp [IEEE.denominator, IEEE.f32_zero]
  rw [float_lli_eq, hd, if_pos ((cRound_eq_zero_iff 0).2 (by norm_num))]

theorem float_hitTest_point_ray (rects : List FloatRect) (lines : List Line) (s : Vector2f) :
    IEEE.hitTest rects lines ⟨s, s⟩ = false := by
  have h1 : ∀ rect : FloatRect, IEEE.lineRectIntersection ⟨s, s⟩ rect = none := by
    intro rect
    rcases h : IEEE.lineRectIntersection ⟨s, s⟩ rect with _ | p
    · rfl
    · obtain ⟨-, i, hi, -⟩ := float_lineRectIntersection_first_edge _ _ p h
      rw [float_lli_point_ray] at hi
      cases hi
  simp [IEEE.hitTest, h1, float_lli_point_ray]

/-- When the first `float` addition leaves the end point where it is, every later one does. -/
theorem float_posAt_absorbed (start : Vector2f) (x y : ℚ) (h : IEEE.posAt start x y 1 = start) :
    ∀ k, IEEE.posAt start x y k = start := by
  intro k
  induction k with
  | zero => rfl
  | succ k ih =>
    have : IEEE.posAt start x y (k + 1) = IEEE.posAt start x y 1 := by
      simp only [IEEE.posAt, ih]
    rw [this, h]

theorem float_guardAt_absorbed (rects : List FloatRect) (lines : List Line) (start : Vector2f)
    (x y limit : ℚ) (hl : 0 ≤ limit) (h : IEEE.posAt start x y 1 = start) :
    ∀ k, IEEE.guardAt rects lines start x y limit k = true := by
  intro k
  have hp := float_posAt_absorbed start x y h
  have hlen : IEEE.lenAt start x y k = 0 := by
    simp [IEEE.lenAt, IEEE.sizeAt, hp k, IEEE.f32_zero, IEEE.sqrt32_zero]
  have hhit : IEEE.hitAt rects lines start x y k = false := by
    cases k with
    | zero => rfl
    | succ k =>
      simp only [IEEE.hitAt, hp (k + 1)]
      exact float_hitTest_point_ray rects lines start
  simp [IEEE.guardAt, hlen, hhit, hl]

/-- An absorbed step: the loop never returns, whatever the obstacles and the non-negative limit. -/
theorem float_castRaySteps_absorbed (T : Trig) (rects : List FloatRect) (lines : List Line)
    (start : Vector2f) (angle limit : ℚ) (hl : 0 ≤ limit)
    (h : IEEE.posAt start (T.cos (IEEE.f64 (angle * IEEE.f64 DEGREE_RADIAN_RATIO)))
      (T.sin (IEEE.f64 (angle * IEEE.f64 DEGREE_RADIAN_RATIO))) 1 = start) (fuel : ℕ) :
    IEEE.castRaySteps T fuel rects lines start angle limit = none := by
  rw [float_castRaySteps_eq]
  exact float_castRayLoop_none rects lines start _ _ limit fuel 0
    (fun j _ _ => float_guardAt_absorbed rects lines start _ _ limit hl h j)

/-- Marching along the x axis from a start point at which the additions are exact. -/
theorem float_posAt_exact (start : Vector2f) (N : ℕ) (hy : IEEE.f32 start.y = start.y)
    (hx : ∀ k : ℕ, k ≤ N → IEEE.f32 (start.x + k) = start.x + k) :
    ∀ k : ℕ, k ≤ N → IEEE.posAt start 1 0 k = ⟨start.x + k, start.y⟩ := by
  intro k
  induction k with
  | zero => intro _; simp [IEEE.posAt]
  | succ k ih =>
    intro hk
    have h1 := hx (k + 1) hk
    push_cast at h1
    simp only [IEEE.posAt, ih (by omega), add_zero, hy, Nat.cast_add, Nat.cast_one, add_assoc, h1]

/-- On an exact march along the x axis the guard computes the number of steps made: the `float`
square of `k` may round, but its correctly rounded root is `k`. -/
theorem float_lenAt_exact (start : Vector2f) (N : ℕ) (hy : IEEE.f32 start.y = start.y)
    (hx : ∀ k : ℕ, k ≤ N → IEEE.f32 (start.x + k) = start.x + k)
    (hs : ∀ k : ℕ, k ≤ N →
      IEEE.f32 (start.x - (start.x + k)) = start.x - (start.x + k)) :
    ∀ k : ℕ, k ≤ N → IEEE.lenAt start 1 0 k = k := by
  intro k hk
  have hk1 : IEEE.f32 (-(k : ℚ)) = -(k : ℚ) := by
    have := hs k hk
    rwa [sub_add_cancel_left] at this
  have hk0 : IEEE.f32 (k : ℚ) = k := by
    have := IEEE.f32_neg (-(k : ℚ))
    rw [neg_neg, hk1, neg_neg] at this
    exact this
  simp only [IEEE.lenAt, IEEE.sizeAt, float_posAt_exact start N hy hx k hk, sub_add_cancel_left,
    sub_self, hk1, IEEE.f32_zero, neg_mul_neg, mul_zero, add_zero, IEEE.f32_idem]
  exact IEEE.sqrt32_f32_natCast_sq k hk0

/-! ## Claims on `castRay` in binary32 arithmetic -/

theorem float_hitAt_nil (start : Vector2f) (x y : ℚ) (k : ℕ) :
    IEEE.hitAt [] [] start x y k = false := by
  cases k <;> rfl

/-- With a non-negative limit a finished run made at least one step, and its ray is not of length
zero: the loop condition holds before the first step, and it holds for as long as the end point
is the start point. -/
theorem float_castRaySteps_moved (T : Trig) (fuel : ℕ) (rects : List FloatRect) (lines : List Line)
    (start : Vector2f) (angle limit : ℚ) (hl : 0 ≤ limit) (ray : Line) (n : ℕ)
    (h : IEEE.castRaySteps T fuel rects lines start angle limit = some (ray, n)) :
    1 ≤ n ∧ ray.p0 = start ∧ ray.p1 ≠ start := by
  rw [float_castRaySteps_eq] at h
  obtain ⟨-, -, rfl, -, hstop⟩ := float_castRayLoop_trace rects lines start _ _ limit fuel 0 ray n h
  have key : IEEE.posAt start (T.cos (IEEE.f64 (angle * IEEE.f64 DEGREE_RADIAN_RATIO)))
      (T.sin (IEEE.f64 (angle * IEEE.f64 DEGREE_RADIAN_RATIO))) n ≠ start := by
    intro hp
    have hlen : IEEE.lenAt start (T.cos (IEEE.f64 (angle * IEEE.f64 DEGREE_RADIAN_RATIO)))
        (T.sin (IEEE.f64 (angle * IEEE.f64 DEGREE_RADIAN_RATIO))) n = 0 := by
      simp [IEEE.lenAt, IEEE.sizeAt, hp, IEEE.f32_zero, IEEE.sqrt32_zero]
    have hhit : IEEE.hitAt rects lines start
        (T.cos (IEEE.f64 (angle * IEEE.f64 DEGREE_RADIAN_RATIO)))
        (T.sin (IEEE.f64 (angle * IEEE.f64 DEGREE_RADIAN_RATIO))) n = false := by
      cases n with
      | zero => rfl
      | succ k =>
        simp only [IEEE.hitAt, hp]
        exact float_hitTest_point_ray rects lines start
    simp [IEEE.guardAt, hlen, hhit, hl] at hstop
  refine ⟨?_, rfl, key⟩
  rcases Nat.eq_zero_or_pos n with h0 | h0
  · subst h0; exact absurd rfl key
  · exact h0

/-- C3, as the code has it. With `limit = 0` the loop condition `0 <= 0` holds before the first
step, so a finished run made at least one advance step and its ray is not `(start, start)`. If the
length computed after the first step is positive, or the first stepped ray is reported as a hit,
exactly one step is made and the ray `(start, start + (x, y))` is returned, with the two `float`
additions of the source. If those two additions leave the end point at `start` (the step is
absorbed by rounding), the loop never returns. -/
theorem castRay_float_zero_limit (T : Trig) (rects : List FloatRect) (lines : List Line)
    (start : Vector2f) (angle x y : ℚ)
    (hx : x = T.cos (IEEE.f64 (angle * IEEE.f64 DEGREE_RADIAN_RATIO)))
    (hy : y = T.sin (IEEE.f64 (angle * IEEE.f64 DEGREE_RADIAN_RATIO))) :
    (∀ fuel ray n, IEEE.castRaySteps T fuel rects lines start angle 0 = some (ray, n) →
      1 ≤ n ∧ ray.p0 = start ∧ ray.p1 ≠ start) ∧
    ((0 < IEEE.lenAt start x y 1 ∨
        IEEE.hitTest rects lines ⟨start, ⟨IEEE.f32 (start.x + x), IEEE.f32 (start.y + y)⟩⟩ = true) →
      ∀ fuel, 1 ≤ fuel →
        IEEE.castRaySteps T fuel rects lines start angle 0 =
          some (⟨start, ⟨IEEE.f32 (start.x + x), IEEE.f32 (start.y + y)⟩⟩, 1) ∧
        IEEE.castRay T fuel rects lines start angle 0 =
          some ⟨start, ⟨IEEE.f32 (start.x + x), IEEE.f32 (start.y + y)⟩⟩) ∧
    (IEEE.f32 (start.x + x) = start.x → IEEE.f32 (start.y + y) = start.y →
      ∀ fuel, IEEE.castRaySteps T fuel rects lines start angle 0 = none ∧
        IEEE.castRay T fuel rects lines start angle 0 = none) := by
  subst hx hy
  refine ⟨?_, ?_, ?_⟩
  · intro fuel ray n h
    exact float_castRaySteps_moved T fuel rects lines start angle 0 le_rfl ray n h
  · intro h fuel hf
    have h0 : IEEE.guardAt rects lines start
        (T.cos (IEEE.f64 (angle * IEEE.f64 DEGREE_RADIAN_RATIO)))
        (T.sin (IEEE.f64 (angle * IEEE.f64 DEGREE_RADIAN_RATIO))) 0 0 = true := by
      simp [IEEE.guardAt, float_lenAt_zero, IEEE.hitAt]
    have h1 : IEEE.guardAt rects lines start
        (T.cos (IEEE.f64 (angle * IEEE.f64 DEGREE_RADIAN_RATIO)))
        (T.sin (IEEE.f64 (angle * IEEE.f64 DEGREE_RADIAN_RATIO))) 0 (0 + 1) = false := by
      rcases h with h | h
      · simp [IEEE.guardAt, h]
      · have : IEEE.hitAt rects lines start
            (T.cos (IEEE.f64 (angle * IEEE.f64 DEGREE_RADIAN_RATIO)))
            (T.sin (IEEE.f64 (angle * IEEE.f64 DEGREE_RADIAN_RATIO))) (0 + 1) = true := h
        simp [IEEE.guardAt, this]
    have hrun := float_castRayLoop_run rects lines start _ _ 0 1 0 fuel hf
      (fun j a b => by
        have : j = 0 := by omega
        subst this; exact h0) h1
    have hs : IEEE.castRaySteps T fuel rects lines start angle 0 =
        some (⟨start, ⟨IEEE.f32 (start.x + T.cos (IEEE.f64 (angle * IEEE.f64 DEGREE_RADIAN_RATIO))),
          IEEE.f32 (start.y + T.sin (IEEE.f64 (angle * IEEE.f64 DEGREE_RADIAN_RATIO)))⟩⟩, 1) := by
      rw [float_castRaySteps_eq, hrun]
      rfl
    exact ⟨hs, by rw [IEEE.castRay, hs]; rfl⟩
  · intro ax ay fuel
    have hp : IEEE.posAt start (T.cos (IEEE.f64 (angle * IEEE.f64 DEGREE_RADIAN_RATIO)))
        (T.sin (IEEE.f64 (angle * IEEE.f64 DEGREE_RADIAN_RATIO))) 1 = start := by
      simp only [IEEE.posAt, ax, ay]
    have hs := float_castRaySteps_absorbed T rects lines start angle 0 le_rfl hp fuel
    exact ⟨hs, by rw [IEEE.castRay, hs]; rfl⟩

/-- Witness for the amended C3: from `(0, 0)` at angle `0` with the rectangles and the segment of
`main` the computed length after the first step is `1`, and one step is made; from
`(16777216, 0)` the addition `16777216 + 1` rounds back to `16777216` and no fuel suffices. -/
theorem castRay_float_zero_limit_witness :
    (0 < IEEE.lenAt ⟨0, 0⟩ 1 0 1 ∧
      IEEE.castRaySteps taylorTrig 1 [⟨600, 100, 100, 50⟩, ⟨100, 400, 100, 100⟩]
        [⟨⟨30, 30⟩, ⟨30, 400⟩⟩] ⟨0, 0⟩ 0 0 = some (⟨⟨0, 0⟩, ⟨IEEE.f32 (0 + 1), IEEE.f32 (0 + 0)⟩⟩, 1)) ∧
    (IEEE.f32 (16777216 + 1) = 16777216 ∧
      ∀ fuel, IEEE.castRaySteps taylorTrig fuel [⟨600, 100, 100, 50⟩, ⟨100, 400, 100, 100⟩]
        [⟨⟨30, 30⟩, ⟨30, 400⟩⟩] ⟨16777216, 0⟩ 0 0 = none) :=
  ⟨⟨by decide!,
    ((castRay_float_zero_limit taylorTrig [⟨600, 100, 100, 50⟩, ⟨100, 400, 100, 100⟩]
      [⟨⟨30, 30⟩, ⟨30, 400⟩⟩] ⟨0, 0⟩ 0 1 0 (by decide!) (by decide!)).2.1
        (Or.inl (by decide!)) 1 le_rfl).1⟩,
   ⟨by decide!, fun fuel =>
    ((castRay_float_zero_limit taylorTrig [⟨600, 100, 100, 50⟩, ⟨100, 400, 100, 100⟩]
      [⟨⟨30, 30⟩, ⟨30, 400⟩⟩] ⟨16777216, 0⟩ 0 1 0 (by decide!) (by decide!)).2.2
        (by decide!) (by decide!) fuel).1⟩⟩

/-- C3, counterexample. With `limit = 0`, no obstacles, start `(0, 0)` and angle `0` the code makes
one advance step and returns the ray `((0, 0), (1, 0))`, not the zero-length ray. -/
theorem castRay_float_zero_limit_counterexample :
    IEEE.castRaySteps taylorTrig 1 [] [] ⟨0, 0⟩ 0 0 = some (⟨⟨0, 0⟩, ⟨1, 0⟩⟩, 1) ∧
    IEEE.castRay taylorTrig 1 [] [] ⟨0, 0⟩ 0 0 ≠ some ⟨⟨0, 0⟩, ⟨0, 0⟩⟩ := by
  decide!

/-- C5, as the code has it. With no obstacles, angle `0` and `limit = L ≥ 0`, a finished run made
`n ≥ 1` steps, where `n` is the first step count whose computed length exceeds `L`, and its ray
starts at `start` and ends at the position reached by `n` `float` additions of `1`. When the
additions and the subtractions of the march are exact (`start.y` is a `float`, and `start.x + k`
and `start.x - (start.x + k)` are `float` values for every `k ≤ ⌊L⌋ + 1`), the run finishes after
`n = ⌊L⌋ + 1` steps with the end point `start + (n, 0)`, and `L < n ≤ L + 1`. -/
theorem castRay_float_unobstructed (T : Trig) (start : Vector2f) (L : ℚ) (hL : 0 ≤ L) :
    (∀ fuel ray n, IEEE.castRaySteps T fuel [] [] start 0 L = some (ray, n) →
      1 ≤ n ∧ ray = ⟨start, IEEE.posAt start 1 0 n⟩ ∧ L < IEEE.lenAt start 1 0 n ∧
        ∀ j, j < n → IEEE.lenAt start 1 0 j ≤ L) ∧
    (IEEE.f32 start.y = start.y →
      (∀ k : ℕ, k ≤ ⌊L⌋₊ + 1 → IEEE.f32 (start.x + k) = start.x + k) →
      (∀ k : ℕ, k ≤ ⌊L⌋₊ + 1 →
        IEEE.f32 (start.x - (start.x + k)) = start.x - (start.x + k)) →
      ∃ n : ℕ, L < n ∧ (n : ℚ) ≤ L + 1 ∧ ∀ fuel, n ≤ fuel →
        IEEE.castRaySteps T fuel [] [] start 0 L = some (⟨start, ⟨start.x + n, start.y⟩⟩, n) ∧
        IEEE.castRay T fuel [] [] start 0 L = some ⟨start, ⟨start.x + n, start.y⟩⟩) := by
  obtain ⟨hc, hs⟩ := float_direction_zero T
  constructor
  · intro fuel ray n h
    have hn := (float_castRaySteps_moved T fuel [] [] start 0 L hL ray n h).1
    rw [float_castRaySteps_eq, hc, hs] at h
    obtain ⟨-, -, hr, hgo, hstop⟩ := float_castRayLoop_trace [] [] start 1 0 L fuel 0 ray n h
    refine ⟨hn, hr, ?_, ?_⟩
    · simpa [IEEE.guardAt, float_hitAt_nil] using hstop
    · intro j hj
      simpa [IEEE.guardAt, float_hitAt_nil] using hgo j (Nat.zero_le j) hj
  · intro hy hx hsub
    have hlen := float_lenAt_exact start (⌊L⌋₊ + 1) hy hx hsub
    have hpos := float_posAt_exact start (⌊L⌋₊ + 1) hy hx
    refine ⟨⌊L⌋₊ + 1, ?_, ?_, ?_⟩
    · push_cast; exact Nat.lt_floor_add_one L
    · push_cast; linarith [Nat.floor_le hL]
    · intro fuel hf
      have hgo : ∀ j, 0 ≤ j → j < 0 + (⌊L⌋₊ + 1) → IEEE.guardAt [] [] start 1 0 L j = true := by
        intro j _ hj
        have hj2 : j ≤ ⌊L⌋₊ := by omega
        have : (j : ℚ) ≤ L := (Nat.le_floor_iff hL).1 hj2
        simp [IEEE.guardAt, float_hitAt_nil, hlen j (by omega), this]
      have hstop : IEEE.guardAt [] [] start 1 0 L (0 + (⌊L⌋₊ + 1)) = false := by
        have : L < ((⌊L⌋₊ + 1 : ℕ) : ℚ) := by push_cast; exact Nat.lt_floor_add_one L
        rw [zero_add]
        simp [IEEE.guardAt, float_hitAt_nil, hlen (⌊L⌋₊ + 1) le_rfl]
        push_cast at this
        exact this
      have hrun := float_castRayLoop_run [] [] start 1 0 L (⌊L⌋₊ + 1) 0 fuel hf hgo hstop
      have h1 : IEEE.castRaySteps T fuel [] [] start 0 L =
          some (⟨start, ⟨start.x + ((⌊L⌋₊ + 1 : ℕ) : ℚ), start.y⟩⟩, ⌊L⌋₊ + 1) := by
        rw [float_castRaySteps_eq, hc, hs, hrun, zero_add, hpos (⌊L⌋₊ + 1) le_rfl]
      exact ⟨h1, by rw [IEEE.castRay, h1]; rfl⟩

/-- Witness for the amended C5: `L = 50` from the start point `(3, 4)`: the additions `3 + k` and
the subtractions `3 - (3 + k)` are exact, and the ray ends at `(3 + 51, 4)`. -/
theorem castRay_float_unobstructed_witness :
    (0 : ℚ) ≤ 50 ∧ IEEE.f32 4 = 4 ∧
    (∀ k : ℕ, k ≤ ⌊(50 : ℚ)⌋₊ + 1 → IEEE.f32 (3 + k) = 3 + k) ∧
    (∀ k : ℕ, k ≤ ⌊(50 : ℚ)⌋₊ + 1 → IEEE.f32 ((3 : ℚ) - (3 + k)) = 3 - (3 + k)) ∧
    ∃ n : ℕ, (50 : ℚ) < n ∧ (n : ℚ) ≤ 50 + 1 ∧ ∀ fuel, n ≤ fuel →
      IEEE.castRaySteps taylorTrig fuel [] [] ⟨3, 4⟩ 0 50 = some (⟨⟨3, 4⟩, ⟨3 + n, 4⟩⟩, n) ∧
      IEEE.castRay taylorTrig fuel [] [] ⟨3, 4⟩ 0 50 = some ⟨⟨3, 4⟩, ⟨3 + n, 4⟩⟩ := by
  have h4 : IEEE.f32 4 = 4 := by decide!
  have hk : ∀ k : ℕ, k ≤ ⌊(50 : ℚ)⌋₊ + 1 → IEEE.f32 (3 + k) = 3 + k := by
    intro k hk
    have h50 : ⌊(50 : ℚ)⌋₊ = 50 := by norm_num
    rw [h50] at hk
    have := IEEE.f32_natCast (3 + k) (le_trans (Nat.add_le_add_left hk 3) (by norm_num))
    simpa using this
  have hs : ∀ k : ℕ, k ≤ ⌊(50 : ℚ)⌋₊ + 1 → IEEE.f32 ((3 : ℚ) - (3 + k)) = 3 - (3 + k) := by
    intro k hk
    have h50 : ⌊(50 : ℚ)⌋₊ = 50 := by norm_num
    rw [h50] at hk
    rw [sub_add_cancel_left]
    exact IEEE.f32_neg_natCast k (le_trans hk (by norm_num))
  exact ⟨by norm_num, h4, hk, hs,
    (castRay_float_unobstructed taylorTrig ⟨3, 4⟩ 50 (by norm_num)).2 h4 hk hs⟩

/-- C5, counterexample. From the start point `(1.4f, 0)` with `L = 1` the code stops after one
step: the end point is `2.4000000954`, not `1.4f + 1`, and the step count `1` is not above `L`.
From `(16777216, 0)` with `L = 10` the addition `16777216 + 1` rounds back to `16777216`, the
computed length stays `0`, and the loop returns for no amount of fuel. -/
theorem castRay_float_unobstructed_counterexample :
    IEEE.floatPoint ⟨11744051/8388608, 0⟩ ∧
    IEEE.castRaySteps taylorTrig 5 [] [] ⟨11744051/8388608, 0⟩ 0 1 =
      some (⟨⟨11744051/8388608, 0⟩, ⟨5033165/2097152, 0⟩⟩, 1) ∧
    (5033165/2097152 : ℚ) ≠ 11744051/8388608 + 1 ∧ ¬ ((1 : ℚ) < (1 : ℕ)) ∧
    ∀ fuel, IEEE.castRaySteps taylorTrig fuel [] [] ⟨16777216, 0⟩ 0 10 = none :=
  ⟨by decide!, by decide!, by decide!, by decide!, fun fuel =>
    float_castRaySteps_absorbed taylorTrig [] [] ⟨16777216, 0⟩ 0 10 (by norm_num) (by decide!) fuel⟩

/-- C15, as the code has it. Let `(x, y)` be the `float` direction vector. If the loop condition
fails after some number `n` of steps (the computed length exceeds `limit`, or a hit is reported),
the loop terminates after at most `n` steps, for every fuel of at least `n`. If it fails after
no number of steps, the loop never returns. A finished run stopped at the first step at which the
condition fails. When the march is along the x axis (angle `0`), `limit ≥ 0` and its additions
and subtractions are exact (`start.y` is a `float`, and `start.x + k` and `start.x - (start.x + k)`
are `float` values for every `k ≤ ⌊limit⌋ + 1`), the loop terminates after at most `⌊limit⌋ + 1`
steps, which is above `limit`. -/
theorem castRay_float_termination (T : Trig) (rects : List FloatRect) (lines : List Line)
    (start : Vector2f) (angle limit x y : ℚ)
    (hx : x = T.cos (IEEE.f64 (angle * IEEE.f64 DEGREE_RADIAN_RATIO)))
    (hy : y = T.sin (IEEE.f64 (angle * IEEE.f64 DEGREE_RADIAN_RATIO))) :
    (∀ n, IEEE.guardAt rects lines start x y limit n = false →
      ∃ m, m ≤ n ∧ ∀ fuel, n ≤ fuel →
        IEEE.castRaySteps T fuel rects lines start angle limit =
          some (⟨start, IEEE.posAt start x y m⟩, m)) ∧
    ((∀ n, IEEE.guardAt rects lines start x y limit n = true) →
      ∀ fuel, IEEE.castRaySteps T fuel rects lines start angle limit = none) ∧
    (∀ fuel ray n, IEEE.castRaySteps T fuel rects lines start angle limit = some (ray, n) →
      n ≤ fuel ∧ IEEE.guardAt rects lines start x y limit n = false ∧
        ∀ j, j < n → IEEE.guardAt rects lines start x y limit j = true) ∧
    (angle = 0 → 0 ≤ limit → IEEE.f32 start.y = start.y →
      (∀ k : ℕ, k ≤ ⌊limit⌋₊ + 1 → IEEE.f32 (start.x + k) = start.x + k) →
      (∀ k : ℕ, k ≤ ⌊limit⌋₊ + 1 →
        IEEE.f32 (start.x - (start.x + k)) = start.x - (start.x + k)) →
      limit < ((⌊limit⌋₊ + 1 : ℕ) : ℚ) ∧
      ∃ m, m ≤ ⌊limit⌋₊ + 1 ∧ ∀ fuel, ⌊limit⌋₊ + 1 ≤ fuel →
        IEEE.castRaySteps T fuel rects lines start angle limit =
          some (⟨start, IEEE.posAt start x y m⟩, m)) := by
  subst hx hy
  have part1 : ∀ n, IEEE.guardAt rects lines start
      (T.cos (IEEE.f64 (angle * IEEE.f64 DEGREE_RADIAN_RATIO)))
      (T.sin (IEEE.f64 (angle * IEEE.f64 DEGREE_RADIAN_RATIO))) limit n = false →
      ∃ m, m ≤ n ∧ ∀ fuel, n ≤ fuel →
        IEEE.castRaySteps T fuel rects lines start angle limit =
          some (⟨start, IEEE.posAt start
            (T.cos (IEEE.f64 (angle * IEEE.f64 DEGREE_RADIAN_RATIO)))
            (T.sin (IEEE.f64 (angle * IEEE.f64 DEGREE_RADIAN_RATIO))) m⟩, m) := by
    intro n hn
    have hex : ∃ j, IEEE.guardAt rects lines start
        (T.cos (IEEE.f64 (angle * IEEE.f64 DEGREE_RADIAN_RATIO)))
        (T.sin (IEEE.f64 (angle * IEEE.f64 DEGREE_RADIAN_RATIO))) limit j = false := ⟨n, hn⟩
    refine ⟨Nat.find hex, Nat.find_min' hex hn, ?_⟩
    intro fuel hf
    rw [float_castRaySteps_eq]
    have hrun := float_castRayLoop_run rects lines start
      (T.cos (IEEE.f64 (angle * IEEE.f64 DEGREE_RADIAN_RATIO)))
      (T.sin (IEEE.f64 (angle * IEEE.f64 DEGREE_RADIAN_RATIO))) limit (Nat.find hex) 0 fuel
      (le_trans (Nat.find_min' hex hn) hf)
      (fun j _ hj => by
        have := Nat.find_min hex (by omega : j < Nat.find hex)
        simpa using this)
      (by rw [zero_add]; exact Nat.find_spec hex)
    rw [hrun, zero_add]
  refine ⟨part1, ?_, ?_, ?_⟩
  · intro h fuel
    rw [float_castRaySteps_eq]
    exact float_castRayLoop_none rects lines start _ _ limit fuel 0 (fun j _ _ => h j)
  · intro fuel ray n h
    rw [float_castRaySteps_eq] at h
    obtain ⟨-, hle, -, hgo, hstop⟩ := float_castRayLoop_trace rects lines start _ _ limit fuel 0 ray n h
    exact ⟨by omega, hstop, fun j hj => hgo j (Nat.zero_le j) hj⟩
  · intro ha hl hsy hsx hsub
    subst ha
    obtain ⟨hc, hs⟩ := float_direction_zero T
    have hlt : limit < ((⌊limit⌋₊ + 1 : ℕ) : ℚ) := by
      push_cast; exact Nat.lt_floor_add_one limit
    refine ⟨hlt, part1 (⌊limit⌋₊ + 1) ?_⟩
    rw [hc, hs]
    have hlen := float_lenAt_exact start (⌊limit⌋₊ + 1) hsy hsx hsub (⌊limit⌋₊ + 1) le_rfl
    simp only [IEEE.guardAt, hlen, Bool.and_eq_false_imp, decide_eq_true_eq]
    intro h
    exact absurd h (not_le.2 hlt)

/-- Witness for the amended C15: the rectangles and the segment of `main`, start `(0, 0)`, angle
`0` and the limit `500` of `main`: the additions `0 + k` and the subtractions `0 - (0 + k)` are
exact and the loop terminates after at most `501` steps. -/
theorem castRay_float_termination_witness :
    (1 : ℚ) = taylorTrig.cos (IEEE.f64 (0 * IEEE.f64 DEGREE_RADIAN_RATIO)) ∧
    (0 : ℚ) = taylorTrig.sin (IEEE.f64 (0 * IEEE.f64 DEGREE_RADIAN_RATIO)) ∧
    (500 : ℚ) < ((⌊(500 : ℚ)⌋₊ + 1 : ℕ) : ℚ) ∧
    ∃ m, m ≤ ⌊(500 : ℚ)⌋₊ + 1 ∧ ∀ fuel, ⌊(500 : ℚ)⌋₊ + 1 ≤ fuel →
      IEEE.castRaySteps taylorTrig fuel [⟨600, 100, 100, 50⟩, ⟨100, 400, 100, 100⟩]
        [⟨⟨30, 30⟩, ⟨30, 400⟩⟩] ⟨0, 0⟩ 0 500 = some (⟨⟨0, 0⟩, IEEE.posAt ⟨0, 0⟩ 1 0 m⟩, m) := by
  have hk : ∀ k : ℕ, k ≤ ⌊(500 : ℚ)⌋₊ + 1 → IEEE.f32 ((0 : ℚ) + k) = 0 + k := by
    intro k hk
    have h500 : ⌊(500 : ℚ)⌋₊ = 500 := by norm_num
    rw [h500] at hk
    have := IEEE.f32_natCast k (le_trans hk (by norm_num))
    simpa using this
  have h1 : (1 : ℚ) = taylorTrig.cos (IEEE.f64 (0 * IEEE.f64 DEGREE_RADIAN_RATIO)) := by decide!
  have h0 : (0 : ℚ) = taylorTrig.sin (IEEE.f64 (0 * IEEE.f64 DEGREE_RADIAN_RATIO)) := by decide!
  have hs : ∀ k : ℕ, k ≤ ⌊(500 : ℚ)⌋₊ + 1 →
      IEEE.f32 ((⟨0, 0⟩ : Vector2f).x - ((⟨0, 0⟩ : Vector2f).x + k)) =
        (⟨0, 0⟩ : Vector2f).x - ((⟨0, 0⟩ : Vector2f).x + k) := by
    intro k hk
    have h500 : ⌊(500 : ℚ)⌋₊ = 500 := by norm_num
    rw [h500] at hk
    rw [sub_add_cancel_left]
    exact IEEE.f32_neg_natCast k (le_trans hk (by norm_num))
  exact ⟨h1, h0,
    (castRay_float_termination taylorTrig [⟨600, 100, 100, 50⟩, ⟨100, 400, 100, 100⟩]
      [⟨⟨30, 30⟩, ⟨30, 400⟩⟩] ⟨0, 0⟩ 0 500 1 0 h1 h0).2.2.2 rfl (by norm_num)
      (by decide!) hk hs⟩

/-- C15, counterexample. With no obstacles, start `(0, 0)`, angle `0` and `limit = 50` the loop
makes `51` advance steps, more than `limit`. From the start point `(16777216, 0)` the addition
`16777216 + 1` rounds back to `16777216`, the computed length stays `0`, and the loop does not
terminate: no amount of fuel gives a result. -/
theorem castRay_float_step_bound_counterexample :
    IEEE.castRaySteps taylorTrig 60 [] [] ⟨0, 0⟩ 0 50 = some (⟨⟨0, 0⟩, ⟨51, 0⟩⟩, 51) ∧
    ¬ ((51 : ℚ) ≤ 50) ∧
    IEEE.floatPoint ⟨16777216, 0⟩ ∧
    ∀ fuel, IEEE.castRaySteps taylorTrig fuel [] [] ⟨16777216, 0⟩ 0 50 = none :=
  ⟨by decide!, by decide!, by decide!, fun fuel =>
    float_castRaySteps_absorbed taylorTrig [] [] ⟨16777216, 0⟩ 0 50 (by norm_num) (by decide!) fuel⟩

/-! ## Binary32/binary64 counterparts of the exact results -/

/-- With a negative limit the binary32 loop makes no step either: the computed length `0` is
above the limit. -/
theorem float_castRaySteps_negative_limit (T : Trig) (fuel : ℕ) (rects : List FloatRect)
    (lines : List Line) (start : Vector2f) (angle limit : ℚ) (h : limit < 0) :
    IEEE.castRaySteps T fuel rects lines start angle limit = some (⟨start, start⟩, 0) := by
  rw [float_castRaySteps_eq]
  have hstop : IEEE.guardAt rects lines start
      (T.cos (IEEE.f64 (angle * IEEE.f64 DEGREE_RADIAN_RATIO)))
      (T.sin (IEEE.f64 (angle * IEEE.f64 DEGREE_RADIAN_RATIO))) limit (0 + 0) = false := by
    simp [IEEE.guardAt, float_lenAt_zero, h]
  exact float_castRayLoop_run rects lines start _ _ limit 0 0 fuel (Nat.zero_le _)
    (fun j h1 h2 => absurd h2 (by omega)) hstop

theorem float_denominator_comm (l1 l2 : Line) :
    IEEE.denominator l2 l1 = -IEEE.denominator l1 l2 := by
  simp only [IEEE.denominator]
  rw [mul_comm (IEEE.f32 (l2.p0.x - l2.p1.x)), mul_comm (IEEE.f32 (l2.p0.y - l2.p1.y))]
  exact f32_sub_rev _ _

theorem float_intersect_comm (l1 l2 : Line) : IEEE.intersect l2 l1 = IEEE.intersect l1 l2 := by
  simp only [IEEE.intersect, float_denominator_comm l1 l2]
  generalize IEEE.f32 (IEEE.f32 (l1.p0.x * l1.p1.y) - IEEE.f32 (l1.p0.y * l1.p1.x)) = a
  generalize IEEE.f32 (IEEE.f32 (l2.p0.x * l2.p1.y) - IEEE.f32 (l2.p0.y * l2.p1.x)) = b
  generalize IEEE.f32 (l1.p0.x - l1.p1.x) = dx1
  generalize IEEE.f32 (l1.p0.y - l1.p1.y) = dy1
  generalize IEEE.f32 (l2.p0.x - l2.p1.x) = dx2
  generalize IEEE.f32 (l2.p0.y - l2.p1.y) = dy2
  rw [f32_sub_rev (IEEE.f32 (a * dx2)) (IEEE.f32 (b * dx1)),
    f32_sub_rev (IEEE.f32 (a * dy2)) (IEEE.f32 (b * dy1)), neg_div_neg_eq, neg_div_neg_eq]

/-- Exchanging the two segments leaves the binary32/binary64 result unchanged as well. -/
theorem float_lli_comm (l1 l2 : Line) :
    IEEE.lineLineIntersection l2 l1 = IEEE.lineLineIntersection l1 l2 := by
  have hr : IEEE.ratios l2 l1 = ((IEEE.ratios l1 l2).2.2.1, (IEEE.ratios l1 l2).2.2.2,
      (IEEE.ratios l1 l2).1, (IEEE.ratios l1 l2).2.1) := by
    simp only [IEEE.ratios, float_intersect_comm l1 l2]
  rw [float_lli_eq l2 l1, float_lli_eq l1 l2, float_denominator_comm, float_intersect_comm, hr]
  simp only [cRound_neg_eq_zero_iff]
  rw [Bool.and_comm]

/-- The three evaluated defects in binary32/binary64 arithmetic: the inputs are small integers
and halves, no operation rounds, and the results are those of the exact functions. -/
theorem float_defects_evaluated :
    IEEE.castRaySteps taylorTrig 5 [] [⟨⟨5/2, -1⟩, ⟨5/2, 1⟩⟩] ⟨0, 0⟩ 0 100 =
      some (⟨⟨0, 0⟩, ⟨3, 0⟩⟩, 3) ∧
    IEEE.lineLineIntersection ⟨⟨0, 0⟩, ⟨3, 0⟩⟩ ⟨⟨5/2, -1⟩, ⟨5/2, 1⟩⟩ = some ⟨5/2, 0⟩ ∧
    IEEE.castRaySteps taylorTrig 101 [⟨10, -5, 5, 10⟩] [] ⟨0, 0⟩ 0 100 =
      some (⟨⟨0, 0⟩, ⟨101, 0⟩⟩, 101) ∧
    IEEE.lineRectIntersection ⟨⟨0, 0⟩, ⟨12, 0⟩⟩ ⟨10, -5, 5, 10⟩ = none ∧
    IEEE.lineLineIntersection ⟨⟨0, 0⟩, ⟨12, 0⟩⟩ ⟨⟨10, 5⟩, ⟨10, -5⟩⟩ = some ⟨10, 0⟩ := by
  decide!

/-! ## The angle round trip -/

end LineIntersections
